import Mathlib

/-!
Verification of the tick-knock reactive ECS core (Entity / LinkedComponentList /
Signal / Query / EntitySnapshot) against its natural-language specification.

The embedding mirrors the JavaScript sources in `src/lib` and `src/unnamed`:

* JS object identity is modelled by structural equality on the Lean values that
  stand for object references (`CInst`, `CClass` carry a `ref`/`iid` field, so
  two distinct objects are distinct values).
* `getComponentId` (src/unnamed/part_009) keys its registry by the constructor
  *name* of the class and hands out integers in bijection with first-use order
  of names.  Entity operations therefore key their component slots by the class
  name directly (`CompId := String`); the integer indirection is observably
  equivalent and is modelled faithfully (with the integer counter) separately
  as `Registry` for the claims about `getComponentId` itself.
* JS `Map`/object maps become association lists, JS `Set` becomes an
  insertion-ordered duplicate-free list.
* `LinkedComponentList` (a chain of `next` pointers through the instances) is
  modelled as the list of its member instances in chain order; within the scope
  considered here (instances are appended while unlinked, i.e. with
  `next === undefined`) the pointer structure and the list coincide.
* Exceptions become `Except` results; the error value carries the entity state
  at the moment of the throw (JS exceptions leave prior mutations in place).
* The `while` loop of `Entity.removeComponent` and the mutual calls between
  `removeComponent` / `withdraw` / `withdrawComponent` are modelled with an
  explicit fuel parameter; the JS code can actually diverge on ill-formed
  states, and fuel models that partiality.  Theorems take an `ok` result, so
  they only speak about runs the JS code completes.
* `instanceof` checks for `resolveClass` are modelled flat (class equality):
  no claim under consideration exercises subclass resolution.
* Signals: `Array.prototype.sort` (ES2019+) is a stable sort; it is modelled
  by a stable insertion sort on the handler array.
-/

namespace TickKnock

/-- A tag is a string or a number (src/unnamed/part_005 `isTag`). -/
inductive Tag where
  | str (s : String)
  | num (n : Int)
deriving DecidableEq, Repr

/-- A component class: `ref` models the identity of the class object,
`name` its `constructor.name`. -/
structure CClass where
  ref : Nat
  name : String
deriving DecidableEq, Repr

/-- A component instance: `iid` models the identity of the JS object, `cls` its
constructor, `linked` whether `isLinkedComponent` holds for it (the instance
owns a `next` property). -/
structure CInst where
  iid : Nat
  cls : CClass
  linked : Bool
deriving DecidableEq, Repr

/-- Argument of `Entity.add` / payload of structural events: component or tag. -/
inductive COT where
  | comp (c : CInst)
  | tag (t : Tag)
deriving DecidableEq, Repr

/-- Argument of `Entity.has` / `Entity.remove`: a component class or a tag. -/
inductive Key where
  | cls (c : CClass)
  | tag (t : Tag)
deriving DecidableEq, Repr

/-- src/lib/ecs/LinkedComponent.js `isLinkedComponent`. -/
def isLinkedComponentM (c : CInst) : Bool := c.linked

/-- Component slot identifier.  `getComponentId` keys its process-wide registry
by `constructor.name`, so slots are keyed by the class name here. -/
abbrev CompId := String

/-- The id under which a class is stored (see module comment: the integer ids
of src/unnamed/part_009 are in bijection with class names). -/
def getComponentIdM (c : CClass) : CompId := c.name

/-- Errors surfaced by entity operations.  `fuelOut` marks a run the JS code
would not complete within the given fuel. -/
inductive EErr where
  | resolveMismatch
  | duplicateAppend
  | fuelOut
deriving DecidableEq, Repr

/-- src/unnamed/part_009 `getComponentClass`: resolve the class of an instance,
checking a `resolveClass` if given (`instanceof` modelled flat). -/
def getComponentClassM (c : CInst) (resolve : Option CClass) : Except EErr CClass :=
  match resolve with
  | none => .ok c.cls
  | some r => if c.cls = r then .ok r else .error .resolveMismatch

/-! Association-list helpers standing for JS object maps. -/

/-- Lookup in an association list (JS `map[id]`). -/
def alookup {α : Type} : List (CompId × α) → CompId → Option α
  | [], _ => none
  | (k, v) :: rest, id => if k = id then some v else alookup rest id

/-- Set a key (JS `map[id] = v`): replaces in place or appends. -/
def aset {α : Type} : List (CompId × α) → CompId → α → List (CompId × α)
  | [], id, v => [(id, v)]
  | (k, w) :: rest, id, v =>
    if k = id then (k, v) :: rest else (k, w) :: aset rest id v

/-- Delete a key (JS `delete map[id]`). -/
def aerase {α : Type} : List (CompId × α) → CompId → List (CompId × α)
  | [], _ => []
  | (k, w) :: rest, id => if k = id then rest else (k, w) :: aerase rest id

/-- Remove the first occurrence of an element
(`LinkedComponentList.remove` unlinks the first identity match). -/
def eraseFirst {α : Type} [DecidableEq α] : List α → α → List α
  | [], _ => []
  | x :: xs, a => if x = a then xs else x :: eraseFirst xs a

/-- The state of an `Entity` (src/lib/ecs/Entity.js): id, the component map
(`_components`, one visible instance per id), the linked-component lists
(`_linkedComponents`) and the tag set (`_tags`). -/
structure Ent where
  eid : Nat
  components : List (CompId × CInst)
  linked : List (CompId × List CInst)
  tags : List Tag
deriving DecidableEq, Repr

/-- A structural-change event as dispatched by the entity. -/
inductive Ev where
  | added (x : COT)
  | removed (x : COT)
deriving DecidableEq, Repr

/-- One dispatch: the entity state at the moment of the dispatch, and the
event.  `dispatchOnComponentAdded/Removed` fire synchronously mid-operation,
so the state at dispatch time matters. -/
abbrev TrEv := Ent × Ev

/-- `Entity.hasTag`. -/
def hasTagM (e : Ent) (t : Tag) : Bool := decide (t ∈ e.tags)

/-- `Entity.hasComponent`: false when the class was never registered, else a
slot lookup. -/
def hasComponentM (e : Ent) (cls : CClass) : Bool :=
  (alookup e.components (getComponentIdM cls)).isSome

/-- `Entity.has`: tag or component presence. -/
def hasKeyM (e : Ent) : Key → Bool
  | .tag t => hasTagM e t
  | .cls c => hasComponentM e c

/-- `Entity.get`: the visible instance (head if linked). -/
def getM (e : Ent) (cls : CClass) : Option CInst :=
  alookup e.components (getComponentIdM cls)

/-- `Entity.addTag`: insert if absent, dispatching one added event. -/
def addTagM (e : Ent) (t : Tag) : Ent × List TrEv :=
  if t ∈ e.tags then (e, [])
  else
    let e' : Ent := { e with tags := e.tags ++ [t] }
    (e', [(e', .added (.tag t))])

/-- `Entity.removeTag`: delete if present, dispatching one removed event. -/
def removeTagM (e : Ent) (t : Tag) : Ent × List TrEv :=
  if t ∈ e.tags then
    let e' : Ent := { e with tags := e.tags.filter (fun x => decide (x ≠ t)) }
    (e', [(e', .removed (.tag t))])
  else (e, [])

/-- `Entity.getLinkedComponentList` with `createIfNotExists`: returns the list
for the id, creating an empty one when requested. -/
def getLinkedListM (e : Ent) (id : CompId) (create : Bool) : Option (List CInst) × Ent :=
  match alookup e.linked id with
  | some l => (some l, e)
  | none =>
    if create then (some [], { e with linked := aset e.linked id [] }) else (none, e)

/-- `Entity.appendComponent`: resolve the class, `LinkedComponentList.add`
(identity scan, throws on a duplicate before any mutation of an existing
list), set the visible slot to the list head if it was empty, dispatch one
added event. -/
def appendComponentM (e : Ent) (c : CInst) (resolve : Option CClass) :
    Except (EErr × Ent) (Ent × List TrEv) :=
  match getComponentClassM c resolve with
  | .error er => .error (er, e)
  | .ok cls =>
    let id := getComponentIdM cls
    let (l?, e₁) := getLinkedListM e id true
    let l := l?.getD []
    if c ∈ l then .error (.duplicateAppend, e₁)
    else
      let l' := l ++ [c]
      let e₂ : Ent := { e₁ with linked := aset e₁.linked id l' }
      let e₃ : Ent :=
        match alookup e₂.components id, l' with
        | none, h :: _ => { e₂ with components := aset e₂.components id h }
        | _, _ => e₂
      .ok (e₃, [(e₃, .added (.comp c))])

/-- Commands for the mutually recursive removal operations of `Entity`
(`removeComponent`, its internal while-loop, `withdraw`, `withdrawComponent`),
run on shared fuel. -/
inductive RemCmd where
  | removeComponent (cls : CClass)
  | removeAllLoop (cls : CClass)
  | withdraw (cls : CClass)
  | withdrawComponent (c : CInst) (resolve : Option CClass)

/-- The removal operations of `Entity`, faithful to the JS call graph:

* `removeComponent`: no-op when the slot is absent; for a linked visible
  instance, loop `withdraw` until the list is empty, returning the former
  head; otherwise delete the slot and dispatch one removed event.
* `removeAllLoop`: the `while (!list.isEmpty) this.withdraw(cls)` loop.
* `withdraw`: `get` then `withdrawComponent` on the head, no-op when absent.
* `withdrawComponent`: for a non-linked instance degenerate to
  `remove(componentClass)`; otherwise unlink the first identity match,
  delete the slot and the list if the list emptied or re-point the slot at
  the new head, and dispatch one removed event if a node was found. -/
def runRem : Nat → Ent → RemCmd → Except (EErr × Ent) (Ent × List TrEv × Option CInst)
  | 0, e, _ => .error (.fuelOut, e)
  | Nat.succ fuel, e, cmd =>
    match cmd with
    | .removeComponent cls =>
      let id := getComponentIdM cls
      match alookup e.components id with
      | none => .ok (e, [], none)
      | some value =>
        if isLinkedComponentM value then
          let (_, e₁) := getLinkedListM e id true
          match runRem fuel e₁ (.removeAllLoop cls) with
          | .error er => .error er
          | .ok (e₂, tr, _) => .ok (e₂, tr, some value)
        else
          let e₁ : Ent := { e with components := aerase e.components id }
          .ok (e₁, [(e₁, .removed (.comp value))], some value)
    | .removeAllLoop cls =>
      let id := getComponentIdM cls
      match alookup e.linked id with
      | none => .ok (e, [], none)
      | some [] => .ok (e, [], none)
      | some (_ :: _) =>
        match runRem fuel e (.withdraw cls) with
        | .error er => .error er
        | .ok (e₁, tr₁, r₁) =>
          match runRem fuel e₁ (.removeAllLoop cls) with
          | .error er => .error er
          | .ok (e₂, tr₂, _) => .ok (e₂, tr₁ ++ tr₂, r₁)
    | .withdraw cls =>
      match getM e cls with
      | none => .ok (e, [], none)
      | some comp => runRem fuel e (.withdrawComponent comp (some cls))
    | .withdrawComponent c resolve =>
      match getComponentClassM c resolve with
      | .error er => .error (er, e)
      | .ok cls =>
        if ¬ isLinkedComponentM c then
          runRem fuel e (.removeComponent cls)
        else
          let id := getComponentIdM cls
          match alookup e.components id, alookup e.linked id with
          | some _, some list =>
            let found := decide (c ∈ list)
            let list' := eraseFirst list c
            let e₁ : Ent := { e with linked := aset e.linked id list' }
            let e₂ : Ent :=
              match list' with
              | [] => { e₁ with components := aerase e₁.components id,
                                linked := aerase e₁.linked id }
              | h :: _ => { e₁ with components := aset e₁.components id h }
            if found then .ok (e₂, [(e₂, .removed (.comp c))], some c)
            else .ok (e₂, [], none)
          | _, _ => .ok (e, [], none)

/-- `Entity.removeComponent` (class argument). -/
def removeComponentM (fuel : Nat) (e : Ent) (cls : CClass) :
    Except (EErr × Ent) (Ent × List TrEv × Option CInst) :=
  runRem fuel e (.removeComponent cls)

/-- `Entity.withdraw`. -/
def withdrawM (fuel : Nat) (e : Ent) (cls : CClass) :
    Except (EErr × Ent) (Ent × List TrEv × Option CInst) :=
  runRem fuel e (.withdraw cls)

/-- `Entity.withdrawComponent` (also `Entity.pick`). -/
def withdrawComponentM (fuel : Nat) (e : Ent) (c : CInst) (resolve : Option CClass) :
    Except (EErr × Ent) (Ent × List TrEv × Option CInst) :=
  runRem fuel e (.withdrawComponent c resolve)

/-- `Entity.remove`: tag branch deletes the tag and returns `undefined`,
class branch is `removeComponent`. -/
def removeM (fuel : Nat) (e : Ent) : Key →
    Except (EErr × Ent) (Ent × List TrEv × Option CInst)
  | .tag t =>
    let (e', tr) := removeTagM e t
    .ok (e', tr, none)
  | .cls cls => removeComponentM fuel e cls

/-- `Entity.addComponent`: if a visible instance of the same resolved id
exists, either return unchanged (same non-linked instance) or remove it
(remove-then-add); then append (linked) or set the slot and dispatch added. -/
def addComponentM (fuel : Nat) (e : Ent) (c : CInst) (resolve : Option CClass) :
    Except (EErr × Ent) (Ent × List TrEv) :=
  match getComponentClassM c resolve with
  | .error er => .error (er, e)
  | .ok cls =>
    let id := getComponentIdM cls
    let lk := isLinkedComponentM c
    let finish : Ent → List TrEv → Except (EErr × Ent) (Ent × List TrEv) :=
      fun e₁ tr₁ =>
        if lk then
          match appendComponentM e₁ c resolve with
          | .error er => .error er
          | .ok (e₂, tr₂) => .ok (e₂, tr₁ ++ tr₂)
        else
          let e₂ : Ent := { e₁ with components := aset e₁.components id c }
          .ok (e₂, tr₁ ++ [(e₂, .added (.comp c))])
    match alookup e.components id with
    | some existing =>
      if ¬ lk ∧ existing = c then .ok (e, [])
      else
        match runRem fuel e (.removeComponent cls) with
        | .error er => .error er
        | .ok (e₁, tr₁, _) => finish e₁ tr₁
    | none => finish e []

/-- `Entity.add`: tags go to `addTag`, components to `addComponent`. -/
def addM (fuel : Nat) (e : Ent) (x : COT) (resolve : Option CClass) :
    Except (EErr × Ent) (Ent × List TrEv) :=
  match x with
  | .tag t => .ok (addTagM e t)
  | .comp c => addComponentM fuel e c resolve

/-- `Entity.lengthOf` counts the walk of the type's linked list (zero
iterations when the list is absent; the empty list `iterate` would create is
observably irrelevant and elided). -/
def lengthOfM (e : Ent) (cls : CClass) : Nat :=
  if hasComponentM e cls then
    match alookup e.linked (getComponentIdM cls) with
    | none => 0
    | some l => l.length
  else 0

/-- `Entity.clear`. -/
def clearM (e : Ent) : Ent := { e with components := [], linked := [], tags := [] }

/-- `Entity.copyFrom`: shallow copies of the component map, the linked lists
and the tag set. -/
def copyFromM (dst src : Ent) : Ent :=
  { dst with components := src.components, linked := src.linked, tags := src.tags }

/-! ## Signal (src/lib/utils/Signal.js)

Handlers are identified by a `Nat` (JS function identity); a `SignalHandler`
pairs a handler with its priority. -/

/-- One entry of the `handlers` array of a `Signal`. -/
structure SH where
  handler : Nat
  priority : Int
deriving DecidableEq, Repr

/-- Stable insertion of `x` after every element of priority `≤ x.priority`
(helper for the stable sort). -/
def insertTail (x : SH) : List SH → List SH
  | [] => [x]
  | y :: ys => if x.priority < y.priority then x :: y :: ys else y :: insertTail x ys

/-- `handlers.sort((a, b) => a.priority - b.priority)`: `Array.prototype.sort`
is stable (ES2019), and for this comparator its result is uniquely determined;
it is realised here as a stable insertion sort. -/
def sortHandlers (l : List SH) : List SH :=
  l.foldl (fun acc x => insertTail x acc) []

/-- `Signal.connect`: update the priority of an existing handler and re-sort
only if it changed; otherwise push at the end and re-sort only if the last
handler's priority exceeds the new one. -/
def connectM (l : List SH) (h : Nat) (p : Int) : List SH :=
  match l.find? (fun sh => sh.handler == h) with
  | some existing =>
    let l' := l.map (fun sh => if sh.handler == h then { sh with priority := p } else sh)
    if existing.priority ≠ p then sortHandlers l' else l'
  | none =>
    let needResort :=
      match l.getLast? with
      | some last => decide (p < last.priority)
      | none => false
    let l' := l ++ [⟨h, p⟩]
    if needResort then sortHandlers l' else l'

/-- `Signal.disconnect`: remove the first identity match. -/
def disconnectM (l : List SH) (h : Nat) : List SH :=
  match l.findIdx? (fun sh => sh.handler == h) with
  | some i => l.eraseIdx i
  | none => l

/-- `Signal.emit` invokes the handlers in array order. -/
def emitOrder (l : List SH) : List SH := l

/-- A connect/disconnect call on a signal. -/
inductive SigOp where
  | connect (h : Nat) (p : Int)
  | disconnect (h : Nat)
deriving DecidableEq, Repr

/-- One call on the signal's handler array. -/
def stepSig (l : List SH) : SigOp → List SH
  | .connect h p => connectM l h p
  | .disconnect h => disconnectM l h

/-- Run a sequence of connect/disconnect calls from the empty signal. -/
def runSig (ops : List SigOp) : List SH :=
  ops.foldl stepSig []

/-- Reference bookkeeping for "connection order": connect updates the
priority of a connected handler in place and otherwise appends, disconnect
removes; no sorting. -/
def stepNaive (l : List SH) : SigOp → List SH
  | .connect h p =>
    if l.any (fun sh => sh.handler == h)
    then l.map (fun sh => if sh.handler == h then { sh with priority := p } else sh)
    else l ++ [⟨h, p⟩]
  | .disconnect h => disconnectM l h

/-- The currently connected handlers in connection order (the order of the
`connect` calls that inserted them), with their latest priorities. -/
def runSigNaive (ops : List SigOp) : List SH :=
  ops.foldl stepNaive []

/-- `true` when no `connect` call of the sequence targets a handler that is
already connected at that point (run from the naive state `n`). -/
def freshRun (n : List SH) : List SigOp → Bool
  | [] => true
  | .connect h p :: rest =>
    !(n.any (fun sh => sh.handler == h)) && freshRun (stepNaive n (.connect h p)) rest
  | .disconnect h :: rest => freshRun (stepNaive n (.disconnect h)) rest

/-! ## EntitySnapshot (src/lib/ecs/Entity.js `takeSnapshot`, `EntitySnapshot`) -/

/-- The reusable snapshot: `cur` is the identity of the entity `current`
points at (or `none` before first use), `prev` the scratch previous-state
entity. -/
structure Snap where
  cur : Option Nat
  prev : Ent
deriving DecidableEq, Repr

/-- `Entity.takeSnapshot`: recopy `previous` from the live entity only when
the snapshot currently points at a different entity, then patch the single
changed field (delete it from `previous` if the entity now has it, re-add it
otherwise). -/
def takeSnapshotM (e : Ent) (s : Snap) (changed : Option COT) (resolve : Option CClass) :
    Snap :=
  let s₁ : Snap :=
    if s.cur ≠ some e.eid then { cur := some e.eid, prev := copyFromM s.prev e } else s
  match changed with
  | none => s₁
  | some (.tag t) =>
    let prev' : Ent :=
      if hasTagM e t then
        { s₁.prev with tags := s₁.prev.tags.filter (fun x => decide (x ≠ t)) }
      else { s₁.prev with tags := s₁.prev.tags ++ [t] }
    { s₁ with prev := prev' }
  | some (.comp c) =>
    let cls := resolve.getD c.cls
    let id := getComponentIdM cls
    let prev' : Ent :=
      if hasComponentM e cls then { s₁.prev with components := aerase s₁.prev.components id }
      else { s₁.prev with components := aset s₁.prev.components id c }
    { s₁ with prev := prev' }

/-! ## Query (src/unnamed/part_004) -/

/-- The mutable state of a `Query`: the membership list (entity ids in
observation order), the reusable shadow entity `_helper` and the reusable
`_snapshot`. -/
structure QState where
  entities : List Nat
  helper : Ent
  snapshot : Snap
deriving DecidableEq, Repr

/-- A query's static configuration: its predicate, and whether its
`onEntityAdded` / `onEntityRemoved` signals have handlers (the source only
builds snapshots and emits when they do). -/
structure QCfg where
  pred : Ent → Bool
  hasAddedHandlers : Bool
  hasRemovedHandlers : Bool

/-- An emission on a query's added/removed signals, carrying the snapshot. -/
inductive QEv where
  | qAdded (s : Snap)
  | qRemoved (s : Snap)
deriving DecidableEq, Repr

/-- `Query.has`. -/
def queryHasM (q : QState) (eid : Nat) : Bool := decide (eid ∈ q.entities)

/-- `Query.updateHelper`: clear the helper, recopy it from the live entity,
then re-apply the changed item — `add` for a non-linked component or tag,
`append` only when the helper does not already have the resolved class. -/
def updateHelperM (fuel : Nat) (helper : Ent) (e : Ent) (cot : COT)
    (resolve : Option CClass) : Except (EErr × Ent) Ent :=
  let h₁ := copyFromM (clearM helper) e
  match cot with
  | .tag t => .ok (addTagM h₁ t).1
  | .comp c =>
    if ¬ isLinkedComponentM c then
      match addComponentM fuel h₁ c none with
      | .error er => .error er
      | .ok (h₂, _) => .ok h₂
    else
      match getComponentClassM c resolve with
      | .error er => .error (er, h₁)
      | .ok cls =>
        if hasKeyM h₁ (.cls cls) then .ok h₁
        else
          match appendComponentM h₁ c none with
          | .error er => .error er
          | .ok (h₂, _) => .ok h₂

/-- `Query.entityComponentAdded`: rebuild the helper, evaluate the predicate
on it, admit a non-member that matches (emit added) or evict a member that
does not (emit removed); snapshots only when the signal has handlers. -/
def entityComponentAddedM (fuel : Nat) (cfg : QCfg) (q : QState) (e : Ent) (cot : COT)
    (resolve : Option CClass) : Except (EErr × Ent) (QState × List QEv) :=
  match updateHelperM fuel q.helper e cot resolve with
  | .error er => .error er
  | .ok helper' =>
    let q₁ : QState := { q with helper := helper' }
    let isIn := decide (e.eid ∈ q₁.entities)
    let isMatch := cfg.pred helper'
    if ¬ isIn ∧ isMatch then
      let q₂ : QState := { q₁ with entities := q₁.entities ++ [e.eid] }
      if cfg.hasAddedHandlers then
        let snap := takeSnapshotM e q₂.snapshot (some cot) resolve
        .ok ({ q₂ with snapshot := snap }, [.qAdded snap])
      else .ok (q₂, [])
    else if isIn ∧ ¬ isMatch then
      let q₂ : QState := { q₁ with entities := eraseFirst q₁.entities e.eid }
      if cfg.hasRemovedHandlers then
        let snap := takeSnapshotM e q₂.snapshot (some cot) resolve
        .ok ({ q₂ with snapshot := snap }, [.qRemoved snap])
      else .ok (q₂, [])
    else .ok (q₁, [])

/-- `Query.entityComponentRemoved`: rebuild the helper (shadow), then compare
`predicate(shadow)` and `predicate(entity)`: evict a member whose shadow
matches but whose current state does not; admit a non-member whose current
state matches but whose shadow does not. -/
def entityComponentRemovedM (fuel : Nat) (cfg : QCfg) (q : QState) (e : Ent) (cot : COT)
    (resolve : Option CClass) : Except (EErr × Ent) (QState × List QEv) :=
  match updateHelperM fuel q.helper e cot resolve with
  | .error er => .error er
  | .ok helper' =>
    let q₁ : QState := { q with helper := helper' }
    let isIn := decide (e.eid ∈ q₁.entities)
    if isIn ∧ cfg.pred helper' ∧ ¬ cfg.pred e then
      let q₂ : QState := { q₁ with entities := eraseFirst q₁.entities e.eid }
      if cfg.hasRemovedHandlers then
        let snap := takeSnapshotM e q₂.snapshot (some cot) resolve
        .ok ({ q₂ with snapshot := snap }, [.qRemoved snap])
      else .ok (q₂, [])
    else if ¬ isIn ∧ cfg.pred e ∧ ¬ cfg.pred helper' then
      let q₂ : QState := { q₁ with entities := q₁.entities ++ [e.eid] }
      if cfg.hasAddedHandlers then
        let snap := takeSnapshotM e q₂.snapshot (some cot) resolve
        .ok ({ q₂ with snapshot := snap }, [.qAdded snap])
      else .ok (q₂, [])
    else .ok (q₁, [])

/-- `Query.entityAdded` (whole-entity admission, also used by `matchEntities`):
evaluate the predicate on the current state directly. -/
def entityAddedM (cfg : QCfg) (q : QState) (e : Ent) : QState × List QEv :=
  if e.eid ∉ q.entities ∧ cfg.pred e then
    let q₁ : QState := { q with entities := q.entities ++ [e.eid] }
    if cfg.hasAddedHandlers then
      let snap := takeSnapshotM e q₁.snapshot none none
      ({ q₁ with snapshot := snap }, [.qAdded snap])
    else (q₁, [])
  else (q, [])

/-- `Engine`'s router (src/lib/ecs/Engine.d.ts): `connectEntity` wires every
connected entity's `onComponentAdded` / `onComponentRemoved` signals (at
priority `Number.POSITIVE_INFINITY`, i.e. last) to the engine's callbacks,
which fan each event out to every attached query's `entityComponentAdded` /
`entityComponentRemoved` via `_queries.forEach`.  The entity dispatches
`emit(this, component)` (Entity.js `dispatchOnComponentAdded/Removed`), so
the `componentClass` argument is `undefined` — hence `resolve = none` here —
and each dispatch is handled synchronously.  Routing a trace therefore folds
the query handlers over the dispatches in order; we model the fan-out for
one query, which is its faithful projection since the queries do not
interact. -/
def processTraceM (fuel : Nat) (cfg : QCfg) (q : QState) :
    List TrEv → Except (EErr × Ent) (QState × List QEv)
  | [] => .ok (q, [])
  | (eDisp, ev) :: rest =>
    let step :=
      match ev with
      | .added cot => entityComponentAddedM fuel cfg q eDisp cot none
      | .removed cot => entityComponentRemovedM fuel cfg q eDisp cot none
    match step with
    | .error er => .error er
    | .ok (q₁, evs₁) =>
      match processTraceM fuel cfg q₁ rest with
      | .error er => .error er
      | .ok (q₂, evs₂) => .ok (q₂, evs₁ ++ evs₂)

/-- The mutation alphabet of claim C1: `add`, `remove`, `append`, `withdraw`
on one entity. -/
inductive Op where
  | add (x : COT)
  | remove (k : Key)
  | append (c : CInst)
  | withdraw (cls : CClass)
deriving Repr

/-- Apply one entity operation, then route its dispatch trace through the
query (the engine's synchronous event processing). -/
def stepM (fuel : Nat) (cfg : QCfg) (e : Ent) (q : QState) (op : Op) :
    Except (EErr × Ent) (Ent × QState × List QEv) :=
  let entRes : Except (EErr × Ent) (Ent × List TrEv) :=
    match op with
    | .add x => addM fuel e x none
    | .remove k =>
      match removeM fuel e k with
      | .error er => .error er
      | .ok (e', tr, _) => .ok (e', tr)
    | .append c => appendComponentM e c none
    | .withdraw cls =>
      match withdrawM fuel e cls with
      | .error er => .error er
      | .ok (e', tr, _) => .ok (e', tr)
  match entRes with
  | .error er => .error er
  | .ok (e', tr) =>
    match processTraceM fuel cfg q tr with
    | .error er => .error er
    | .ok (q', evs) => .ok (e', q', evs)

/-- Run a sequence of operations with engine processing after each. -/
def runOpsM (fuel : Nat) (cfg : QCfg) : Ent → QState → List Op →
    Except (EErr × Ent) (Ent × QState)
  | e, q, [] => .ok (e, q)
  | e, q, op :: rest =>
    match stepM fuel cfg e q op with
    | .error er => .error er
    | .ok (e', q', _) => runOpsM fuel cfg e' q' rest

/-! ## Association-list lemmas -/

theorem alookup_aset_self {α : Type} (m : List (CompId × α)) (id : CompId) (v : α) :
    alookup (aset m id v) id = some v := by
  induction m with
  | nil => simp [aset, alookup]
  | cons kv rest ih =>
    obtain ⟨k, w⟩ := kv
    by_cases h : k = id
    · simp [aset, alookup, h]
    · simp [aset, alookup, h, ih]

theorem alookup_aset_ne {α : Type} (m : List (CompId × α)) (id id' : CompId) (v : α)
    (h : id' ≠ id) : alookup (aset m id v) id' = alookup m id' := by
  induction m with
  | nil => simp [aset, alookup, Ne.symm h]
  | cons kv rest ih =>
    obtain ⟨k, w⟩ := kv
    by_cases hk : k = id
    · subst hk
      simp [aset, alookup, Ne.symm h]
    · simp [aset, alookup, hk, ih]

theorem alookup_aerase_ne {α : Type} (m : List (CompId × α)) (id id' : CompId)
    (h : id' ≠ id) : alookup (aerase m id) id' = alookup m id' := by
  induction m with
  | nil => simp [aerase]
  | cons kv rest ih =>
    obtain ⟨k, w⟩ := kv
    by_cases hk : k = id
    · subst hk
      simp [aerase, alookup, Ne.symm h]
    · simp [aerase, alookup, hk, ih]

/-- A key is present among the keys iff `alookup` finds it. -/
theorem alookup_isSome_iff_mem_keys {α : Type} (m : List (CompId × α)) (id : CompId) :
    (alookup m id).isSome = true ↔ id ∈ m.map Prod.fst := by
  induction m with
  | nil => simp [alookup]
  | cons kv rest ih =>
    obtain ⟨k, w⟩ := kv
    by_cases hk : k = id
    · subst hk; simp [alookup]
    · simp only [alookup, if_neg hk, List.map_cons, List.mem_cons]
      rw [ih]
      constructor
      · exact Or.inr
      · rintro (rfl | hm)
        · exact absurd rfl hk
        · exact hm

theorem not_mem_keys_aerase {α : Type} (m : List (CompId × α)) (id : CompId)
    (h : (m.map Prod.fst).Nodup) : id ∉ (aerase m id).map Prod.fst := by
  induction m with
  | nil => simp [aerase]
  | cons kv rest ih =>
    obtain ⟨k, w⟩ := kv
    simp only [List.map_cons, List.nodup_cons] at h
    by_cases hk : k = id
    · subst hk
      simpa [aerase] using h.1
    · simp only [aerase, if_neg hk, List.map_cons, List.mem_cons]
      rintro (rfl | hm)
      · exact hk rfl
      · exact ih h.2 hm

theorem alookup_aerase_self {α : Type} (m : List (CompId × α)) (id : CompId)
    (h : (m.map Prod.fst).Nodup) : alookup (aerase m id) id = none := by
  have hnm := not_mem_keys_aerase m id h
  by_contra hne
  have : (alookup (aerase m id) id).isSome = true := by
    cases hl : alookup (aerase m id) id with
    | none => exact absurd hl hne
    | some v => simp
  exact hnm ((alookup_isSome_iff_mem_keys _ _).mp this)

theorem keys_aset {α : Type} (m : List (CompId × α)) (id : CompId) (v : α) :
    ((aset m id v).map Prod.fst) = m.map Prod.fst ∨
    ((aset m id v).map Prod.fst) = m.map Prod.fst ++ [id] := by
  induction m with
  | nil => simp [aset]
  | cons kv rest ih =>
    obtain ⟨k, w⟩ := kv
    by_cases hk : k = id
    · simp [aset, hk]
    · rcases ih with h | h <;> simp [aset, hk, h]

theorem nodup_keys_aset {α : Type} (m : List (CompId × α)) (id : CompId) (v : α)
    (h : (m.map Prod.fst).Nodup) : ((aset m id v).map Prod.fst).Nodup := by
  induction m with
  | nil => simp [aset]
  | cons kv rest ih =>
    obtain ⟨k, w⟩ := kv
    simp only [List.map_cons, List.nodup_cons] at h
    by_cases hk : k = id
    · subst hk
      simpa [aset] using h
    · simp only [aset, if_neg hk, List.map_cons, List.nodup_cons]
      refine ⟨?_, ih h.2⟩
      intro hmem
      rcases keys_aset rest id v with he | he
      · rw [he] at hmem; exact h.1 hmem
      · rw [he] at hmem
        rcases List.mem_append.mp hmem with hh | hh
        · exact h.1 hh
        · simp only [List.mem_singleton] at hh
          exact hk hh

theorem keys_aerase_sublist {α : Type} (m : List (CompId × α)) (id : CompId) :
    ((aerase m id).map Prod.fst).Sublist (m.map Prod.fst) := by
  induction m with
  | nil => simp [aerase]
  | cons kv rest ih =>
    obtain ⟨k, w⟩ := kv
    by_cases hk : k = id
    · simp only [aerase, if_pos hk, List.map_cons]
      exact (List.sublist_cons_self _ _)
    · simp only [aerase, if_neg hk, List.map_cons]
      exact ih.cons₂ k

theorem nodup_keys_aerase {α : Type} (m : List (CompId × α)) (id : CompId)
    (h : (m.map Prod.fst).Nodup) : ((aerase m id).map Prod.fst).Nodup :=
  (keys_aerase_sublist m id).nodup h

theorem eraseFirst_cons_self {α : Type} [DecidableEq α] (x : α) (xs : List α) :
    eraseFirst (x :: xs) x = xs := by
  simp [eraseFirst]

theorem eraseFirst_sublist {α : Type} [DecidableEq α] (l : List α) (a : α) :
    (eraseFirst l a).Sublist l := by
  induction l with
  | nil => simp [eraseFirst]
  | cons x xs ih =>
    by_cases h : x = a
    · rw [eraseFirst, if_pos h]
      exact List.sublist_cons_self x xs
    · rw [eraseFirst, if_neg h]
      exact ih.cons₂ x

theorem eraseFirst_nodup {α : Type} [DecidableEq α] (l : List α) (a : α)
    (h : l.Nodup) : (eraseFirst l a).Nodup :=
  (eraseFirst_sublist l a).nodup h

theorem mem_eraseFirst_of_nodup {α : Type} [DecidableEq α] (l : List α) (a : α)
    (h : l.Nodup) : a ∉ eraseFirst l a := by
  induction l with
  | nil => simp [eraseFirst]
  | cons x xs ih =>
    simp only [List.nodup_cons] at h
    by_cases hx : x = a
    · subst hx
      simpa [eraseFirst] using h.1
    · simp only [eraseFirst, if_neg hx, List.mem_cons]
      rintro (rfl | hmem)
      · exact hx rfl
      · exact ih h.2 hmem

theorem mem_eraseFirst_of_ne {α : Type} [DecidableEq α] {l : List α} {a b : α}
    (hne : b ≠ a) (h : b ∈ l) : b ∈ eraseFirst l a := by
  induction l with
  | nil => simp at h
  | cons x xs ih =>
    by_cases hx : x = a
    · subst hx
      rcases List.mem_cons.mp h with rfl | hmem
      · exact absurd rfl hne
      · simpa [eraseFirst] using hmem
    · rcases List.mem_cons.mp h with rfl | hmem
      · simp [eraseFirst, hx]
      · simp only [eraseFirst, if_neg hx, List.mem_cons]
        exact Or.inr (ih hmem)

theorem mem_of_mem_eraseFirst {α : Type} [DecidableEq α] {l : List α} {a b : α}
    (h : b ∈ eraseFirst l a) : b ∈ l :=
  (eraseFirst_sublist l a).mem h

/-! ## Well-formedness of an entity state

These are the invariants the JS `Entity` maintains for the states reachable by
`add` / `append` (of linked instances) / `remove` / `withdraw`: object maps
have unique keys, a linked list is non-empty, its head is the visible slot
instance, all of its members are linked instances of the slot's class, a
non-linked visible instance has no linked list, and a linked visible
instance has one. -/

structure WFE (e : Ent) : Prop where
  compKeys : (e.components.map Prod.fst).Nodup
  linkKeys : (e.linked.map Prod.fst).Nodup
  tagsNodup : e.tags.Nodup
  compKeyName : ∀ id c, alookup e.components id = some c → getComponentIdM c.cls = id
  linkNonempty : ∀ id l, alookup e.linked id = some l → l ≠ []
  linkHead : ∀ id l, alookup e.linked id = some l → alookup e.components id = l.head?
  linkMem : ∀ id l c, alookup e.linked id = some l → c ∈ l →
    c.linked = true ∧ getComponentIdM c.cls = id
  linkNodup : ∀ id l, alookup e.linked id = some l → l.Nodup
  storedNonLinked : ∀ id c, alookup e.components id = some c → c.linked = false →
    alookup e.linked id = none
  linkStored : ∀ id c, alookup e.components id = some c → c.linked = true →
    (alookup e.linked id).isSome = true

theorem aset_aset_self {α : Type} (m : List (CompId × α)) (id : CompId) (v w : α) :
    aset (aset m id v) id w = aset m id w := by
  induction m with
  | nil => simp [aset]
  | cons kv rest ih =>
    obtain ⟨k, x⟩ := kv
    by_cases hk : k = id
    · simp [aset, hk]
    · simp [aset, hk, ih]

theorem aerase_aset_self {α : Type} (m : List (CompId × α)) (id : CompId) (v : α) :
    aerase (aset m id v) id = aerase m id := by
  induction m with
  | nil => simp [aset, aerase]
  | cons kv rest ih =>
    obtain ⟨k, x⟩ := kv
    by_cases hk : k = id
    · simp [aset, aerase, hk]
    · simp [aset, aerase, hk, ih]

/-! ## Sample component classes and instances used by the witnesses -/

def damageCls : CClass := ⟨1, "Damage"⟩
def positionCls : CClass := ⟨2, "Position"⟩
def viewCls : CClass := ⟨3, "View"⟩
def dmgA : CInst := ⟨10, damageCls, true⟩
def dmgB : CInst := ⟨11, damageCls, true⟩
def dmgC : CInst := ⟨12, damageCls, true⟩
def posA : CInst := ⟨20, positionCls, false⟩
def posB : CInst := ⟨21, positionCls, false⟩
def viewA : CInst := ⟨30, viewCls, false⟩
def emptyEnt : Ent := ⟨1, [], [], []⟩

/-! ## C9 — re-adding the identical non-linked instance is a no-op -/

/-- C9: if `c` is already the stored instance for its resolved type on `e`
and is not a linked component, `e.add(c)` returns the entity unchanged and
dispatches no event (no removed-then-added pair). -/
theorem c9_readd_identical_noop (fuel : Nat) (e : Ent) (c : CInst)
    (hstored : alookup e.components (getComponentIdM c.cls) = some c)
    (hnl : c.linked = false) :
    addM fuel e (.comp c) none = .ok (e, []) := by
  have hstored' : alookup e.components c.cls.name = some c := hstored
  simp [addM, addComponentM, getComponentClassM, getComponentIdM, hstored',
    isLinkedComponentM, hnl]

/-- Witness for C9 at a concrete entity. -/
theorem c9_readd_identical_noop_witness :
    addM 5 ⟨1, [("Position", posA)], [], []⟩ (.comp posA) none =
      .ok (⟨1, [("Position", posA)], [], []⟩, []) :=
  c9_readd_identical_noop 5 _ posA (by decide) (by decide)

/-! ## C5 — adding a second non-linked instance replaces the first -/

/-- C5: adding a second, different non-linked instance of the same resolved
type fires exactly one removed event for the old instance followed by one
added event for the new one, and afterwards `get` returns the second instance
(the first is no longer the stored instance). -/
theorem c5_nonlinked_replace (fuel : Nat) (e : Ent) (c₁ c₂ : CInst)
    (hname : c₂.cls.name = c₁.cls.name)
    (hstored : alookup e.components (getComponentIdM c₁.cls) = some c₁)
    (hnl₁ : c₁.linked = false) (hnl₂ : c₂.linked = false) (hne : c₂ ≠ c₁) :
    ∃ e' tr, addM (fuel + 1) e (.comp c₂) none = .ok (e', tr) ∧
      tr.map Prod.snd = [.removed (.comp c₁), .added (.comp c₂)] ∧
      getM e' c₂.cls = some c₂ ∧ getM e' c₁.cls = some c₂ := by
  have hstored' : alookup e.components c₂.cls.name = some c₁ := by
    rw [hname]; exact hstored
  have hne' : ¬ (c₁ = c₂) := fun hh => hne hh.symm
  refine ⟨⟨e.eid, aset (aerase e.components c₂.cls.name) c₂.cls.name c₂, e.linked, e.tags⟩,
    [(⟨e.eid, aerase e.components c₂.cls.name, e.linked, e.tags⟩, .removed (.comp c₁)),
     (⟨e.eid, aset (aerase e.components c₂.cls.name) c₂.cls.name c₂, e.linked, e.tags⟩,
      .added (.comp c₂))], ?_, by simp, ?_, ?_⟩
  · simp [addM, addComponentM, getComponentClassM, getComponentIdM, hstored',
      isLinkedComponentM, hnl₁, hnl₂, hne', runRem]
  · simp [getM, getComponentIdM, alookup_aset_self]
  · simp only [getM, getComponentIdM, hname]
    simp [alookup_aset_self]

/-- Witness for C5 at a concrete entity. -/
theorem c5_nonlinked_replace_witness :
    (Ne posB posA) ∧
    ∃ e' tr, addM 6 ⟨1, [("Position", posA)], [], []⟩ (.comp posB) none = .ok (e', tr) ∧
      tr.map Prod.snd = [.removed (.comp posA), .added (.comp posB)] ∧
      getM e' posB.cls = some posB ∧ getM e' posA.cls = some posB :=
  ⟨by decide,
   c5_nonlinked_replace 5 ⟨1, [("Position", posA)], [], []⟩ posA posB
     (by decide) (by decide) (by decide) (by decide) (by decide)⟩

/-! ## C8 — duplicate append throws, before any state change -/

/-- C8: appending a linked-component instance throws exactly when that
instance is already present (by identity) in the entity's linked list for its
resolved type; the error is the duplicate-append error and the entity state
captured at the throw is unchanged. -/
theorem c8_append_duplicate_iff (e : Ent) (c : CInst) :
    (appendComponentM e c none = .error (.duplicateAppend, e) ↔
      c ∈ (alookup e.linked (getComponentIdM c.cls)).getD []) ∧
    (∀ er st, appendComponentM e c none = .error (er, st) →
      er = .duplicateAppend ∧ st = e) := by
  cases hl : alookup e.linked c.cls.name with
  | none =>
    constructor
    · simp [appendComponentM, getComponentClassM, getComponentIdM, getLinkedListM, hl]
    · intro er st
      simp [appendComponentM, getComponentClassM, getComponentIdM, getLinkedListM, hl]
  | some l =>
    by_cases hc : c ∈ l
    · constructor
      · simp [appendComponentM, getComponentClassM, getComponentIdM, getLinkedListM, hl, hc]
      · intro er st
        simp only [appendComponentM, getComponentClassM, getComponentIdM,
          getLinkedListM, hl, hc]
        simp [hc]
        rintro rfl rfl
        exact ⟨rfl, rfl⟩
    · constructor
      · simp [appendComponentM, getComponentClassM, getComponentIdM, getLinkedListM, hl, hc]
      · intro er st
        simp [appendComponentM, getComponentClassM, getComponentIdM, getLinkedListM, hl, hc]

/-- Witness for C8: duplicate append of `dmgA` fails with the entity
unchanged, and it fails exactly because `dmgA` is in the list. -/
theorem c8_append_duplicate_iff_witness :
    appendComponentM ⟨1, [("Damage", dmgA)], [("Damage", [dmgA])], []⟩ dmgA none =
      .error (.duplicateAppend, ⟨1, [("Damage", dmgA)], [("Damage", [dmgA])], []⟩) :=
  (c8_append_duplicate_iff ⟨1, [("Damage", dmgA)], [("Damage", [dmgA])], []⟩ dmgA).1.mpr
    (by decide)

/-! ## Withdraw / remove characterizations -/

/-- `withdraw` of the last remaining linked instance: removes it, deletes the
slot and the list, dispatches one removed event, returns the instance. -/
theorem withdraw_head_last (fuel : Nat) (e : Ent) (cls : CClass) (h : CInst)
    (hl : alookup e.linked (getComponentIdM cls) = some [h])
    (hc : alookup e.components (getComponentIdM cls) = some h)
    (hhl : h.linked = true) (hhc : h.cls = cls) :
    withdrawM (fuel + 2) e cls =
      .ok ({ e with components := aerase e.components (getComponentIdM cls),
                    linked := aerase e.linked (getComponentIdM cls) },
        [({ e with components := aerase e.components (getComponentIdM cls),
                   linked := aerase e.linked (getComponentIdM cls) },
          .removed (.comp h))], some h) := by
  have hcc : getComponentClassM h (some cls) = .ok cls := by
    simp [getComponentClassM, hhc]
  simp only [withdrawM, runRem, getM, hc, hcc, isLinkedComponentM, hhl,
    Bool.not_true, hl, eraseFirst_cons_self]
  simp [aerase_aset_self]

/-- `withdraw` of the head of a linked list with a non-empty tail: removes
only the head, re-points the slot at the new head, leaves the tail in place,
dispatches one removed event, returns the head. -/
theorem withdraw_head_cons (fuel : Nat) (e : Ent) (cls : CClass) (h h' : CInst)
    (t' : List CInst)
    (hl : alookup e.linked (getComponentIdM cls) = some (h :: h' :: t'))
    (hc : alookup e.components (getComponentIdM cls) = some h)
    (hhl : h.linked = true) (hhc : h.cls = cls) :
    withdrawM (fuel + 2) e cls =
      .ok ({ e with components := aset e.components (getComponentIdM cls) h',
                    linked := aset e.linked (getComponentIdM cls) (h' :: t') },
        [({ e with components := aset e.components (getComponentIdM cls) h',
                   linked := aset e.linked (getComponentIdM cls) (h' :: t') },
          .removed (.comp h))], some h) := by
  have hcc : getComponentClassM h (some cls) = .ok cls := by
    simp [getComponentClassM, hhc]
  simp only [withdrawM, runRem, getM, hc, hcc, isLinkedComponentM, hhl,
    Bool.not_true, hl, eraseFirst_cons_self]
  simp

/-- The `while (!list.isEmpty) this.withdraw(type)` loop of
`Entity.removeComponent`: withdraws every instance in list order, dispatching
one removed event per instance, and ends with the slot and the list deleted. -/
theorem removeAllLoop_spec (cls : CClass) :
    ∀ (l : List CInst) (fuel : Nat) (e : Ent),
      l.length + 2 ≤ fuel →
      (e.components.map Prod.fst).Nodup → (e.linked.map Prod.fst).Nodup →
      alookup e.linked (getComponentIdM cls) = some l → l ≠ [] →
      alookup e.components (getComponentIdM cls) = l.head? →
      (∀ x ∈ l, x.linked = true ∧ x.cls = cls) →
      ∃ tr, runRem fuel e (.removeAllLoop cls) =
          .ok ({ e with components := aerase e.components (getComponentIdM cls),
                        linked := aerase e.linked (getComponentIdM cls) }, tr, l.head?) ∧
        tr.map Prod.snd = l.map (fun x => Ev.removed (.comp x)) := by
  intro l
  induction l with
  | nil => intro fuel e _ _ _ _ hne _ _; exact absurd rfl hne
  | cons h t ih =>
    intro fuel e hfuel hck hlk hl _ hc hmem
    simp only [List.length_cons] at hfuel
    obtain ⟨f, rfl⟩ : ∃ f, fuel = f + 3 := ⟨fuel - 3, by omega⟩
    have hhl : h.linked = true := (hmem h (List.mem_cons_self h t)).1
    have hhc : h.cls = cls := (hmem h (List.mem_cons_self h t)).2
    simp only [List.head?] at hc
    cases t with
    | nil =>
      have hwd := withdraw_head_last f e cls h hl hc hhl hhc
      simp only [withdrawM] at hwd
      have hnone : alookup (aerase e.linked (getComponentIdM cls))
          (getComponentIdM cls) = none := alookup_aerase_self _ _ hlk
      refine ⟨[({ e with components := aerase e.components (getComponentIdM cls),
                         linked := aerase e.linked (getComponentIdM cls) },
                Ev.removed (.comp h))], ?_, by simp⟩
      conv_lhs => rw [show f + 3 = (f + 2) + 1 from rfl, runRem]
      simp only [hl]
      rw [hwd]
      simp only [runRem, hnone]
      simp
    | cons h' t' =>
      have hwd := withdraw_head_cons f e cls h h' t' hl hc hhl hhc
      simp only [withdrawM] at hwd
      have he₂c : alookup (aset e.components (getComponentIdM cls) h')
          (getComponentIdM cls) = (h' :: t').head? := by
        simp [alookup_aset_self]
      have he₂l : alookup (aset e.linked (getComponentIdM cls) (h' :: t'))
          (getComponentIdM cls) = some (h' :: t') := alookup_aset_self _ _ _
      have hmem₂ : ∀ x ∈ h' :: t', x.linked = true ∧ x.cls = cls := fun x hx =>
        hmem x (List.mem_cons_of_mem h hx)
      obtain ⟨tr₂, hloop, htr₂⟩ :=
        ih (f + 2)
          ({ e with components := aset e.components (getComponentIdM cls) h',
                    linked := aset e.linked (getComponentIdM cls) (h' :: t') })
          (by simp only [List.length_cons] at hfuel ⊢; omega)
          (nodup_keys_aset _ _ _ hck)
          (nodup_keys_aset _ _ _ hlk) he₂l (by simp) he₂c hmem₂
      refine ⟨({ e with components := aset e.components (getComponentIdM cls) h',
                        linked := aset e.linked (getComponentIdM cls) (h' :: t') },
               Ev.removed (.comp h)) :: tr₂, ?_, by simp [htr₂]⟩
      conv_lhs => rw [show f + 3 = (f + 2) + 1 from rfl, runRem]
      simp only [hl]
      rw [hwd]
      simp only [hloop]
      simp [aerase_aset_self]

/-! ## C4 — `remove` of a linked type removes every instance -/

/-- C4: for an entity holding a linked list `l` of instances of class `cls`,
`removeComponent` removes all of them, dispatches one removed event per
instance (in list order), leaves the slot absent, and returns the former
head. -/
theorem c4_remove_linked_all (fuel : Nat) (e : Ent) (cls : CClass) (h : CInst)
    (l : List CInst)
    (hfuel : l.length + 3 ≤ fuel)
    (hck : (e.components.map Prod.fst).Nodup) (hlk : (e.linked.map Prod.fst).Nodup)
    (hl : alookup e.linked (getComponentIdM cls) = some l)
    (hc : alookup e.components (getComponentIdM cls) = some h)
    (hhd : l.head? = some h)
    (hmem : ∀ x ∈ l, x.linked = true ∧ x.cls = cls) :
    ∃ e' tr, removeComponentM fuel e cls = .ok (e', tr, some h) ∧
      tr.map Prod.snd = l.map (fun x => Ev.removed (.comp x)) ∧
      hasComponentM e' cls = false ∧
      alookup e'.linked (getComponentIdM cls) = none := by
  obtain ⟨f, rfl⟩ : ∃ f, fuel = f + 1 := ⟨fuel - 1, by omega⟩
  have hhl : h.linked = true := by
    have : h ∈ l := by
      cases l with
      | nil => simp at hhd
      | cons a t => simp at hhd; simp [hhd]
    exact (hmem h this).1
  obtain ⟨tr, hloop, htr⟩ :=
    removeAllLoop_spec cls l f e (by omega) hck hlk hl
      (by rintro rfl; simp at hhd) (by rw [hc, hhd]) hmem
  refine ⟨{ e with components := aerase e.components (getComponentIdM cls),
                   linked := aerase e.linked (getComponentIdM cls) }, tr, ?_, htr, ?_, ?_⟩
  · simp only [removeComponentM, runRem, hc, isLinkedComponentM, hhl,
      getLinkedListM, hl]
    rw [hloop]
    simp
  · simp [hasComponentM, alookup_aerase_self _ _ hck]
  · simp [alookup_aerase_self _ _ hlk]

/-- Witness for C4: appending three linked instances then removing the class
fires exactly three removed events and leaves the slot absent. -/
theorem c4_remove_linked_all_witness :
    ∃ e' tr,
      removeComponentM 10 ⟨1, [("Damage", dmgA)], [("Damage", [dmgA, dmgB, dmgC])], []⟩
          damageCls = .ok (e', tr, some dmgA) ∧
      tr.map Prod.snd =
        [dmgA, dmgB, dmgC].map (fun x => Ev.removed (.comp x)) ∧
      hasComponentM e' damageCls = false ∧
      alookup e'.linked (getComponentIdM damageCls) = none :=
  c4_remove_linked_all 10 _ damageCls dmgA [dmgA, dmgB, dmgC] (by decide) (by decide)
    (by decide) (by decide) (by decide) (by decide) (by decide)

/-! ## Append characterizations -/

/-- Appending to an entity with no slot and no list for the class: creates
the list `[c]`, sets the slot to `c`, dispatches one added event. -/
theorem append_to_absent (e : Ent) (c : CInst)
    (hc0 : alookup e.components (getComponentIdM c.cls) = none)
    (hl0 : alookup e.linked (getComponentIdM c.cls) = none) :
    appendComponentM e c none =
      .ok ({ e with components := aset e.components (getComponentIdM c.cls) c,
                    linked := aset e.linked (getComponentIdM c.cls) [c] },
        [({ e with components := aset e.components (getComponentIdM c.cls) c,
                   linked := aset e.linked (getComponentIdM c.cls) [c] },
          .added (.comp c))]) := by
  have hc0' : alookup e.components c.cls.name = none := hc0
  have hl0' : alookup e.linked c.cls.name = none := hl0
  simp [appendComponentM, getComponentClassM, getComponentIdM, getLinkedListM,
    hl0', hc0', aset_aset_self]

/-- Appending to an entity that already has a list for the class (and a
visible slot instance): appends at the tail, leaves the slot untouched,
dispatches one added event. -/
theorem append_to_present (e : Ent) (c : CInst) (l : List CInst)
    (hl : alookup e.linked (getComponentIdM c.cls) = some l)
    (hcs : (alookup e.components (getComponentIdM c.cls)).isSome = true)
    (hnotin : c ∉ l) :
    appendComponentM e c none =
      .ok ({ e with linked := aset e.linked (getComponentIdM c.cls) (l ++ [c]) },
        [({ e with linked := aset e.linked (getComponentIdM c.cls) (l ++ [c]) },
          .added (.comp c))]) := by
  have hl' : alookup e.linked c.cls.name = some l := hl
  obtain ⟨x, hx⟩ : ∃ x, alookup e.components c.cls.name = some x := by
    cases hxx : alookup e.components c.cls.name with
    | none => rw [show alookup e.components (getComponentIdM c.cls) =
        alookup e.components c.cls.name from rfl, hxx] at hcs; simp at hcs
    | some x => exact ⟨x, rfl⟩
  cases l with
  | nil => simp [appendComponentM, getComponentClassM, getComponentIdM,
      getLinkedListM, hl', hx, hnotin]
  | cons y ys =>
    simp [appendComponentM, getComponentClassM, getComponentIdM,
      getLinkedListM, hl', hx, hnotin]

/-! ## C7 — withdraw removes exactly the head, FIFO order -/

/-- `appendComponentM` projected to the resulting entity (`none` on error). -/
def appendOk (e : Ent) (c : CInst) : Option Ent :=
  match appendComponentM e c none with
  | .ok (e', _) => some e'
  | .error _ => none

/-- `withdrawM` projected to the resulting entity and the returned instance
(`none` on error). -/
def withdrawStep (fuel : Nat) (cls : CClass) (e : Ent) : Option (Ent × Option CInst) :=
  match withdrawM fuel e cls with
  | .ok (e', _, r) => some (e', r)
  | .error _ => none

/-- C7: `withdraw` is a no-op returning `undefined` when no instance exists;
otherwise it removes and returns exactly the head of the linked list, leaving
the remaining instances in place; consequently three instances appended in
order `a, b, c` are withdrawn in the same FIFO order. -/
theorem c7_withdraw_head_fifo :
    (∀ (fuel : Nat) (e : Ent) (cls : CClass), getM e cls = none →
        withdrawM (fuel + 1) e cls = .ok (e, [], none)) ∧
    (∀ (fuel : Nat) (e : Ent) (cls : CClass) (h : CInst) (t : List CInst),
        (e.components.map Prod.fst).Nodup →
        (e.linked.map Prod.fst).Nodup →
        alookup e.linked (getComponentIdM cls) = some (h :: t) →
        alookup e.components (getComponentIdM cls) = some h →
        h.linked = true → h.cls = cls →
        ∃ e', withdrawM (fuel + 2) e cls =
            .ok (e', [(e', .removed (.comp h))], some h) ∧
          alookup e'.linked (getComponentIdM cls) =
            (if t.isEmpty then none else some t) ∧
          getM e' cls = t.head?) ∧
    (∀ (fuel : Nat) (e₀ : Ent) (cls : CClass) (a b c : CInst),
        (e₀.linked.map Prod.fst).Nodup →
        alookup e₀.components (getComponentIdM cls) = none →
        alookup e₀.linked (getComponentIdM cls) = none →
        a.linked = true → b.linked = true → c.linked = true →
        a.cls = cls → b.cls = cls → c.cls = cls →
        a ≠ b → a ≠ c → b ≠ c →
        ∃ e₁ e₂ e₃ e₄ e₅ e₆,
          appendOk e₀ a = some e₁ ∧ appendOk e₁ b = some e₂ ∧
          appendOk e₂ c = some e₃ ∧
          withdrawStep (fuel + 2) cls e₃ = some (e₄, some a) ∧
          withdrawStep (fuel + 2) cls e₄ = some (e₅, some b) ∧
          withdrawStep (fuel + 2) cls e₅ = some (e₆, some c)) := by
  refine ⟨?_, ?_, ?_⟩
  · intro fuel e cls hget
    simp [withdrawM, runRem, hget]
  · intro fuel e cls h t hck hlk hl hc hhl hhc
    cases t with
    | nil =>
      exact ⟨_, withdraw_head_last fuel e cls h hl hc hhl hhc,
        by simp [alookup_aerase_self _ _ hlk],
        by simp [getM, alookup_aerase_self _ _ hck]⟩
    | cons h' t' =>
      exact ⟨_, withdraw_head_cons fuel e cls h h' t' hl hc hhl hhc,
        by simp [alookup_aset_self],
        by simp [getM, alookup_aset_self]⟩
  · intro fuel e₀ cls a b c hlk hc0 hl0 hal hbl hcl hac hbc hcc hab hac' hbc'
    have hap1 := append_to_absent e₀ a (by rw [hac]; exact hc0) (by rw [hac]; exact hl0)
    rw [hac] at hap1
    have hap2 := append_to_present
      ({ e₀ with components := aset e₀.components (getComponentIdM cls) a,
                 linked := aset e₀.linked (getComponentIdM cls) [a] }) b [a]
      (by rw [hbc]; exact alookup_aset_self _ _ _)
      (by rw [hbc]; rw [alookup_aset_self]; rfl)
      (by simp [Ne.symm hab])
    rw [hbc] at hap2
    simp only [List.cons_append, List.nil_append] at hap2
    have hap3 := append_to_present
      ({ e₀ with components := aset e₀.components (getComponentIdM cls) a,
                 linked := aset (aset e₀.linked (getComponentIdM cls) [a])
                   (getComponentIdM cls) [a, b] }) c [a, b]
      (by rw [hcc]; exact alookup_aset_self _ _ _)
      (by rw [hcc]; rw [alookup_aset_self]; rfl)
      (by simp [Ne.symm hac', Ne.symm hbc'])
    rw [hcc] at hap3
    simp only [List.cons_append, List.nil_append] at hap3
    have hwd1 := withdraw_head_cons fuel
      ({ e₀ with components := aset e₀.components (getComponentIdM cls) a,
                 linked := aset (aset (aset e₀.linked (getComponentIdM cls) [a])
                     (getComponentIdM cls) [a, b])
                   (getComponentIdM cls) [a, b, c] }) cls a b [c]
      (by simpa using alookup_aset_self _ _ _)
      (by exact alookup_aset_self _ _ _) hal hac
    have hwd2 := withdraw_head_cons fuel
      ({ e₀ with components := aset (aset e₀.components (getComponentIdM cls) a)
                   (getComponentIdM cls) b,
                 linked := aset (aset (aset (aset e₀.linked (getComponentIdM cls) [a])
                       (getComponentIdM cls) [a, b])
                     (getComponentIdM cls) [a, b, c])
                   (getComponentIdM cls) [b, c] }) cls b c []
      (by exact alookup_aset_self _ _ _)
      (by exact alookup_aset_self _ _ _) hbl hbc
    have hwd3 := withdraw_head_last fuel
      ({ e₀ with components := aset (aset (aset e₀.components (getComponentIdM cls) a)
                     (getComponentIdM cls) b) (getComponentIdM cls) c,
                 linked := aset (aset (aset (aset (aset e₀.linked (getComponentIdM cls) [a])
                         (getComponentIdM cls) [a, b])
                       (getComponentIdM cls) [a, b, c])
                     (getComponentIdM cls) [b, c]) (getComponentIdM cls) [c] }) cls c
      (by exact alookup_aset_self _ _ _)
      (by exact alookup_aset_self _ _ _) hcl hcc
    refine ⟨{ e₀ with components := aset e₀.components (getComponentIdM cls) a,
                      linked := aset e₀.linked (getComponentIdM cls) [a] },
      { e₀ with components := aset e₀.components (getComponentIdM cls) a,
                linked := aset (aset e₀.linked (getComponentIdM cls) [a])
                  (getComponentIdM cls) [a, b] },
      { e₀ with components := aset e₀.components (getComponentIdM cls) a,
                linked := aset (aset (aset e₀.linked (getComponentIdM cls) [a])
                    (getComponentIdM cls) [a, b])
                  (getComponentIdM cls) [a, b, c] },
      { e₀ with components := aset (aset e₀.components (getComponentIdM cls) a)
                  (getComponentIdM cls) b,
                linked := aset (aset (aset (aset e₀.linked (getComponentIdM cls) [a])
                      (getComponentIdM cls) [a, b])
                    (getComponentIdM cls) [a, b, c])
                  (getComponentIdM cls) [b, c] },
      { e₀ with components := aset (aset (aset e₀.components (getComponentIdM cls) a)
                    (getComponentIdM cls) b) (getComponentIdM cls) c,
                linked := aset (aset (aset (aset (aset e₀.linked
                          (getComponentIdM cls) [a])
                        (getComponentIdM cls) [a, b])
                      (getComponentIdM cls) [a, b, c])
                    (getComponentIdM cls) [b, c]) (getComponentIdM cls) [c] },
      { e₀ with components := aerase (aset (aset (aset e₀.components
                      (getComponentIdM cls) a) (getComponentIdM cls) b)
                  (getComponentIdM cls) c) (getComponentIdM cls),
                linked := aerase (aset (aset (aset (aset (aset e₀.linked
                            (getComponentIdM cls) [a])
                          (getComponentIdM cls) [a, b])
                        (getComponentIdM cls) [a, b, c])
                      (getComponentIdM cls) [b, c]) (getComponentIdM cls) [c])
                  (getComponentIdM cls) },
      ?_, ?_, ?_, ?_, ?_, ?_⟩
    · simp only [appendOk]; rw [hap1]
    · simp only [appendOk]; rw [hap2]
    · simp only [appendOk]; rw [hap3]
    · simp only [withdrawStep]
      rw [show [a, b, c] = a :: b :: [c] from rfl] at hwd1
      rw [hwd1]
    · simp only [withdrawStep]; rw [hwd2]
    · simp only [withdrawStep]; rw [hwd3]

/-- Witness for C7, instantiating the FIFO part with three damage instances. -/
theorem c7_withdraw_head_fifo_witness :
    ∃ e₁ e₂ e₃ e₄ e₅ e₆,
      appendOk emptyEnt dmgA = some e₁ ∧ appendOk e₁ dmgB = some e₂ ∧
      appendOk e₂ dmgC = some e₃ ∧
      withdrawStep 9 damageCls e₃ = some (e₄, some dmgA) ∧
      withdrawStep 9 damageCls e₄ = some (e₅, some dmgB) ∧
      withdrawStep 9 damageCls e₅ = some (e₆, some dmgC) :=
  c7_withdraw_head_fifo.2.2 7 emptyEnt damageCls dmgA dmgB dmgC
    (by decide) (by decide) (by decide) (by decide) (by decide) (by decide)
    (by decide) (by decide) (by decide) (by decide) (by decide) (by decide)

/-! ## Signal lemmas

The handler array invariant: always sorted by ascending priority; for runs
that never re-connect a connected handler the array is exactly the stable
sort (by priority) of the handlers in connection order. -/

/-- Sortedness of a handler list by ascending priority. -/
def SSorted (l : List SH) : Prop := l.Sorted (fun a b => a.priority ≤ b.priority)

theorem mem_insertTail (x y : SH) (l : List SH) :
    y ∈ insertTail x l ↔ y = x ∨ y ∈ l := by
  induction l with
  | nil => simp [insertTail]
  | cons z zs ih =>
    by_cases hxz : x.priority < z.priority
    · simp [insertTail, hxz]
    · simp only [insertTail, if_neg hxz, List.mem_cons, ih]
      tauto

theorem insertTail_sorted (x : SH) (l : List SH) (h : SSorted l) :
    SSorted (insertTail x l) := by
  induction l with
  | nil => simp [insertTail, SSorted]
  | cons y ys ih =>
    simp only [SSorted, List.sorted_cons] at h
    by_cases hxy : x.priority < y.priority
    · simp only [insertTail, if_pos hxy, SSorted, List.sorted_cons]
      refine ⟨?_, h.1, h.2⟩
      intro b hb
      rcases List.mem_cons.mp hb with rfl | hb
      · exact le_of_lt hxy
      · exact le_trans (le_of_lt hxy) (h.1 b hb)
    · simp only [insertTail, if_neg hxy, SSorted, List.sorted_cons]
      constructor
      · intro b hb
        rcases (mem_insertTail x b ys).mp hb with rfl | hb
        · exact le_of_not_lt hxy
        · exact h.1 b hb
      · exact ih h.2

theorem insertTail_perm (x : SH) (l : List SH) :
    (insertTail x l).Perm (x :: l) := by
  induction l with
  | nil => simp [insertTail]
  | cons y ys ih =>
    by_cases hxy : x.priority < y.priority
    · simp [insertTail, hxy]
    · simp only [insertTail, if_neg hxy]
      exact (ih.cons y).trans (List.Perm.swap x y ys)

theorem sortHandlers_append_singleton (l : List SH) (x : SH) :
    sortHandlers (l ++ [x]) = insertTail x (sortHandlers l) := by
  simp [sortHandlers, List.foldl_append]

theorem sortHandlers_sorted (l : List SH) : SSorted (sortHandlers l) := by
  induction l using List.reverseRecOn with
  | nil => simp [sortHandlers, SSorted]
  | append_singleton m x ih =>
    rw [sortHandlers_append_singleton]
    exact insertTail_sorted x _ ih

theorem sortHandlers_perm (l : List SH) : (sortHandlers l).Perm l := by
  induction l using List.reverseRecOn with
  | nil => simp [sortHandlers]
  | append_singleton m x ih =>
    rw [sortHandlers_append_singleton]
    exact (insertTail_perm x _).trans
      ((ih.cons x).trans (List.perm_append_singleton x m).symm)

/-- Appending an element no smaller than every list element inserts at the
tail. -/
theorem insertTail_eq_append (x : SH) (l : List SH)
    (h : ∀ y ∈ l, ¬ x.priority < y.priority) :
    insertTail x l = l ++ [x] := by
  induction l with
  | nil => simp [insertTail]
  | cons y ys ih =>
    have hy := h y (List.mem_cons_self _ _)
    simp only [insertTail, if_neg hy, List.cons_append, List.cons.injEq, true_and]
    exact ih (fun z hz => h z (List.mem_cons_of_mem _ hz))

/-- A sorted list is a fixed point of the stable sort. -/
theorem sortHandlers_of_sorted (l : List SH) (h : SSorted l) :
    sortHandlers l = l := by
  induction l using List.reverseRecOn with
  | nil => simp [sortHandlers]
  | append_singleton m x ih =>
    have hm : SSorted m := h.sublist (List.sublist_append_left m [x])
    have hbound : ∀ y ∈ m, ¬ x.priority < y.priority := by
      intro y hy
      have := List.pairwise_append.mp h
      exact not_lt_of_le (this.2.2 y hy x (List.mem_singleton_self x))
    rw [sortHandlers_append_singleton, ih hm, insertTail_eq_append x m hbound]

/-- The subsequence of handlers of priority `p` (the stability class). -/
def pfilter (p : Int) (l : List SH) : List SH :=
  l.filter (fun sh => decide (sh.priority = p))

theorem pfilter_nil (p : Int) : pfilter p [] = [] := rfl

theorem pfilter_cons (p : Int) (x : SH) (l : List SH) :
    pfilter p (x :: l) =
      if x.priority = p then x :: pfilter p l else pfilter p l := by
  by_cases h : x.priority = p <;> simp [pfilter, h]

theorem pfilter_append (p : Int) (l₁ l₂ : List SH) :
    pfilter p (l₁ ++ l₂) = pfilter p l₁ ++ pfilter p l₂ := by
  simp [pfilter]

/-- No element of a sorted list headed strictly above `p` has priority `p`. -/
theorem pfilter_eq_nil_of_lt (p : Int) (l : List SH) (h : SSorted l)
    (hlt : ∀ y ∈ l, p < y.priority) : pfilter p l = [] := by
  induction l with
  | nil => rfl
  | cons y ys ih =>
    rw [pfilter_cons, if_neg (by exact ne_of_gt (hlt y (List.mem_cons_self _ _)))]
    exact ih (h.sublist (List.sublist_cons_self _ _))
      (fun z hz => hlt z (List.mem_cons_of_mem _ hz))

/-- Stability of `insertTail` on a sorted accumulator: each priority class
gains `x` at its tail exactly when `x` has that priority. -/
theorem pfilter_insertTail (p : Int) (x : SH) (l : List SH) (h : SSorted l) :
    pfilter p (insertTail x l) =
      pfilter p l ++ (if x.priority = p then [x] else []) := by
  induction l with
  | nil => by_cases hp : x.priority = p <;> simp [insertTail, pfilter, hp]
  | cons y ys ih =>
    simp only [SSorted, List.sorted_cons] at h
    by_cases hxy : x.priority < y.priority
    · rw [insertTail, if_pos hxy, pfilter_cons]
      by_cases hp : x.priority = p
      · rw [if_pos hp]
        have hclass : pfilter p (y :: ys) = [] := by
          refine pfilter_eq_nil_of_lt p (y :: ys)
            (by exact List.sorted_cons.mpr ⟨h.1, h.2⟩) ?_
          intro z hz
          rcases List.mem_cons.mp hz with rfl | hz
          · rw [← hp]; exact hxy
          · rw [← hp]; exact lt_of_lt_of_le hxy (h.1 z hz)
        rw [hclass]
        simp [hp]
      · rw [if_neg hp, pfilter_cons]
        simp [hp]
    · rw [insertTail, if_neg hxy, pfilter_cons, pfilter_cons, ih h.2]
      by_cases hyp : y.priority = p <;> simp [hyp]

/-- Stability of the stable sort: every priority class is preserved. -/
theorem pfilter_sortHandlers (p : Int) (l : List SH) :
    pfilter p (sortHandlers l) = pfilter p l := by
  induction l using List.reverseRecOn with
  | nil => simp [sortHandlers]
  | append_singleton m x ih =>
    rw [sortHandlers_append_singleton,
      pfilter_insertTail p x _ (sortHandlers_sorted m), ih, pfilter_append]
    by_cases hp : x.priority = p <;> simp [pfilter, hp]

/-- A sorted list is determined by its priority classes. -/
theorem sorted_pfilter_ext : ∀ (l₁ l₂ : List SH), SSorted l₁ → SSorted l₂ →
    (∀ p, pfilter p l₁ = pfilter p l₂) → l₁ = l₂ := by
  intro l₁
  induction l₁ with
  | nil =>
    intro l₂ _ _ hf
    cases l₂ with
    | nil => rfl
    | cons y ys =>
      have := hf y.priority
      rw [pfilter_nil, pfilter_cons, if_pos rfl] at this
      exact absurd this.symm (List.cons_ne_nil _ _)
  | cons x xs ih =>
    intro l₂ h₁ h₂ hf
    cases l₂ with
    | nil =>
      have := hf x.priority
      rw [pfilter_nil, pfilter_cons, if_pos rfl] at this
      exact absurd this (List.cons_ne_nil _ _)
    | cons y ys =>
      simp only [SSorted, List.sorted_cons] at h₁ h₂
      have hpq : x.priority = y.priority := by
        by_contra hne
        have hx := hf x.priority
        rw [pfilter_cons, if_pos rfl, pfilter_cons,
          if_neg (fun hh => hne hh.symm)] at hx
        have hmem : x ∈ pfilter x.priority ys := by
          rw [← hx]; exact List.mem_cons_self _ _
        have hxy : y.priority ≤ x.priority := by
          have := List.mem_filter.mp hmem
          exact h₂.1 x this.1
        have hy := hf y.priority
        rw [pfilter_cons, if_neg hne, pfilter_cons, if_pos rfl] at hy
        have hmem' : y ∈ pfilter y.priority xs := by
          rw [hy]; exact List.mem_cons_self _ _
        have hyx : x.priority ≤ y.priority := by
          have := List.mem_filter.mp hmem'
          exact h₁.1 y this.1
        exact hne (le_antisymm hyx hxy)
      have hxy : x = y := by
        have := hf x.priority
        rw [pfilter_cons, if_pos rfl, pfilter_cons, if_pos hpq.symm] at this
        exact (List.cons.injEq _ _ _ _ ▸ this).1
      subst hxy
      have htails : ∀ p, pfilter p xs = pfilter p ys := by
        intro p
        have := hf p
        rw [pfilter_cons, pfilter_cons] at this
        by_cases hp : x.priority = p
        · rw [if_pos hp, if_pos hp] at this
          exact (List.cons.injEq _ _ _ _ ▸ this).2
        · rwa [if_neg hp, if_neg hp] at this
      rw [ih ys h₁.2 h₂.2 htails]

/-- Handler identities are pairwise distinct (the invariant `connect`'s
idempotence maintains). -/
def hnodup (l : List SH) : Prop := (l.map SH.handler).Nodup

theorem mapUpd_id (l : List SH) (h : Nat) (p : Int)
    (hnone : ∀ sh ∈ l, sh.handler ≠ h) :
    l.map (fun sh => if sh.handler == h then { sh with priority := p } else sh) = l := by
  induction l with
  | nil => rfl
  | cons x xs ih =>
    have hx : ¬ (x.handler == h) = true := by
      simp [hnone x (List.mem_cons_self _ _)]
    simp only [List.map_cons, if_neg hx, List.cons.injEq, true_and]
    exact ih (fun sh hsh => hnone sh (List.mem_cons_of_mem _ hsh))

/-- With distinct handlers, removing by `findIndex`/`splice` equals filtering
out the handler. -/
theorem disconnectM_eq_filter (l : List SH) (h : Nat) (hd : hnodup l) :
    disconnectM l h = l.filter (fun sh => !(sh.handler == h)) := by
  induction l with
  | nil => rfl
  | cons x xs ih =>
    simp only [hnodup, List.map_cons, List.nodup_cons] at hd
    by_cases hx : x.handler = h
    · have hxs : xs.filter (fun sh => !(sh.handler == h)) = xs := by
        refine List.filter_eq_self.mpr ?_
        intro a ha
        have hne : a.handler ≠ h := by
          intro hh
          apply hd.1
          rw [hx, ← hh]
          exact List.mem_map_of_mem SH.handler ha
        simp [hne]
      have hfind : List.findIdx? (fun sh => sh.handler == h) (x :: xs) = some 0 := by
        simp [List.findIdx?_cons, hx]
      have h1 : disconnectM (x :: xs) h = xs := by
        simp only [disconnectM, hfind]
        rfl
      rw [h1, List.filter_cons]
      simp [hx, hxs]
    · have hx' : (x.handler == h) = false := by simp [hx]
      cases hfind : List.findIdx? (fun sh => sh.handler == h) xs with
      | none =>
        have hfind' : List.findIdx? (fun sh => sh.handler == h) (x :: xs) = none := by
          simp [List.findIdx?_cons, hx', hfind]
        have ihx := ih hd.2
        simp only [disconnectM, hfind] at ihx
        have h1 : disconnectM (x :: xs) h = x :: xs := by
          simp only [disconnectM, hfind']
        rw [h1, List.filter_cons]
        simp only [hx', Bool.not_false, if_pos]
        rw [← ihx]
      | some i =>
        have hfind' : List.findIdx? (fun sh => sh.handler == h) (x :: xs) =
            some (i + 1) := by
          simp [List.findIdx?_cons, hx', hfind]
        have ihx := ih hd.2
        simp only [disconnectM, hfind] at ihx
        have h1 : disconnectM (x :: xs) h = x :: xs.eraseIdx i := by
          simp only [disconnectM, hfind']
          rfl
        rw [h1, ihx, List.filter_cons]
        simp [hx']

theorem ssorted_getLast_bound : ∀ (l : List SH) (m : SH), SSorted l →
    l.getLast? = some m → ∀ y ∈ l, y.priority ≤ m.priority := by
  intro l
  induction l with
  | nil => intro m _ hm; simp at hm
  | cons x xs ih =>
    intro m hs hm y hy
    cases xs with
    | nil =>
      simp only [List.getLast?_singleton, Option.some.injEq] at hm
      subst hm
      simp only [List.mem_singleton] at hy
      subst hy
      exact le_refl _
    | cons z zs =>
      rw [List.getLast?_cons_cons] at hm
      rw [SSorted, List.sorted_cons] at hs
      rcases List.mem_cons.mp hy with rfl | hy
      · exact le_trans (hs.1 z (List.mem_cons_self _ _))
          (ih m hs.2 hm z (List.mem_cons_self _ _))
      · exact ih m hs.2 hm y hy

theorem ssorted_append_singleton (l : List SH) (x : SH) (h : SSorted l)
    (hb : ∀ y ∈ l, y.priority ≤ x.priority) : SSorted (l ++ [x]) := by
  rw [SSorted, List.Sorted, List.pairwise_append]
  refine ⟨h, by simp, ?_⟩
  intro a ha b hb'
  simp only [List.mem_singleton] at hb'
  subst hb'
  exact hb a ha

theorem hnodup_of_perm {l n : List SH} (hp : l.Perm n) (hd : hnodup n) : hnodup l :=
  ((hp.map SH.handler).nodup_iff).mpr hd

/-- Re-connecting the sole matching handler at its current priority leaves
the array unchanged. -/
theorem connect_same_map_id : ∀ (l : List SH) (h : Nat) (p : Int) (ex : SH),
    hnodup l → l.find? (fun sh => sh.handler == h) = some ex → ex.priority = p →
    l.map (fun sh => if sh.handler == h then { sh with priority := p } else sh) = l := by
  intro l
  induction l with
  | nil => intro h p ex _ hfind _; simp at hfind
  | cons x xs ih =>
    intro h p ex hdl hfind hpe
    simp only [hnodup, List.map_cons, List.nodup_cons] at hdl
    by_cases hx : (x.handler == h) = true
    · rw [List.find?_cons_of_pos xs hx, Option.some.injEq] at hfind
      subst hfind
      simp only [List.map_cons, if_pos hx, List.cons.injEq]
      constructor
      · rw [← hpe]
      · refine mapUpd_id xs h p ?_
        intro sh hsh hshh
        apply hdl.1
        have : x.handler = h := by simpa using hx
        rw [this, ← hshh]
        exact List.mem_map_of_mem SH.handler hsh
    · rw [List.find?_cons_of_neg xs (by simpa using hx)] at hfind
      simp only [List.map_cons, if_neg hx, List.cons.injEq, true_and]
      exact ih h p ex hdl.2 hfind hpe

/-- Invariant of a signal run: the handler array is sorted by priority and is
a permutation of the connection-order bookkeeping, whose handlers are
distinct. -/
def SInv (l n : List SH) : Prop := SSorted l ∧ hnodup n ∧ l.Perm n

theorem stepNaive_hnodup (n : List SH) (op : SigOp) (hd : hnodup n) :
    hnodup (stepNaive n op) := by
  cases op with
  | connect h p =>
    by_cases hany : n.any (fun sh => sh.handler == h)
    · simp only [stepNaive, if_pos hany, hnodup]
      have heq : (n.map (fun sh =>
          if sh.handler == h then { sh with priority := p } else sh)).map SH.handler
          = n.map SH.handler := by
        rw [List.map_map]
        refine List.map_congr_left ?_
        intro sh _
        by_cases hsh : sh.handler = h <;> simp [hsh]
      rw [heq]
      exact hd
    · simp only [stepNaive, if_neg hany, hnodup, List.map_append, List.map_cons,
        List.map_nil]
      rw [List.nodup_append]
      refine ⟨hd, by simp, ?_⟩
      intro a ha
      simp only [List.mem_singleton]
      intro hh
      subst hh
      rcases List.mem_map.mp ha with ⟨sh, hsh, hsh2⟩
      rw [List.any_eq_true] at hany
      exact hany ⟨sh, hsh, by simp [hsh2]⟩
  | disconnect h =>
    rw [stepNaive, disconnectM_eq_filter n h hd]
    exact ((List.filter_sublist n).map SH.handler).nodup hd

theorem stepSig_sorted (l : List SH) (op : SigOp) (hs : SSorted l)
    (hdl : hnodup l) : SSorted (stepSig l op) := by
  cases op with
  | connect hh p =>
    cases hfind : l.find? (fun sh => sh.handler == hh) with
    | some ex =>
      simp only [stepSig, connectM, hfind]
      by_cases hne : ex.priority ≠ p
      · simp only [if_pos hne]
        exact sortHandlers_sorted _
      · simp only [if_neg hne]
        push_neg at hne
        rw [connect_same_map_id l hh p ex hdl hfind hne]
        exact hs
    | none =>
      simp only [stepSig, connectM, hfind]
      cases hlast : l.getLast? with
      | none =>
        have hnil : l = [] := by
          cases l with
          | nil => rfl
          | cons a as => simp [List.getLast?_eq_none_iff] at hlast
        subst hnil
        simp [SSorted]
      | some last =>
        simp only [hlast]
        by_cases hres : p < last.priority
        · rw [if_pos (show decide (p < last.priority) = true from
            decide_eq_true hres)]
          exact sortHandlers_sorted _
        · rw [if_neg (show ¬ decide (p < last.priority) = true from by
            simp only [decide_eq_true_eq]; exact hres)]
          refine ssorted_append_singleton l _ hs ?_
          intro y hy
          exact le_trans (ssorted_getLast_bound l last hs hlast y hy)
            (le_of_not_lt hres)
  | disconnect hh =>
    rw [stepSig, disconnectM_eq_filter l hh hdl]
    exact hs.sublist (List.filter_sublist l)

theorem stepSig_perm (l n : List SH) (op : SigOp) (hp : l.Perm n)
    (hd : hnodup n) : (stepSig l op).Perm (stepNaive n op) := by
  have hdl : hnodup l := hnodup_of_perm hp hd
  cases op with
  | connect hh p =>
    cases hfind : l.find? (fun sh => sh.handler == hh) with
    | some ex =>
      have hany : n.any (fun sh => sh.handler == hh) = true := by
        rw [List.any_eq_true]
        have h2 := List.find?_some hfind
        refine ⟨ex, ?_, ?_⟩
        · exact hp.mem_iff.mp (List.mem_of_find?_eq_some hfind)
        · exact h2
      simp only [stepSig, connectM, hfind, stepNaive, if_pos hany]
      by_cases hne : ex.priority ≠ p
      · simp only [if_pos hne]
        exact (sortHandlers_perm _).trans (hp.map _)
      · simp only [if_neg hne]
        exact hp.map _
    | none =>
      have hany : n.any (fun sh => sh.handler == hh) = false := by
        rw [Bool.eq_false_iff, Ne, List.any_eq_true]
        rintro ⟨sh, hsh, hsh2⟩
        exact (List.find?_eq_none.mp hfind sh (hp.mem_iff.mpr hsh)) hsh2
      simp only [stepSig, connectM, hfind, stepNaive, hany, Bool.false_eq_true,
        if_false]
      have happ : (l ++ [(⟨hh, p⟩ : SH)]).Perm (n ++ [⟨hh, p⟩]) := hp.append_right _
      cases hlast : l.getLast? with
      | none => simpa using happ
      | some last =>
        simp only [hlast]
        by_cases hres : p < last.priority
        · rw [if_pos (show decide (p < last.priority) = true from
            decide_eq_true hres)]
          exact (sortHandlers_perm _).trans happ
        · rw [if_neg (show ¬ decide (p < last.priority) = true from by
            simp only [decide_eq_true_eq]; exact hres)]
          exact happ
  | disconnect hh =>
    rw [stepSig, stepNaive, disconnectM_eq_filter l hh hdl,
      disconnectM_eq_filter n hh hd]
    exact hp.filter _

theorem stepSig_inv (l n : List SH) (op : SigOp) (h : SInv l n) :
    SInv (stepSig l op) (stepNaive n op) :=
  ⟨stepSig_sorted l op h.1 (hnodup_of_perm h.2.2 h.2.1),
   stepNaive_hnodup n op h.2.1, stepSig_perm l n op h.2.2 h.2.1⟩

theorem runSig_inv (ops : List SigOp) : SInv (runSig ops) (runSigNaive ops) := by
  have main : ∀ (ops : List SigOp) (l n : List SH), SInv l n →
      SInv (ops.foldl stepSig l) (ops.foldl stepNaive n) := by
    intro ops
    induction ops with
    | nil => intro l n h; exact h
    | cons op rest ih =>
      intro l n h
      exact ih _ _ (stepSig_inv l n op h)
  exact main ops [] [] ⟨by simp [SSorted], by simp [hnodup], List.Perm.refl _⟩

theorem pfilter_filter (p : Int) (q : SH → Bool) (l : List SH) :
    pfilter p (l.filter q) = (pfilter p l).filter q := by
  rw [pfilter, pfilter, List.filter_filter, List.filter_filter]
  refine List.filter_congr ?_
  intro a _
  exact Bool.and_comm _ _

/-- On a run that does not re-connect a connected handler, one source step
from the sorted array equals sorting after one naive step. -/
theorem fresh_stepSig (n : List SH) (op : SigOp) (hd : hnodup n)
    (hfresh : ∀ h p, op = .connect h p →
      n.any (fun sh => sh.handler == h) = false) :
    stepSig (sortHandlers n) op = sortHandlers (stepNaive n op) := by
  cases op with
  | connect hh p =>
    have hany := hfresh hh p rfl
    have hfind : (sortHandlers n).find? (fun sh => sh.handler == hh) = none := by
      rw [List.find?_eq_none]
      intro sh hsh hsh2
      have hmem : sh ∈ n := (sortHandlers_perm n).mem_iff.mp hsh
      rw [Bool.eq_false_iff, Ne, List.any_eq_true] at hany
      exact hany ⟨sh, hmem, hsh2⟩
    simp only [stepSig, connectM, hfind, stepNaive, hany, Bool.false_eq_true,
      if_false]
    conv_rhs => rw [sortHandlers_append_singleton]
    cases hlast : (sortHandlers n).getLast? with
    | none =>
      have hnil : sortHandlers n = [] := by
        cases hsn : sortHandlers n with
        | nil => rfl
        | cons a as => rw [hsn] at hlast; simp at hlast
      rw [hnil]
      simp [insertTail]
    | some last =>
      by_cases hres : p < last.priority
      · rw [if_pos (show decide (p < last.priority) = true from
          decide_eq_true hres)]
        rw [sortHandlers_append_singleton,
          sortHandlers_of_sorted _ (sortHandlers_sorted n)]
      · rw [if_neg (show ¬ decide (p < last.priority) = true from by
          simp only [decide_eq_true_eq]; exact hres)]
        rw [insertTail_eq_append]
        intro y hy
        intro hlt
        exact hres (lt_of_lt_of_le hlt
          (ssorted_getLast_bound _ last (sortHandlers_sorted n) hlast y hy))
  | disconnect hh =>
    have hdl : hnodup (sortHandlers n) := hnodup_of_perm (sortHandlers_perm n) hd
    rw [stepSig, stepNaive, disconnectM_eq_filter _ hh hdl,
      disconnectM_eq_filter n hh hd]
    refine sorted_pfilter_ext _ _ ?_ ?_ ?_
    · exact (sortHandlers_sorted n).sublist (List.filter_sublist _)
    · exact sortHandlers_sorted _
    · intro p
      rw [pfilter_sortHandlers, pfilter_filter, pfilter_sortHandlers,
        ← pfilter_filter]

theorem runSig_fresh : ∀ (ops : List SigOp) (n : List SH), hnodup n →
    freshRun n ops = true →
    ops.foldl stepSig (sortHandlers n) = sortHandlers (ops.foldl stepNaive n) := by
  intro ops
  induction ops with
  | nil => intro n _ _; rfl
  | cons op rest ih =>
    intro n hd hfr
    cases op with
    | connect h p =>
      rw [freshRun, Bool.and_eq_true, Bool.not_eq_true'] at hfr
      have hstep := fresh_stepSig n (.connect h p) hd
        (fun h' p' hop => by cases hop; exact hfr.1)
      simp only [List.foldl_cons]
      rw [hstep]
      exact ih _ (stepNaive_hnodup n _ hd) hfr.2
    | disconnect h =>
      rw [freshRun] at hfr
      have hstep := fresh_stepSig n (.disconnect h) hd (fun h' p' hop => by cases hop)
      simp only [List.foldl_cons]
      rw [hstep]
      exact ih _ (stepNaive_hnodup n _ hd) hfr

/-! ## C6 — emit order of Signal handlers -/

/-- C6 counterexample: after `connect(h1, 3); connect(h2, 1); connect(h1, 1)`
(re-connecting `h1` at a new priority), emit runs `h2` before `h1`, although
`h1`'s connection order precedes `h2`'s — the tie between the two priority-1
handlers is not broken by connection order, so the claim fails as stated for
sequences that re-connect a connected handler. -/
theorem c6_counterexample_reconnect :
    emitOrder (runSig [.connect 1 3, .connect 2 1, .connect 1 1]) =
      [⟨2, 1⟩, ⟨1, 1⟩] ∧
    sortHandlers (runSigNaive [.connect 1 3, .connect 2 1, .connect 1 1]) =
      [⟨1, 1⟩, ⟨2, 1⟩] ∧
    emitOrder (runSig [.connect 1 3, .connect 2 1, .connect 1 1]) ≠
      sortHandlers (runSigNaive [.connect 1 3, .connect 2 1, .connect 1 1]) := by
  refine ⟨?_, ?_, ?_⟩ <;> decide

/-- C6 (amended): for every sequence of connect/disconnect calls, emit
invokes exactly the currently connected handlers (with their latest
priorities) in ascending numeric priority order; when no connect call
re-targets an already-connected handler, ties are additionally broken by
connection order (the array is the stable sort of the connection-order
list); and the priorities-[5, 1, 5] scenario emits the priority-1 handler
first, then the two priority-5 handlers in connection order. -/
theorem c6_amended_emit_order :
    (∀ ops : List SigOp, SSorted (emitOrder (runSig ops)) ∧
      (emitOrder (runSig ops)).Perm (runSigNaive ops)) ∧
    (∀ ops : List SigOp, freshRun [] ops = true →
      emitOrder (runSig ops) = sortHandlers (runSigNaive ops)) ∧
    emitOrder (runSig [.connect 1 5, .connect 2 1, .connect 3 5]) =
      [⟨2, 1⟩, ⟨1, 5⟩, ⟨3, 5⟩] := by
  refine ⟨?_, ?_, by decide⟩
  · intro ops
    have h := runSig_inv ops
    exact ⟨h.1, h.2.2⟩
  · intro ops hfr
    exact runSig_fresh ops [] (by simp [hnodup]) hfr

/-- Witness for the amended C6 at the claim's own scenario. -/
theorem c6_amended_emit_order_witness :
    emitOrder (runSig [.connect 1 5, .connect 2 1, .connect 3 5]) =
      sortHandlers (runSigNaive [.connect 1 5, .connect 2 1, .connect 3 5]) :=
  c6_amended_emit_order.2.1 [.connect 1 5, .connect 2 1, .connect 3 5] (by decide)

/-! ## C10 — component ids are assigned by constructor name
(src/unnamed/part_009 `getComponentId`, modelled with its process-wide map
and counter) -/

/-- The process-wide registry of src/unnamed/part_009: `componentIds`
(a map from class name to id) and `componentClassId` (the next id,
starting at 1). -/
structure Registry where
  ids : List (CompId × Nat)
  nextId : Nat
deriving DecidableEq, Repr

/-- The initial registry. -/
def registry0 : Registry := ⟨[], 1⟩

/-- `getComponentId(component, createIfNotExists)`: looks the class's
constructor name up, optionally allocating the next id on a miss. -/
def getComponentIdR (cls : CClass) (create : Bool) (r : Registry) :
    Option Nat × Registry :=
  let className := cls.name
  match alookup r.ids className with
  | some id => (some id, r)
  | none =>
    if create then
      (some r.nextId, ⟨aset r.ids className r.nextId, r.nextId + 1⟩)
    else (none, r)

/-- C10: component-type ids are assigned by constructor name, not class
identity — after registering class `A`, any class `B` with the same
constructor name resolves to the same id (with or without
`createIfNotExists`) and leaves the registry unchanged; repeated calls with
the same class return the same id; and entity operations treat two
same-named classes as one component type (`has`/`get` agree, and a
component added under one class is visible under the other). -/
theorem c10_component_ids_by_name :
    (∀ (r : Registry) (A B : CClass) (idA : Option Nat) (r₁ : Registry),
      B.name = A.name → getComponentIdR A true r = (idA, r₁) →
      getComponentIdR B true r₁ = (idA, r₁) ∧
      getComponentIdR B false r₁ = (idA, r₁)) ∧
    (∀ (r : Registry) (A : CClass) (idA : Option Nat) (r₁ : Registry),
      getComponentIdR A true r = (idA, r₁) →
      getComponentIdR A true r₁ = (idA, r₁)) ∧
    (∀ (e : Ent) (A B : CClass), B.name = A.name →
      hasComponentM e A = hasComponentM e B ∧ getM e A = getM e B) ∧
    (∀ (fuel : Nat) (e : Ent) (c : CInst) (B : CClass) (e' : Ent)
        (tr : List TrEv),
      B.name = c.cls.name → c.linked = false →
      addM fuel e (.comp c) none = .ok (e', tr) →
      hasComponentM e' B = true) := by
  refine ⟨?_, ?_, ?_, ?_⟩
  · intro r A B idA r₁ hname hA
    have key : alookup r₁.ids B.name = idA ∧ idA.isSome = true := by
      rw [hname]
      simp only [getComponentIdR] at hA
      cases hl : alookup r.ids A.name with
      | some i =>
        rw [hl] at hA
        obtain ⟨h1, h2⟩ := Prod.mk.injEq .. ▸ hA
        subst h2
        exact ⟨by rw [← h1, hl], by rw [← h1]; rfl⟩
      | none =>
        rw [hl] at hA
        simp only [if_pos rfl] at hA
        obtain ⟨h1, h2⟩ := Prod.mk.injEq .. ▸ hA
        subst h2
        constructor
        · simp [← h1, alookup_aset_self]
        · rw [← h1]; rfl
    constructor
    · simp only [getComponentIdR, key.1]
      cases idA with
      | none => rw [key.1] at key; simp at key
      | some i => rfl
    · simp only [getComponentIdR, key.1]
      cases idA with
      | none => rw [key.1] at key; simp at key
      | some i => rfl
  · intro r A idA r₁ hA
    have key : alookup r₁.ids A.name = idA ∧ idA.isSome = true := by
      simp only [getComponentIdR] at hA
      cases hl : alookup r.ids A.name with
      | some i =>
        rw [hl] at hA
        obtain ⟨h1, h2⟩ := Prod.mk.injEq .. ▸ hA
        subst h2
        exact ⟨by rw [← h1, hl], by rw [← h1]; rfl⟩
      | none =>
        rw [hl] at hA
        simp only [if_pos rfl] at hA
        obtain ⟨h1, h2⟩ := Prod.mk.injEq .. ▸ hA
        subst h2
        constructor
        · simp [← h1, alookup_aset_self]
        · rw [← h1]; rfl
    simp only [getComponentIdR, key.1]
    cases idA with
    | none => rw [key.1] at key; simp at key
    | some i => rfl
  · intro e A B hname
    constructor
    · simp only [hasComponentM, getComponentIdM, hname]
    · simp only [getM, getComponentIdM, hname]
  · intro fuel e c B e' tr hname hnl hadd
    have hkey : getComponentIdM B = c.cls.name := hname
    simp only [addM, addComponentM, getComponentClassM, getComponentIdM,
      isLinkedComponentM, hnl, Bool.not_false] at hadd
    cases hl : alookup e.components c.cls.name with
    | some existing =>
      rw [hl] at hadd
      by_cases hsame : existing = c
      · subst hsame
        simp only [Bool.false_eq_true, not_false_iff, true_and, if_pos,
          Except.ok.injEq, Prod.mk.injEq, and_true, eq_self_iff_true] at hadd
        obtain ⟨h1, _⟩ := hadd
        subst h1
        simp [hasComponentM, hkey, hl]
      · simp only [hsame, and_false, if_false, Bool.false_eq_true] at hadd
        cases hrem : runRem fuel e (RemCmd.removeComponent c.cls) with
        | error er =>
          rw [hrem] at hadd
          simp at hadd
        | ok res =>
          obtain ⟨e₁, tr₁, r₁⟩ := res
          rw [hrem] at hadd
          simp only [Bool.false_eq_true, if_false, Except.ok.injEq,
            Prod.mk.injEq] at hadd
          obtain ⟨h1, _⟩ := hadd
          subst h1
          simp [hasComponentM, hkey, alookup_aset_self]
    | none =>
      rw [hl] at hadd
      simp only [Bool.false_eq_true, if_false, Except.ok.injEq,
        Prod.mk.injEq] at hadd
      obtain ⟨h1, _⟩ := hadd
      subst h1
      simp [hasComponentM, hkey, alookup_aset_self]

/-- Witness for C10: two distinct classes named "Position" share one id, and
a `Position` instance added under one class is seen by the other. -/
theorem c10_component_ids_by_name_witness :
    getComponentIdR ⟨99, "Position"⟩ true
        (⟨[("Position", 7)], 8⟩ : Registry) =
      (some 7, (⟨[("Position", 7)], 8⟩ : Registry)) ∧
    hasComponentM ⟨1, [("Position", posA)], [], []⟩ (⟨99, "Position"⟩ : CClass) =
      true := by
  constructor
  · exact (c10_component_ids_by_name.1 ⟨[], 7⟩ positionCls ⟨99, "Position"⟩
      (some 7) ⟨[("Position", 7)], 8⟩ (by decide) (by decide)).1
  · refine c10_component_ids_by_name.2.2.2 5 ⟨1, [], [], []⟩ posA ⟨99, "Position"⟩
      ⟨1, [("Position", posA)], [], []⟩
      [(⟨1, [("Position", posA)], [], []⟩, .added (.comp posA))]
      (by decide) (by decide) ?_
    rfl

/-! ## C3 — snapshot `previous` reconstruction -/

/-- C3 counterexample: `takeSnapshot` recopies `previous` only when the
snapshot's `current` is a different entity.  Dispatching twice in a row for
the same entity (add `B` to `{A, B}`, then remove `A` leaving `{B}`) leaves
`previous` at the stale `{A}`: it lacks `B`, although the entity holds `B`
and `B` is not the changed field, so `previous` does not equal the current
state patched by the single change. -/
theorem c3_counterexample_consecutive_dispatch :
    (takeSnapshotM ⟨5, [("B", ⟨31, ⟨4, "B"⟩, false⟩)], [], []⟩
        (takeSnapshotM ⟨5, [("A", ⟨30, ⟨3, "A"⟩, false⟩),
                            ("B", ⟨31, ⟨4, "B"⟩, false⟩)], [], []⟩
          ⟨none, ⟨1002, [], [], []⟩⟩
          (some (.comp ⟨31, ⟨4, "B"⟩, false⟩)) none)
        (some (.comp ⟨30, ⟨3, "A"⟩, false⟩)) none).prev.components =
      [("A", ⟨30, ⟨3, "A"⟩, false⟩)] ∧
    hasComponentM ⟨5, [("B", ⟨31, ⟨4, "B"⟩, false⟩)], [], []⟩ ⟨4, "B"⟩ = true ∧
    hasComponentM (takeSnapshotM ⟨5, [("B", ⟨31, ⟨4, "B"⟩, false⟩)], [], []⟩
        (takeSnapshotM ⟨5, [("A", ⟨30, ⟨3, "A"⟩, false⟩),
                            ("B", ⟨31, ⟨4, "B"⟩, false⟩)], [], []⟩
          ⟨none, ⟨1002, [], [], []⟩⟩
          (some (.comp ⟨31, ⟨4, "B"⟩, false⟩)) none)
        (some (.comp ⟨30, ⟨3, "A"⟩, false⟩)) none).prev ⟨4, "B"⟩ = false := by
  refine ⟨?_, ?_, ?_⟩ <;> decide

/-- C3 (amended): on every dispatch where the snapshot's `current` does not
already reference the entity (first use, or previous dispatch was for a
different entity), `previous` is recopied from the entity's current state
and patched by exactly the one changed field: afterwards it agrees with the
entity everywhere except the changed field, which is removed from `previous`
if the entity has it and added if it does not.  (On consecutive dispatches
for the same entity through the same reused snapshot, `previous` is only
patched, not recopied.) -/
theorem c3_amended_snapshot (e : Ent) (s : Snap) (cot : COT)
    (resolve : Option CClass)
    (hck : (e.components.map Prod.fst).Nodup)
    (hcur : s.cur ≠ some e.eid) :
    (takeSnapshotM e s (some cot) resolve).cur = some e.eid ∧
    (match cot with
     | .tag t =>
        (takeSnapshotM e s (some cot) resolve).prev.components = e.components ∧
        (takeSnapshotM e s (some cot) resolve).prev.linked = e.linked ∧
        (∀ u, u ≠ t →
          (u ∈ (takeSnapshotM e s (some cot) resolve).prev.tags ↔ u ∈ e.tags)) ∧
        (t ∈ (takeSnapshotM e s (some cot) resolve).prev.tags ↔ t ∉ e.tags)
     | .comp c =>
        (takeSnapshotM e s (some cot) resolve).prev.tags = e.tags ∧
        (takeSnapshotM e s (some cot) resolve).prev.linked = e.linked ∧
        (∀ id', id' ≠ getComponentIdM (resolve.getD c.cls) →
          alookup (takeSnapshotM e s (some cot) resolve).prev.components id' =
            alookup e.components id') ∧
        alookup (takeSnapshotM e s (some cot) resolve).prev.components
            (getComponentIdM (resolve.getD c.cls)) =
          (if hasComponentM e (resolve.getD c.cls) then none else some c)) := by
  cases cot with
  | tag t =>
    have hres : takeSnapshotM e s (some (.tag t)) resolve =
        ⟨some e.eid, ⟨s.prev.eid, e.components, e.linked,
          if hasTagM e t then e.tags.filter (fun x => decide (x ≠ t))
          else e.tags ++ [t]⟩⟩ := by
      simp only [takeSnapshotM, if_pos hcur, copyFromM]
      by_cases ht : hasTagM e t <;> simp [ht]
    rw [hres]
    by_cases ht : hasTagM e t
    · rw [if_pos ht]
      refine ⟨rfl, rfl, rfl, ?_, ?_⟩
      · intro u hu
        simp [List.mem_filter, hu]
      · simp only [List.mem_filter]
        constructor
        · rintro ⟨_, hdec⟩
          simp at hdec
        · intro hnot
          exact absurd (by simpa [hasTagM] using ht) hnot
    · rw [if_neg ht]
      refine ⟨rfl, rfl, rfl, ?_, ?_⟩
      · intro u hu
        simp [hu]
      · simp only [List.mem_append, List.mem_singleton]
        constructor
        · intro _
          simpa [hasTagM] using ht
        · intro _
          exact Or.inr trivial
  | comp c =>
    have hres : takeSnapshotM e s (some (.comp c)) resolve =
        ⟨some e.eid, ⟨s.prev.eid,
          if hasComponentM e (resolve.getD c.cls)
          then aerase e.components (getComponentIdM (resolve.getD c.cls))
          else aset e.components (getComponentIdM (resolve.getD c.cls)) c,
          e.linked, e.tags⟩⟩ := by
      simp only [takeSnapshotM, if_pos hcur, copyFromM]
      by_cases hc : hasComponentM e (resolve.getD c.cls) <;> simp [hc]
    rw [hres]
    by_cases hc : hasComponentM e (resolve.getD c.cls)
    · rw [if_pos hc]
      refine ⟨rfl, rfl, rfl, ?_, ?_⟩
      · intro id' hid
        exact alookup_aerase_ne _ _ _ hid
      · rw [if_pos hc]
        exact alookup_aerase_self _ _ hck
    · rw [if_neg hc]
      refine ⟨rfl, rfl, rfl, ?_, ?_⟩
      · intro id' hid
        exact alookup_aset_ne _ _ _ _ hid
      · rw [if_neg hc]
        exact alookup_aset_self _ _ _

/-- Witness for the amended C3: first dispatch for an entity holding `A`
after adding `A`. -/
theorem c3_amended_snapshot_witness :
    (takeSnapshotM ⟨7, [("Position", posA)], [], []⟩ ⟨none, ⟨1002, [], [], []⟩⟩
        (some (.comp posA)) none).cur = some 7 ∧
    alookup (takeSnapshotM ⟨7, [("Position", posA)], [], []⟩
        ⟨none, ⟨1002, [], [], []⟩⟩ (some (.comp posA)) none).prev.components
        "Position" = none := by
  have h := c3_amended_snapshot ⟨7, [("Position", posA)], [], []⟩
    ⟨none, ⟨1002, [], [], []⟩⟩ (.comp posA) none (by decide) (by decide)
  refine ⟨h.1, ?_⟩
  have h2 := h.2.2.2.2
  simpa using h2

/-! ## Query helper (shadow) characterizations -/

/-- Pointwise state equality of two entities (identity/eid aside): same
component map, same linked lists, same tag set. -/
def entEq (a b : Ent) : Prop :=
  (∀ id, alookup a.components id = alookup b.components id) ∧
  (∀ id, alookup a.linked id = alookup b.linked id) ∧
  (∀ t, t ∈ a.tags ↔ t ∈ b.tags)

theorem updateHelper_tag (fuel : Nat) (helper e : Ent) (t : Tag)
    (resolve : Option CClass) :
    updateHelperM fuel helper e (.tag t) resolve =
      .ok ⟨helper.eid, e.components, e.linked,
           if t ∈ e.tags then e.tags else e.tags ++ [t]⟩ := by
  by_cases ht : t ∈ e.tags <;>
    simp [updateHelperM, copyFromM, clearM, addTagM, ht]

theorem updateHelper_comp_nonlinked_stored (fuel : Nat) (helper e : Ent)
    (c : CInst) (resolve : Option CClass) (hnl : c.linked = false)
    (hst : alookup e.components c.cls.name = some c) :
    updateHelperM fuel helper e (.comp c) resolve =
      .ok ⟨helper.eid, e.components, e.linked, e.tags⟩ := by
  simp [updateHelperM, copyFromM, clearM, isLinkedComponentM, hnl,
    addComponentM, getComponentClassM, getComponentIdM, hst]

theorem updateHelper_comp_nonlinked_absent (fuel : Nat) (helper e : Ent)
    (c : CInst) (resolve : Option CClass) (hnl : c.linked = false)
    (hst : alookup e.components c.cls.name = none) :
    updateHelperM fuel helper e (.comp c) resolve =
      .ok ⟨helper.eid, aset e.components c.cls.name c, e.linked, e.tags⟩ := by
  simp [updateHelperM, copyFromM, clearM, isLinkedComponentM, hnl,
    addComponentM, getComponentClassM, getComponentIdM, hst]

theorem updateHelper_comp_linked_present (fuel : Nat) (helper e : Ent)
    (c : CInst) (hl : c.linked = true)
    (hst : (alookup e.components c.cls.name).isSome = true) :
    updateHelperM fuel helper e (.comp c) none =
      .ok ⟨helper.eid, e.components, e.linked, e.tags⟩ := by
  simp [updateHelperM, copyFromM, clearM, isLinkedComponentM, hl,
    getComponentClassM, hasKeyM, hasComponentM, getComponentIdM, hst]

theorem updateHelper_comp_linked_absent (fuel : Nat) (helper e : Ent)
    (c : CInst) (hl : c.linked = true)
    (hst : alookup e.components c.cls.name = none)
    (hll : alookup e.linked c.cls.name = none) :
    updateHelperM fuel helper e (.comp c) none =
      .ok ⟨helper.eid, aset e.components c.cls.name c,
           aset e.linked c.cls.name [c], e.tags⟩ := by
  simp [updateHelperM, copyFromM, clearM, isLinkedComponentM, hl,
    getComponentClassM, hasKeyM, hasComponentM, getComponentIdM, hst,
    appendComponentM, getLinkedListM, hll, aset_aset_self]

/-- When the helper rebuild succeeds, the handlers succeed. -/
theorem eca_ok (fuel : Nat) (cfg : QCfg) (q : QState) (e : Ent) (x : COT)
    (helper' : Ent)
    (hhelp : updateHelperM fuel q.helper e x none = .ok helper') :
    ∃ q' evs, entityComponentAddedM fuel cfg q e x none = .ok (q', evs) := by
  simp only [entityComponentAddedM, hhelp]
  by_cases hin : e.eid ∈ q.entities <;> by_cases hm : cfg.pred helper' = true <;>
    by_cases hA : cfg.hasAddedHandlers = true <;>
    by_cases hR : cfg.hasRemovedHandlers = true <;>
    simp [hin, hm, hA, hR]

theorem ecr_ok (fuel : Nat) (cfg : QCfg) (q : QState) (e : Ent) (x : COT)
    (helper' : Ent)
    (hhelp : updateHelperM fuel q.helper e x none = .ok helper') :
    ∃ q' evs, entityComponentRemovedM fuel cfg q e x none = .ok (q', evs) := by
  simp only [entityComponentRemovedM, hhelp]
  by_cases hin : e.eid ∈ q.entities <;> by_cases hh : cfg.pred helper' = true <;>
    by_cases he : cfg.pred e = true <;>
    by_cases hA : cfg.hasAddedHandlers = true <;>
    by_cases hR : cfg.hasRemovedHandlers = true <;>
    simp [hin, hh, he, hA, hR]

/-- `entityComponentAdded` always leaves membership equal to the predicate's
verdict on the rebuilt helper. -/
theorem eca_membership (fuel : Nat) (cfg : QCfg) (q : QState) (e : Ent) (x : COT)
    (helper' : Ent)
    (hhelp : updateHelperM fuel q.helper e x none = .ok helper')
    (hnd : q.entities.Nodup) :
    ∀ q' evs, entityComponentAddedM fuel cfg q e x none = .ok (q', evs) →
      queryHasM q' e.eid = cfg.pred helper' ∧ q'.entities.Nodup := by
  intro q' evs hrun
  by_cases hin : e.eid ∈ q.entities <;> by_cases hm : cfg.pred helper' = true
  · have hq : entityComponentAddedM fuel cfg q e x none =
        .ok (⟨q.entities, helper', q.snapshot⟩, []) := by
      simp [entityComponentAddedM, hhelp, hin, hm]
    rw [hq] at hrun
    simp only [Except.ok.injEq, Prod.mk.injEq] at hrun
    obtain ⟨h1, -⟩ := hrun
    subst h1
    exact ⟨by simp [queryHasM, hin, hm], hnd⟩
  · have hm' : cfg.pred helper' = false := by simpa using hm
    by_cases hR : cfg.hasRemovedHandlers = true
    · have hq : entityComponentAddedM fuel cfg q e x none =
          .ok (⟨eraseFirst q.entities e.eid, helper',
                takeSnapshotM e q.snapshot (some x) none⟩,
               [.qRemoved (takeSnapshotM e q.snapshot (some x) none)]) := by
        simp [entityComponentAddedM, hhelp, hin, hm', hR]
      rw [hq] at hrun
      simp only [Except.ok.injEq, Prod.mk.injEq] at hrun
      obtain ⟨h1, -⟩ := hrun
      subst h1
      exact ⟨by simp [queryHasM, hm', mem_eraseFirst_of_nodup _ _ hnd],
        eraseFirst_nodup _ _ hnd⟩
    · have hq : entityComponentAddedM fuel cfg q e x none =
          .ok (⟨eraseFirst q.entities e.eid, helper', q.snapshot⟩, []) := by
        simp [entityComponentAddedM, hhelp, hin, hm', hR]
      rw [hq] at hrun
      simp only [Except.ok.injEq, Prod.mk.injEq] at hrun
      obtain ⟨h1, -⟩ := hrun
      subst h1
      exact ⟨by simp [queryHasM, hm', mem_eraseFirst_of_nodup _ _ hnd],
        eraseFirst_nodup _ _ hnd⟩
  · by_cases hA : cfg.hasAddedHandlers = true
    · have hq : entityComponentAddedM fuel cfg q e x none =
          .ok (⟨q.entities ++ [e.eid], helper',
                takeSnapshotM e q.snapshot (some x) none⟩,
               [.qAdded (takeSnapshotM e q.snapshot (some x) none)]) := by
        simp [entityComponentAddedM, hhelp, hin, hm, hA]
      rw [hq] at hrun
      simp only [Except.ok.injEq, Prod.mk.injEq] at hrun
      obtain ⟨h1, -⟩ := hrun
      subst h1
      refine ⟨by simp [queryHasM, hm], ?_⟩
      simpa using List.Nodup.append hnd (by simp) (by simpa using hin)
    · have hq : entityComponentAddedM fuel cfg q e x none =
          .ok (⟨q.entities ++ [e.eid], helper', q.snapshot⟩, []) := by
        simp [entityComponentAddedM, hhelp, hin, hm, hA]
      rw [hq] at hrun
      simp only [Except.ok.injEq, Prod.mk.injEq] at hrun
      obtain ⟨h1, -⟩ := hrun
      subst h1
      refine ⟨by simp [queryHasM, hm], ?_⟩
      simpa using List.Nodup.append hnd (by simp) (by simpa using hin)
  · have hq : entityComponentAddedM fuel cfg q e x none =
        .ok (⟨q.entities, helper', q.snapshot⟩, []) := by
      simp [entityComponentAddedM, hhelp, hin, hm]
    rw [hq] at hrun
    simp only [Except.ok.injEq, Prod.mk.injEq] at hrun
    obtain ⟨h1, -⟩ := hrun
    subst h1
    refine ⟨by simp [queryHasM, hin, hm], hnd⟩

/-- Membership after `entityComponentRemoved`: a member is evicted exactly
when the shadow matches and the current state does not; a non-member is
admitted exactly when the current state matches and the shadow does not. -/
theorem ecr_membership (fuel : Nat) (cfg : QCfg) (q : QState) (e : Ent) (x : COT)
    (helper' : Ent)
    (hhelp : updateHelperM fuel q.helper e x none = .ok helper')
    (hnd : q.entities.Nodup) :
    ∀ q' evs, entityComponentRemovedM fuel cfg q e x none = .ok (q', evs) →
      (queryHasM q' e.eid =
        (if queryHasM q e.eid = true ∧ cfg.pred helper' = true ∧
            cfg.pred e = false then false
         else if queryHasM q e.eid = false ∧ cfg.pred e = true ∧
            cfg.pred helper' = false then true
         else queryHasM q e.eid)) ∧ q'.entities.Nodup := by
  intro q' evs hrun
  by_cases hin : e.eid ∈ q.entities <;> by_cases hh : cfg.pred helper' = true <;>
    by_cases he : cfg.pred e = true
  -- member, shadow T, current T
  · have hq : entityComponentRemovedM fuel cfg q e x none =
        .ok (⟨q.entities, helper', q.snapshot⟩, []) := by
      simp [entityComponentRemovedM, hhelp, hin, hh, he]
    rw [hq] at hrun
    simp only [Except.ok.injEq, Prod.mk.injEq] at hrun
    obtain ⟨h1, -⟩ := hrun
    subst h1
    exact ⟨by simp [queryHasM, hin, hh, he], hnd⟩
  -- member, shadow T, current F: evict
  · have he' : cfg.pred e = false := by simpa using he
    by_cases hR : cfg.hasRemovedHandlers = true
    · have hq : entityComponentRemovedM fuel cfg q e x none =
          .ok (⟨eraseFirst q.entities e.eid, helper',
                takeSnapshotM e q.snapshot (some x) none⟩,
               [.qRemoved (takeSnapshotM e q.snapshot (some x) none)]) := by
        simp [entityComponentRemovedM, hhelp, hin, hh, he', hR]
      rw [hq] at hrun
      simp only [Except.ok.injEq, Prod.mk.injEq] at hrun
      obtain ⟨h1, -⟩ := hrun
      subst h1
      exact ⟨by simp [queryHasM, hin, hh, he', mem_eraseFirst_of_nodup _ _ hnd],
        eraseFirst_nodup _ _ hnd⟩
    · have hq : entityComponentRemovedM fuel cfg q e x none =
          .ok (⟨eraseFirst q.entities e.eid, helper', q.snapshot⟩, []) := by
        simp [entityComponentRemovedM, hhelp, hin, hh, he', hR]
      rw [hq] at hrun
      simp only [Except.ok.injEq, Prod.mk.injEq] at hrun
      obtain ⟨h1, -⟩ := hrun
      subst h1
      exact ⟨by simp [queryHasM, hin, hh, he', mem_eraseFirst_of_nodup _ _ hnd],
        eraseFirst_nodup _ _ hnd⟩
  -- member, shadow F, current T
  · have hh' : cfg.pred helper' = false := by simpa using hh
    have hq : entityComponentRemovedM fuel cfg q e x none =
        .ok (⟨q.entities, helper', q.snapshot⟩, []) := by
      simp [entityComponentRemovedM, hhelp, hin, hh', he]
    rw [hq] at hrun
    simp only [Except.ok.injEq, Prod.mk.injEq] at hrun
    obtain ⟨h1, -⟩ := hrun
    subst h1
    exact ⟨by simp [queryHasM, hin, hh', he], hnd⟩
  -- member, shadow F, current F
  · have hh' : cfg.pred helper' = false := by simpa using hh
    have he' : cfg.pred e = false := by simpa using he
    have hq : entityComponentRemovedM fuel cfg q e x none =
        .ok (⟨q.entities, helper', q.snapshot⟩, []) := by
      simp [entityComponentRemovedM, hhelp, hin, hh', he']
    rw [hq] at hrun
    simp only [Except.ok.injEq, Prod.mk.injEq] at hrun
    obtain ⟨h1, -⟩ := hrun
    subst h1
    exact ⟨by simp [queryHasM, hin, hh', he'], hnd⟩
  -- non-member, shadow T, current T
  · have hq : entityComponentRemovedM fuel cfg q e x none =
        .ok (⟨q.entities, helper', q.snapshot⟩, []) := by
      simp [entityComponentRemovedM, hhelp, hin, hh, he]
    rw [hq] at hrun
    simp only [Except.ok.injEq, Prod.mk.injEq] at hrun
    obtain ⟨h1, -⟩ := hrun
    subst h1
    exact ⟨by simp [queryHasM, hin, hh, he], hnd⟩
  -- non-member, shadow T, current F
  · have he' : cfg.pred e = false := by simpa using he
    have hq : entityComponentRemovedM fuel cfg q e x none =
        .ok (⟨q.entities, helper', q.snapshot⟩, []) := by
      simp [entityComponentRemovedM, hhelp, hin, hh, he']
    rw [hq] at hrun
    simp only [Except.ok.injEq, Prod.mk.injEq] at hrun
    obtain ⟨h1, -⟩ := hrun
    subst h1
    exact ⟨by simp [queryHasM, hin, hh, he'], hnd⟩
  -- non-member, shadow F, current T: admit
  · have hh' : cfg.pred helper' = false := by simpa using hh
    by_cases hA : cfg.hasAddedHandlers = true
    · have hq : entityComponentRemovedM fuel cfg q e x none =
          .ok (⟨q.entities ++ [e.eid], helper',
                takeSnapshotM e q.snapshot (some x) none⟩,
               [.qAdded (takeSnapshotM e q.snapshot (some x) none)]) := by
        simp [entityComponentRemovedM, hhelp, hin, hh', he, hA]
      rw [hq] at hrun
      simp only [Except.ok.injEq, Prod.mk.injEq] at hrun
      obtain ⟨h1, -⟩ := hrun
      subst h1
      refine ⟨by simp [queryHasM, hin, hh', he], ?_⟩
      simpa using List.Nodup.append hnd (by simp) (by simpa using hin)
    · have hq : entityComponentRemovedM fuel cfg q e x none =
          .ok (⟨q.entities ++ [e.eid], helper', q.snapshot⟩, []) := by
        simp [entityComponentRemovedM, hhelp, hin, hh', he, hA]
      rw [hq] at hrun
      simp only [Except.ok.injEq, Prod.mk.injEq] at hrun
      obtain ⟨h1, -⟩ := hrun
      subst h1
      refine ⟨by simp [queryHasM, hin, hh', he], ?_⟩
      simpa using List.Nodup.append hnd (by simp) (by simpa using hin)
  -- non-member, shadow F, current F
  · have hh' : cfg.pred helper' = false := by simpa using hh
    have he' : cfg.pred e = false := by simpa using he
    have hq : entityComponentRemovedM fuel cfg q e x none =
        .ok (⟨q.entities, helper', q.snapshot⟩, []) := by
      simp [entityComponentRemovedM, hhelp, hin, hh', he']
    rw [hq] at hrun
    simp only [Except.ok.injEq, Prod.mk.injEq] at hrun
    obtain ⟨h1, -⟩ := hrun
    subst h1
    exact ⟨by simp [queryHasM, hin, hh', he'], hnd⟩

/-- `entityComponentRemoved`'s transition/emission table: evict a member
whose shadow matches but whose current state does not (one removed
emission); admit a non-member whose current state matches but whose shadow
does not (one added emission); otherwise leave membership unchanged with no
emission. -/
theorem ecr_branches (fuel : Nat) (cfg : QCfg) (q : QState) (e : Ent) (x : COT)
    (helper' : Ent)
    (hhelp : updateHelperM fuel q.helper e x none = .ok helper')
    (hA : cfg.hasAddedHandlers = true) (hR : cfg.hasRemovedHandlers = true)
    (hnd : q.entities.Nodup) :
    ∀ q' evs, entityComponentRemovedM fuel cfg q e x none = .ok (q', evs) →
      ((queryHasM q e.eid = true ∧ cfg.pred helper' = true ∧
          cfg.pred e = false) →
        queryHasM q' e.eid = false ∧ ∃ sn, evs = [.qRemoved sn]) ∧
      ((queryHasM q e.eid = false ∧ cfg.pred e = true ∧
          cfg.pred helper' = false) →
        queryHasM q' e.eid = true ∧ ∃ sn, evs = [.qAdded sn]) ∧
      (¬ (queryHasM q e.eid = true ∧ cfg.pred helper' = true ∧
          cfg.pred e = false) →
       ¬ (queryHasM q e.eid = false ∧ cfg.pred e = true ∧
          cfg.pred helper' = false) →
        q'.entities = q.entities ∧ evs = []) := by
  intro q' evs hrun
  by_cases hin : e.eid ∈ q.entities <;> by_cases hh : cfg.pred helper' = true <;>
    by_cases he : cfg.pred e = true
  -- member, shadow T, current T: no transition
  · have hq : entityComponentRemovedM fuel cfg q e x none =
        .ok (⟨q.entities, helper', q.snapshot⟩, []) := by
      simp [entityComponentRemovedM, hhelp, hin, hh, he]
    rw [hq] at hrun
    simp only [Except.ok.injEq, Prod.mk.injEq] at hrun
    obtain ⟨h1, h2⟩ := hrun
    subst h1; subst h2
    refine ⟨?_, ?_, fun _ _ => ⟨rfl, rfl⟩⟩
    · rintro ⟨-, -, hfalse⟩
      rw [he] at hfalse
      cases hfalse
    · rintro ⟨hfalse, -, -⟩
      simp [queryHasM, hin] at hfalse
  -- member, shadow T, current F: evict
  · have he' : cfg.pred e = false := by simpa using he
    have hq : entityComponentRemovedM fuel cfg q e x none =
        .ok (⟨eraseFirst q.entities e.eid, helper',
              takeSnapshotM e q.snapshot (some x) none⟩,
             [.qRemoved (takeSnapshotM e q.snapshot (some x) none)]) := by
      simp [entityComponentRemovedM, hhelp, hin, hh, he', hR]
    rw [hq] at hrun
    simp only [Except.ok.injEq, Prod.mk.injEq] at hrun
    obtain ⟨h1, h2⟩ := hrun
    subst h1; subst h2
    refine ⟨?_, ?_, ?_⟩
    · intro _
      exact ⟨by simp [queryHasM, mem_eraseFirst_of_nodup _ _ hnd], _, rfl⟩
    · rintro ⟨hfalse, -, -⟩
      simp [queryHasM, hin] at hfalse
    · rintro hfalse _
      exact absurd ⟨by simp [queryHasM, hin], hh, he'⟩ hfalse
  -- member, shadow F, current T: no transition
  · have hh' : cfg.pred helper' = false := by simpa using hh
    have hq : entityComponentRemovedM fuel cfg q e x none =
        .ok (⟨q.entities, helper', q.snapshot⟩, []) := by
      simp [entityComponentRemovedM, hhelp, hin, hh', he]
    rw [hq] at hrun
    simp only [Except.ok.injEq, Prod.mk.injEq] at hrun
    obtain ⟨h1, h2⟩ := hrun
    subst h1; subst h2
    refine ⟨?_, ?_, fun _ _ => ⟨rfl, rfl⟩⟩
    · rintro ⟨-, hfalse, -⟩
      rw [hh'] at hfalse
      cases hfalse
    · rintro ⟨hfalse, -, -⟩
      simp [queryHasM, hin] at hfalse
  -- member, shadow F, current F: no transition
  · have hh' : cfg.pred helper' = false := by simpa using hh
    have he' : cfg.pred e = false := by simpa using he
    have hq : entityComponentRemovedM fuel cfg q e x none =
        .ok (⟨q.entities, helper', q.snapshot⟩, []) := by
      simp [entityComponentRemovedM, hhelp, hin, hh', he']
    rw [hq] at hrun
    simp only [Except.ok.injEq, Prod.mk.injEq] at hrun
    obtain ⟨h1, h2⟩ := hrun
    subst h1; subst h2
    refine ⟨?_, ?_, fun _ _ => ⟨rfl, rfl⟩⟩
    · rintro ⟨-, hfalse, -⟩
      rw [hh'] at hfalse
      cases hfalse
    · rintro ⟨-, hfalse, -⟩
      rw [he'] at hfalse
      cases hfalse
  -- non-member, shadow T, current T: no transition
  · have hq : entityComponentRemovedM fuel cfg q e x none =
        .ok (⟨q.entities, helper', q.snapshot⟩, []) := by
      simp [entityComponentRemovedM, hhelp, hin, hh, he]
    rw [hq] at hrun
    simp only [Except.ok.injEq, Prod.mk.injEq] at hrun
    obtain ⟨h1, h2⟩ := hrun
    subst h1; subst h2
    refine ⟨?_, ?_, fun _ _ => ⟨rfl, rfl⟩⟩
    · rintro ⟨hfalse, -, -⟩
      simp [queryHasM, hin] at hfalse
    · rintro ⟨-, -, hfalse⟩
      rw [hh] at hfalse
      cases hfalse
  -- non-member, shadow T, current F: no transition
  · have he' : cfg.pred e = false := by simpa using he
    have hq : entityComponentRemovedM fuel cfg q e x none =
        .ok (⟨q.entities, helper', q.snapshot⟩, []) := by
      simp [entityComponentRemovedM, hhelp, hin, hh, he']
    rw [hq] at hrun
    simp only [Except.ok.injEq, Prod.mk.injEq] at hrun
    obtain ⟨h1, h2⟩ := hrun
    subst h1; subst h2
    refine ⟨?_, ?_, fun _ _ => ⟨rfl, rfl⟩⟩
    · rintro ⟨hfalse, -, -⟩
      simp [queryHasM, hin] at hfalse
    · rintro ⟨-, hfalse, -⟩
      rw [he'] at hfalse
      cases hfalse
  -- non-member, shadow F, current T: admit
  · have hh' : cfg.pred helper' = false := by simpa using hh
    have hq : entityComponentRemovedM fuel cfg q e x none =
        .ok (⟨q.entities ++ [e.eid], helper',
              takeSnapshotM e q.snapshot (some x) none⟩,
             [.qAdded (takeSnapshotM e q.snapshot (some x) none)]) := by
      simp [entityComponentRemovedM, hhelp, hin, hh', he, hA]
    rw [hq] at hrun
    simp only [Except.ok.injEq, Prod.mk.injEq] at hrun
    obtain ⟨h1, h2⟩ := hrun
    subst h1; subst h2
    refine ⟨?_, ?_, ?_⟩
    · rintro ⟨hfalse, -, -⟩
      simp [queryHasM, hin] at hfalse
    · intro _
      exact ⟨by simp [queryHasM], _, rfl⟩
    · rintro _ hfalse
      exact absurd ⟨by simp [queryHasM, hin], he, hh'⟩ hfalse
  -- non-member, shadow F, current F: no transition
  · have hh' : cfg.pred helper' = false := by simpa using hh
    have he' : cfg.pred e = false := by simpa using he
    have hq : entityComponentRemovedM fuel cfg q e x none =
        .ok (⟨q.entities, helper', q.snapshot⟩, []) := by
      simp [entityComponentRemovedM, hhelp, hin, hh', he']
    rw [hq] at hrun
    simp only [Except.ok.injEq, Prod.mk.injEq] at hrun
    obtain ⟨h1, h2⟩ := hrun
    subst h1; subst h2
    refine ⟨?_, ?_, fun _ _ => ⟨rfl, rfl⟩⟩
    · rintro ⟨hfalse, -, -⟩
      simp [queryHasM, hin] at hfalse
    · rintro ⟨-, hfalse, -⟩
      rw [he'] at hfalse
      cases hfalse

/-! ## C2 — the shadow on a single-field removal -/

/-- The presence key of a changed item. -/
def keyOf : COT → Key
  | .tag t => .tag t
  | .comp c => .cls c.cls

/-- A single-field removal dispatch: pre-state `p`, post-state `e'` (the
entity at dispatch time, after the field is gone), removed item `x`.  The
two dispatch sites of the source are `Entity.remove` of a present tag and
`Entity.withdrawComponent` (reached directly, by `withdraw`/`pick` on the
visible head, and iteratively by `removeComponent`'s drain loop, whose every
event is a `withdrawComponent` dispatch from the intermediate state). -/
def SingleRemoval (fuel : Nat) (p e' : Ent) : COT → Prop
  | .tag t => removeTagM p t = (e', [(e', .removed (.tag t))])
  | .comp c => ∃ r, withdrawComponentM fuel p c none = .ok (e', [(e', .removed (.comp c))], r)

theorem alookup_mem {α : Type} (m : List (CompId × α)) (id : CompId) (v : α)
    (h : alookup m id = some v) : (id, v) ∈ m := by
  induction m with
  | nil => simp [alookup] at h
  | cons kv rest ih =>
    obtain ⟨k, x⟩ := kv
    by_cases hk : k = id
    · subst hk
      simp [alookup] at h
      subst h
      exact List.mem_cons_self _ _
    · simp only [alookup, if_neg hk] at h
      exact List.mem_cons_of_mem _ (ih h)

theorem eraseFirst_eq_nil {α : Type} [DecidableEq α] (l : List α) (a : α)
    (hmem : a ∈ l) (h : eraseFirst l a = []) : l = [a] := by
  cases l with
  | nil => cases hmem
  | cons x xs =>
    by_cases hx : x = a
    · subst hx
      rw [eraseFirst_cons_self] at h
      rw [h]
    · rw [eraseFirst, if_neg hx] at h
      cases h

/-- Re-inserting an erased binding restores every lookup. -/
theorem alookup_aset_aerase {α : Type} (m : List (CompId × α)) (id : CompId) (v : α)
    (h : alookup m id = some v) :
    ∀ id', alookup (aset (aerase m id) id v) id' = alookup m id' := by
  intro id'
  by_cases hid : id' = id
  · subst hid
    rw [alookup_aset_self, h]
  · rw [alookup_aset_ne _ _ _ _ hid, alookup_aerase_ne _ _ _ hid]

/-- C2 (amended): on a single-field removal dispatch — pre-state `p`,
post-state `e'`, removed item `x` — the query's shadow rebuild
(`updateHelper`) yields a helper that equals the PRE-removal state exactly
when the removed slot is fully absent from the post-state (always for tags
and non-linked components, and for a linked component only when its last
instance was withdrawn); when the slot survives a partial linked removal the
shadow equals the POST-removal state instead.  `entityComponentRemoved` then
compares the predicate on that shadow with the predicate on the current
state: a member whose shadow matches but whose current state does not is
evicted with one removed emission, a non-member whose current state matches
but whose shadow does not is admitted with one added emission, and in all
other combinations membership is unchanged and nothing is emitted. -/
theorem c2_amended_removal_shadow (fuel fuelQ : Nat) (cfg : QCfg) (q : QState)
    (p e' : Ent) (x : COT)
    (hwf : WFE p)
    (hrem : SingleRemoval fuel p e' x)
    (hA : cfg.hasAddedHandlers = true) (hR : cfg.hasRemovedHandlers = true)
    (hnd : q.entities.Nodup) :
    ∃ helper', updateHelperM fuelQ q.helper e' x none = .ok helper' ∧
      (hasKeyM e' (keyOf x) = false → entEq helper' p) ∧
      (hasKeyM e' (keyOf x) = true → entEq helper' e') ∧
      (∀ q' evs, entityComponentRemovedM fuelQ cfg q e' x none = .ok (q', evs) →
        ((queryHasM q e'.eid = true ∧ cfg.pred helper' = true ∧
            cfg.pred e' = false) →
          queryHasM q' e'.eid = false ∧ ∃ sn, evs = [QEv.qRemoved sn]) ∧
        ((queryHasM q e'.eid = false ∧ cfg.pred e' = true ∧
            cfg.pred helper' = false) →
          queryHasM q' e'.eid = true ∧ ∃ sn, evs = [QEv.qAdded sn]) ∧
        (¬ (queryHasM q e'.eid = true ∧ cfg.pred helper' = true ∧
            cfg.pred e' = false) →
         ¬ (queryHasM q e'.eid = false ∧ cfg.pred e' = true ∧
            cfg.pred helper' = false) →
          q'.entities = q.entities ∧ evs = [])) := by
  cases x with
  | tag t =>
    simp only [SingleRemoval] at hrem
    by_cases ht : t ∈ p.tags
    · rw [removeTagM, if_pos ht] at hrem
      simp only [Prod.mk.injEq] at hrem
      obtain ⟨he, -⟩ := hrem
      subst he
      have htf : t ∉ p.tags.filter (fun y => decide (y ≠ t)) := by simp
      have hhelp : updateHelperM fuelQ q.helper
          { p with tags := p.tags.filter (fun y => decide (y ≠ t)) } (.tag t) none =
          .ok ⟨q.helper.eid, p.components, p.linked,
               p.tags.filter (fun y => decide (y ≠ t)) ++ [t]⟩ := by
        rw [updateHelper_tag]
        simp [htf]
      refine ⟨_, hhelp, ?_, ?_,
        ecr_branches fuelQ cfg q _ (.tag t) _ hhelp hA hR hnd⟩
      · intro _
        refine ⟨fun id => rfl, fun id => rfl, fun s => ?_⟩
        simp only [List.mem_append, List.mem_filter, List.mem_singleton,
          decide_eq_true_eq]
        constructor
        · rintro (⟨hs, -⟩ | rfl)
          · exact hs
          · exact ht
        · intro hs
          by_cases hst : s = t
          · exact Or.inr hst
          · exact Or.inl ⟨hs, hst⟩
      · intro hk
        simp [keyOf, hasKeyM, hasTagM] at hk
    · rw [removeTagM, if_neg ht] at hrem
      simp only [Prod.mk.injEq] at hrem
      exact absurd hrem.2 (by simp)
  | comp c =>
    simp only [SingleRemoval] at hrem
    obtain ⟨r, hrun⟩ := hrem
    cases fuel with
    | zero => simp [withdrawComponentM, runRem] at hrun
    | succ f =>
    simp only [withdrawComponentM] at hrun
    by_cases hlk : isLinkedComponentM c = true
    · -- linked instance: direct unlink in `withdrawComponent`
      cases hslot : alookup p.components c.cls.name with
      | none =>
        simp [runRem, getComponentClassM, getComponentIdM, hlk, hslot] at hrun
      | some sv =>
        cases hlist : alookup p.linked c.cls.name with
        | none =>
          simp [runRem, getComponentClassM, getComponentIdM, hlk, hslot, hlist] at hrun
        | some list =>
          by_cases hc : c ∈ list
          · cases hl' : eraseFirst list c with
            | nil =>
              -- last instance withdrawn: slot and list deleted
              have hlc : list = [c] := eraseFirst_eq_nil list c hc hl'
              subst hlc
              have hsv : sv = c := by
                have hh := hwf.linkHead _ _ hlist
                rw [hslot] at hh
                simpa using hh
              simp [runRem, getComponentClassM, getComponentIdM, hlk, hslot,
                hlist, hl'] at hrun
              obtain ⟨he, -, -⟩ := hrun
              subst he
              have hstA : alookup (aerase p.components c.cls.name)
                  c.cls.name = none := alookup_aerase_self _ _ hwf.compKeys
              have hstL : alookup (aerase (aset p.linked c.cls.name [])
                  c.cls.name) c.cls.name = none :=
                alookup_aerase_self _ _ (nodup_keys_aset _ _ _ hwf.linkKeys)
              have hhelp := updateHelper_comp_linked_absent fuelQ q.helper
                { p with components := aerase p.components c.cls.name,
                         linked := aerase (aset p.linked c.cls.name [])
                           c.cls.name } c hlk hstA hstL
              refine ⟨_, hhelp, ?_, ?_,
                ecr_branches fuelQ cfg q _ (.comp c) _ hhelp hA hR hnd⟩
              · intro _
                have hslot' : alookup p.components c.cls.name = some c := by
                  rw [hslot, hsv]
                have hlist' : alookup p.linked c.cls.name = some [c] := hlist
                refine ⟨fun id => alookup_aset_aerase _ _ _ hslot' id,
                  fun id => ?_, fun s => Iff.rfl⟩
                show alookup (aset (aerase (aset p.linked c.cls.name [])
                  c.cls.name) c.cls.name [c]) id = alookup p.linked id
                by_cases hid : id = c.cls.name
                · subst hid
                  rw [alookup_aset_self, hlist']
                · rw [alookup_aset_ne _ _ _ _ hid, alookup_aerase_ne _ _ _ hid,
                    alookup_aset_ne _ _ _ _ hid]
              · intro hk
                simp [keyOf, hasKeyM, hasComponentM, getComponentIdM, hstA] at hk
            | cons h2 t2 =>
              -- partial removal: the slot survives, re-pointed at the new head
              simp [runRem, getComponentClassM, getComponentIdM, hlk, hslot,
                hlist, hl', hc] at hrun
              obtain ⟨he, -, -⟩ := hrun
              subst he
              have hst : (alookup (aset p.components c.cls.name h2)
                  c.cls.name).isSome = true := by
                have h1 : alookup (aset p.components c.cls.name h2)
                    c.cls.name = some h2 := alookup_aset_self _ _ _
                rw [h1]
                rfl
              have hhelp := updateHelper_comp_linked_present fuelQ q.helper
                { p with components := aset p.components c.cls.name h2,
                         linked := aset p.linked c.cls.name (h2 :: t2) }
                c hlk hst
              refine ⟨_, hhelp, ?_, ?_,
                ecr_branches fuelQ cfg q _ (.comp c) _ hhelp hA hR hnd⟩
              · intro hk
                simp [keyOf, hasKeyM, hasComponentM, getComponentIdM,
                  alookup_aset_self] at hk
              · intro _
                exact ⟨fun id => rfl, fun id => rfl, fun s => Iff.rfl⟩
          · simp [runRem, getComponentClassM, getComponentIdM, hlk, hslot,
              hlist, hc] at hrun
    · -- non-linked instance: degenerates to `removeComponent`
      have hnl : c.linked = false := by simpa [isLinkedComponentM] using hlk
      have hstep1 : runRem (f + 1) p (.withdrawComponent c none) =
          runRem f p (.removeComponent c.cls) := by
        simp [runRem, getComponentClassM, isLinkedComponentM, hnl]
      rw [hstep1] at hrun
      cases f with
      | zero => simp [runRem] at hrun
      | succ g =>
      cases hslot : alookup p.components c.cls.name with
      | none => simp [runRem, getComponentIdM, hslot] at hrun
      | some value =>
        by_cases hvl : isLinkedComponentM value = true
        · -- the visible instance is linked: every drained event names a
          -- linked list member, never the non-linked `c`
          have hvl' : value.linked = true := by
            simpa [isLinkedComponentM] using hvl
          cases hlist : alookup p.linked c.cls.name with
          | none =>
            have hstep2 : runRem (g + 1) p (.removeComponent c.cls) =
                match runRem g { p with linked := aset p.linked c.cls.name [] }
                    (.removeAllLoop c.cls) with
                | .error er => .error er
                | .ok (e₂, tr, _) => .ok (e₂, tr, some value) := by
              simp [runRem, getComponentIdM, hslot, hvl, getLinkedListM, hlist]
            rw [hstep2] at hrun
            cases g with
            | zero => simp [runRem] at hrun
            | succ g₁ =>
              have hloop : runRem (g₁ + 1)
                  { p with linked := aset p.linked c.cls.name [] }
                  (.removeAllLoop c.cls) =
                  .ok ({ p with linked := aset p.linked c.cls.name [] },
                    [], none) := by
                simp [runRem, getComponentIdM, alookup_aset_self]
              simp only [hloop] at hrun
              simp at hrun
          | some list =>
            have hne := hwf.linkNonempty _ _ hlist
            have hhd := hwf.linkHead _ _ hlist
            cases list with
            | nil => exact absurd rfl hne
            | cons l0 lrest =>
              rw [hslot] at hhd
              have hv0 : value = l0 := by simpa using hhd
              subst hv0
              have hstep2 : runRem (g + 1) p (.removeComponent c.cls) =
                  match runRem g p (.removeAllLoop c.cls) with
                  | .error er => .error er
                  | .ok (e₂, tr, _) => .ok (e₂, tr, some value) := by
                simp [runRem, getComponentIdM, hslot, hvl, getLinkedListM, hlist]
              rw [hstep2] at hrun
              cases g with
              | zero => simp [runRem] at hrun
              | succ g₁ =>
              have hstep3 : runRem (g₁ + 1) p (.removeAllLoop c.cls) =
                  match runRem g₁ p (.withdraw c.cls) with
                  | .error er => .error er
                  | .ok (e₁, tr₁, r₁) =>
                    match runRem g₁ e₁ (.removeAllLoop c.cls) with
                    | .error er => .error er
                    | .ok (e₂, tr₂, _) => .ok (e₂, tr₁ ++ tr₂, r₁) := by
                simp [runRem, getComponentIdM, hlist]
              rw [hstep3] at hrun
              cases g₁ with
              | zero => simp [runRem] at hrun
              | succ g₂ =>
              cases g₂ with
              | zero => simp [runRem, getM, getComponentIdM, hslot] at hrun
              | succ g₃ =>
              by_cases hvc : value.cls = c.cls
              · cases lrest with
                | nil =>
                  have hwd := withdraw_head_last g₃ p c.cls value hlist hslot hvl' hvc
                  simp only [withdrawM] at hwd
                  have hwd' : runRem (g₃ + 1 + 1) p (.withdraw c.cls) =
                      .ok ({ p with
                          components := aerase p.components c.cls.name,
                          linked := aerase p.linked c.cls.name },
                        [({ p with
                            components := aerase p.components c.cls.name,
                            linked := aerase p.linked c.cls.name },
                          .removed (.comp value))], some value) := hwd
                  simp only [hwd'] at hrun
                  have hloop2 : runRem (g₃ + 1 + 1)
                      { p with
                        components := aerase p.components c.cls.name,
                        linked := aerase p.linked c.cls.name }
                      (.removeAllLoop c.cls) =
                      .ok ({ p with
                          components := aerase p.components c.cls.name,
                          linked := aerase p.linked c.cls.name },
                        [], none) := by
                    simp [runRem, getComponentIdM,
                      alookup_aerase_self _ _ hwf.linkKeys]
                  simp only [hloop2] at hrun
                  simp at hrun
                  have hvc2 : value = c := hrun.2.1.2
                  rw [hvc2, hnl] at hvl'
                  cases hvl'
                | cons h2 t2 =>
                  have hwd := withdraw_head_cons g₃ p c.cls value h2 t2 hlist hslot hvl' hvc
                  simp only [withdrawM] at hwd
                  have hwd' : runRem (g₃ + 1 + 1) p (.withdraw c.cls) =
                      .ok ({ p with
                          components := aset p.components c.cls.name h2,
                          linked := aset p.linked c.cls.name (h2 :: t2) },
                        [({ p with
                            components := aset p.components c.cls.name h2,
                            linked := aset p.linked c.cls.name (h2 :: t2) },
                          .removed (.comp value))], some value) := hwd
                  simp only [hwd'] at hrun
                  cases hrec : runRem (g₃ + 1 + 1)
                      { p with
                        components := aset p.components c.cls.name h2,
                        linked := aset p.linked c.cls.name (h2 :: t2) }
                      (.removeAllLoop c.cls) with
                  | error er => simp only [hrec] at hrun; simp at hrun
                  | ok res =>
                    obtain ⟨e₃, tr₂, r₂⟩ := res
                    simp only [hrec] at hrun
                    simp at hrun
                    have hvc3 : value = c := hrun.2.1.1.2
                    rw [hvc3, hnl] at hvl'
                    cases hvl'
              · have hwd : runRem (g₃ + 1 + 1) p (.withdraw c.cls) =
                    .error (.resolveMismatch, p) := by
                  simp [runRem, getM, getComponentIdM, hslot,
                    getComponentClassM, hvc]
                rw [hwd] at hrun
                simp at hrun
        · -- the visible instance is non-linked: the slot is deleted and the
          -- single event names it, so it is `c` itself
          have hvl' : value.linked = false := by
            simpa [isLinkedComponentM] using hvl
          simp [runRem, getComponentIdM, hslot, hvl] at hrun
          have he : { p with components := aerase p.components c.cls.name } = e' :=
            hrun.1
          have hvc : value = c := hrun.2.1.2
          rw [hvc] at hslot
          subst he
          have hstnone : alookup (aerase p.components c.cls.name)
              c.cls.name = none := alookup_aerase_self _ _ hwf.compKeys
          have hhelp := updateHelper_comp_nonlinked_absent fuelQ q.helper
            { p with components := aerase p.components c.cls.name }
            c none hnl hstnone
          refine ⟨_, hhelp, ?_, ?_,
            ecr_branches fuelQ cfg q _ (.comp c) _ hhelp hA hR hnd⟩
          · intro _
            have hslot' : alookup p.components c.cls.name = some c := hslot
            exact ⟨fun id => alookup_aset_aerase _ _ _ hslot' id,
              fun id => rfl, fun s => Iff.rfl⟩
          · intro hk
            simp [keyOf, hasKeyM, hasComponentM, getComponentIdM, hstnone] at hk

/-- C2 (counterexample): withdrawing one of two linked `Damage` instances is
a single-field removal whose shadow does NOT reconstruct the pre-removal
state: `updateHelper` re-applies the removed instance only when the helper
lacks the class, so after a partial linked removal the shadow equals the
post-removal state.  Observably: with the predicate "exactly two Damage
instances", the pre-state matched, the post-state does not, and the entity
is a member — the claim's table (shadow = pre-state) would evict it, but
`entityComponentRemoved` keeps it with no emission. -/
theorem c2_counterexample_partial_linked :
    SingleRemoval 5
      ⟨1, [("Damage", dmgA)], [("Damage", [dmgA, dmgB])], []⟩
      ⟨1, [("Damage", dmgB)], [("Damage", [dmgB])], []⟩ (.comp dmgA) ∧
    updateHelperM 5 ⟨0, [], [], []⟩
      ⟨1, [("Damage", dmgB)], [("Damage", [dmgB])], []⟩ (.comp dmgA) none =
      .ok ⟨0, [("Damage", dmgB)], [("Damage", [dmgB])], []⟩ ∧
    ¬ entEq ⟨0, [("Damage", dmgB)], [("Damage", [dmgB])], []⟩
        ⟨1, [("Damage", dmgA)], [("Damage", [dmgA, dmgB])], []⟩ ∧
    entEq ⟨0, [("Damage", dmgB)], [("Damage", [dmgB])], []⟩
        ⟨1, [("Damage", dmgB)], [("Damage", [dmgB])], []⟩ ∧
    decide (lengthOfM ⟨1, [("Damage", dmgA)], [("Damage", [dmgA, dmgB])], []⟩
        damageCls = 2) = true ∧
    decide (lengthOfM ⟨1, [("Damage", dmgB)], [("Damage", [dmgB])], []⟩
        damageCls = 2) = false ∧
    entityComponentRemovedM 5
      ⟨fun e => decide (lengthOfM e damageCls = 2), true, true⟩
      ⟨[1], ⟨0, [], [], []⟩, ⟨none, ⟨2, [], [], []⟩⟩⟩
      ⟨1, [("Damage", dmgB)], [("Damage", [dmgB])], []⟩ (.comp dmgA) none =
      .ok (⟨[1], ⟨0, [("Damage", dmgB)], [("Damage", [dmgB])], []⟩,
            ⟨none, ⟨2, [], [], []⟩⟩⟩, []) := by
  refine ⟨⟨some dmgA, rfl⟩, rfl, ?_, ?_, by decide, by decide, rfl⟩
  · intro h
    exact absurd (h.2.1 "Damage") (by decide)
  · exact ⟨fun id => rfl, fun id => rfl, fun t => Iff.rfl⟩

/-- Witness for C2: removing the tag "Boss" from a one-tag entity is a
single-field removal; the amended theorem applies with the shadow equal to
the pre-removal state. -/
theorem c2_amended_removal_shadow_witness :
    ∃ helper', updateHelperM 5 ⟨0, [], [], []⟩ ⟨1, [], [], []⟩ (.tag (.str "Boss")) none =
        .ok helper' ∧
      (hasKeyM ⟨1, [], [], []⟩ (keyOf (.tag (.str "Boss"))) = false →
        entEq helper' ⟨1, [], [], [Tag.str "Boss"]⟩) ∧
      (hasKeyM ⟨1, [], [], []⟩ (keyOf (.tag (.str "Boss"))) = true →
        entEq helper' ⟨1, [], [], []⟩) ∧
      (∀ q' evs, entityComponentRemovedM 5 ⟨fun e => hasTagM e (.str "Boss"), true, true⟩
          ⟨[1], ⟨0, [], [], []⟩, ⟨none, ⟨2, [], [], []⟩⟩⟩
          ⟨1, [], [], []⟩ (.tag (.str "Boss")) none = .ok (q', evs) →
        ((queryHasM ⟨[1], ⟨0, [], [], []⟩, ⟨none, ⟨2, [], [], []⟩⟩⟩ 1 = true ∧
            hasTagM helper' (.str "Boss") = true ∧
            hasTagM ⟨1, [], [], []⟩ (.str "Boss") = false) →
          queryHasM q' 1 = false ∧ ∃ sn, evs = [QEv.qRemoved sn]) ∧
        ((queryHasM ⟨[1], ⟨0, [], [], []⟩, ⟨none, ⟨2, [], [], []⟩⟩⟩ 1 = false ∧
            hasTagM ⟨1, [], [], []⟩ (.str "Boss") = true ∧
            hasTagM helper' (.str "Boss") = false) →
          queryHasM q' 1 = true ∧ ∃ sn, evs = [QEv.qAdded sn]) ∧
        (¬ (queryHasM ⟨[1], ⟨0, [], [], []⟩, ⟨none, ⟨2, [], [], []⟩⟩⟩ 1 = true ∧
            hasTagM helper' (.str "Boss") = true ∧
            hasTagM ⟨1, [], [], []⟩ (.str "Boss") = false) →
         ¬ (queryHasM ⟨[1], ⟨0, [], [], []⟩, ⟨none, ⟨2, [], [], []⟩⟩⟩ 1 = false ∧
            hasTagM ⟨1, [], [], []⟩ (.str "Boss") = true ∧
            hasTagM helper' (.str "Boss") = false) →
          q'.entities = [1] ∧ evs = [])) :=
  c2_amended_removal_shadow 5 5 ⟨fun e => hasTagM e (.str "Boss"), true, true⟩
    ⟨[1], ⟨0, [], [], []⟩, ⟨none, ⟨2, [], [], []⟩⟩⟩
    ⟨1, [], [], [Tag.str "Boss"]⟩ ⟨1, [], [], []⟩ (.tag (.str "Boss"))
    ⟨by decide, by decide, by decide,
      fun id c h => by simp [alookup] at h,
      fun id l h => by simp [alookup] at h,
      fun id l h => by simp [alookup] at h,
      fun id l c h hm => by simp [alookup] at h,
      fun id l h => by simp [alookup] at h,
      fun id c h hl => by simp [alookup] at h,
      fun id c h hl => by simp [alookup] at h⟩
    (by simp only [SingleRemoval]; decide) rfl rfl (by decide)

/-! ## C1 — the membership invariant under engine processing

The events a mutation dispatches carry the entity state at dispatch time.
`TraceOK` below characterizes the traces the entity operations actually
produce: each added event is dispatched from a state that holds the added
item, and each removed event is dispatched from the post-removal state,
whose key set differs from the pre-event state only as described.  For
predicates that depend only on key presence, processing such a trace leaves
the query membership equal to the predicate on the final state. -/

/-- Key presence in `s` with the changed item `x` re-applied (the key set of
the shadow helper built for a removal whose slot is fully gone). -/
def hasKeyAdded (s : Ent) (x : COT) (k : Key) : Bool :=
  match x, k with
  | .tag t, .tag t2 => decide (t2 = t) || hasTagM s t2
  | .tag _, .cls d => hasComponentM s d
  | .comp _, .tag t2 => hasTagM s t2
  | .comp c, .cls d => decide (d.name = c.cls.name) || hasComponentM s d

/-- The dispatch state of an added event holds the added item: the tag is a
member, a non-linked component is the stored instance itself, a linked
component's class is visible. -/
def AddedOK (s : Ent) : COT → Prop
  | .tag t => t ∈ s.tags
  | .comp c =>
    (c.linked = true ∧ (alookup s.components c.cls.name).isSome = true) ∨
    (c.linked = false ∧ alookup s.components c.cls.name = some c)

/-- The dispatch state `s` of a removed event relates to the pre-event state
`p`: either the slot is fully gone and `p`'s key set is `s`'s with the item
re-applied, or (a partial linked removal) the slot survives and the key sets
agree. -/
def RemovedOK (p s : Ent) (x : COT) : Prop :=
  (hasKeyM s (keyOf x) = false ∧ ∀ k, hasKeyM p k = hasKeyAdded s x k) ∨
  (∃ c, x = .comp c ∧ c.linked = true ∧
    (alookup s.components c.cls.name).isSome = true ∧
    ∀ k, hasKeyM p k = hasKeyM s k)

/-- A dispatch trace as the entity operations produce them: states chain
from `e₀` to `e'`, keep the id, stay well-formed, and each event is
coherent with its dispatch state. -/
inductive TraceOK : Ent → List TrEv → Ent → Prop where
  | nil (e : Ent) : TraceOK e [] e
  | added (e₀ s e' : Ent) (x : COT) (tr : List TrEv) :
      s.eid = e₀.eid → WFE s → AddedOK s x → TraceOK s tr e' →
      TraceOK e₀ ((s, .added x) :: tr) e'
  | removed (e₀ s e' : Ent) (x : COT) (tr : List TrEv) :
      s.eid = e₀.eid → WFE s → RemovedOK e₀ s x → TraceOK s tr e' →
      TraceOK e₀ ((s, .removed x) :: tr) e'

/-- Structural post-conditions of the removal commands, used to chain the
drain loop and `addComponent`'s remove-then-add path. -/
def RemPost : RemCmd → Ent → Ent → Prop
  | .removeComponent cls, _, e' =>
      alookup e'.components cls.name = none ∧ alookup e'.linked cls.name = none
  | .removeAllLoop cls, e, e' =>
      alookup e'.linked cls.name = none ∧
      ((alookup e.linked cls.name).isSome = true →
        alookup e'.components cls.name = none)
  | .withdraw _, _, _ => True
  | .withdrawComponent _ _, _, _ => True

theorem wfe_no_slot_no_list (s : Ent) (hwf : WFE s) (id : CompId)
    (h : alookup s.components id = none) : alookup s.linked id = none := by
  cases hl : alookup s.linked id with
  | none => rfl
  | some l =>
    have hh := hwf.linkHead _ _ hl
    have hne := hwf.linkNonempty _ _ hl
    rw [h] at hh
    cases l with
    | nil => exact absurd rfl hne
    | cons a t => simp at hh

theorem alookup_aerase_sub {α : Type} (m : List (CompId × α)) (id id' : CompId)
    (v : α) (hnd : (m.map Prod.fst).Nodup)
    (h : alookup (aerase m id) id' = some v) : alookup m id' = some v := by
  by_cases hid : id' = id
  · subst hid
    rw [alookup_aerase_self _ _ hnd] at h
    cases h
  · rw [alookup_aerase_ne _ _ _ hid] at h
    exact h

theorem eraseFirst_of_not_mem {α : Type} [DecidableEq α] (l : List α) (a : α)
    (h : a ∉ l) : eraseFirst l a = l := by
  induction l with
  | nil => rfl
  | cons x xs ih =>
    simp only [List.mem_cons, not_or] at h
    rw [eraseFirst, if_neg (Ne.symm h.1), ih h.2]

theorem aset_eq_of_lookup {α : Type} (m : List (CompId × α)) (id : CompId) (v : α)
    (h : alookup m id = some v) : aset m id v = m := by
  induction m with
  | nil => simp [alookup] at h
  | cons kv rest ih =>
    obtain ⟨k, w⟩ := kv
    by_cases hk : k = id
    · subst hk
      simp [alookup] at h
      rw [aset, if_pos rfl, h]
    · simp only [alookup, if_neg hk] at h
      rw [aset, if_neg hk, ih h]

theorem TraceOK_append (a : Ent) (tr₁ : List TrEv) (b : Ent)
    (h₁ : TraceOK a tr₁ b) :
    ∀ tr₂ c, TraceOK b tr₂ c → TraceOK a (tr₁ ++ tr₂) c := by
  induction h₁ with
  | nil e => intro tr₂ c h₂; simpa using h₂
  | added e₀ s e' x tr heid hwf hok _ ih =>
    intro tr₂ c h₂
    exact TraceOK.added e₀ s c x (tr ++ tr₂) heid hwf hok (ih tr₂ c h₂)
  | removed e₀ s e' x tr heid hwf hok _ ih =>
    intro tr₂ c h₂
    exact TraceOK.removed e₀ s c x (tr ++ tr₂) heid hwf hok (ih tr₂ c h₂)

theorem TraceOK_eid (a : Ent) (tr : List TrEv) (b : Ent)
    (h : TraceOK a tr b) : b.eid = a.eid := by
  induction h with
  | nil e => rfl
  | added e₀ s e' x tr heid _ _ _ ih => rw [ih, heid]
  | removed e₀ s e' x tr heid _ _ _ ih => rw [ih, heid]

/-- Rebuilding the helper for an item the dispatch state holds copies the
state verbatim. -/
theorem updateHelper_of_added (fuel : Nat) (h s : Ent) (x : COT)
    (hok : AddedOK s x) :
    updateHelperM fuel h s x none = .ok ⟨h.eid, s.components, s.linked, s.tags⟩ := by
  cases x with
  | tag t =>
    rw [updateHelper_tag]
    simp only [AddedOK] at hok
    simp [hok]
  | comp c =>
    simp only [AddedOK] at hok
    rcases hok with ⟨hl, hst⟩ | ⟨hl, hst⟩
    · exact updateHelper_comp_linked_present fuel h s c hl hst
    · exact updateHelper_comp_nonlinked_stored fuel h s c none hl hst

/-- Rebuilding the helper for an item whose slot is fully gone yields a
state whose key set is the dispatch state's with the item re-applied. -/
theorem updateHelper_of_removed_full (fuel : Nat) (h s : Ent) (x : COT)
    (hwfs : WFE s) (hk : hasKeyM s (keyOf x) = false) :
    ∃ H, updateHelperM fuel h s x none = .ok H ∧
      ∀ k, hasKeyM H k = hasKeyAdded s x k := by
  cases x with
  | tag t =>
    simp only [keyOf, hasKeyM, hasTagM, decide_eq_false_iff_not] at hk
    refine ⟨⟨h.eid, s.components, s.linked, s.tags ++ [t]⟩, ?_, ?_⟩
    · rw [updateHelper_tag]
      simp [hk]
    · intro k
      cases k with
      | tag t2 =>
        simp only [hasKeyM, hasTagM, hasKeyAdded, List.mem_append,
          List.mem_singleton]
        rw [Bool.or_comm]
        rw [show (decide (t2 ∈ s.tags ∨ t2 = t) : Bool) =
          (decide (t2 ∈ s.tags) || decide (t2 = t)) from by
            by_cases h1 : t2 ∈ s.tags <;> by_cases h2 : t2 = t <;> simp [h1, h2]]
      | cls d => rfl
  | comp c =>
    simp only [keyOf, hasKeyM, hasComponentM, getComponentIdM] at hk
    have hk : alookup s.components c.cls.name = none := by
      cases hx : alookup s.components c.cls.name with
      | none => rfl
      | some v => rw [hx] at hk; cases hk
    cases hcl : c.linked with
    | true =>
      have hll : alookup s.linked c.cls.name = none :=
        wfe_no_slot_no_list s hwfs _ hk
      refine ⟨⟨h.eid, aset s.components c.cls.name c,
        aset s.linked c.cls.name [c], s.tags⟩,
        updateHelper_comp_linked_absent fuel h s c hcl hk hll, ?_⟩
      intro k
      cases k with
      | tag t2 => rfl
      | cls d =>
        simp only [hasKeyM, hasComponentM, getComponentIdM, hasKeyAdded]
        by_cases hd : d.name = c.cls.name
        · rw [hd, alookup_aset_self]
          simp
        · rw [alookup_aset_ne _ _ _ _ hd]
          simp [hd]
    | false =>
      refine ⟨⟨h.eid, aset s.components c.cls.name c, s.linked, s.tags⟩,
        updateHelper_comp_nonlinked_absent fuel h s c none hcl hk, ?_⟩
      intro k
      cases k with
      | tag t2 => rfl
      | cls d =>
        simp only [hasKeyM, hasComponentM, getComponentIdM, hasKeyAdded]
        by_cases hd : d.name = c.cls.name
        · rw [hd, alookup_aset_self]
          simp
        · rw [alookup_aset_ne _ _ _ _ hd]
          simp [hd]

/-- Processing a coherent dispatch trace keeps the query in sync: if the
predicate depends only on key presence and membership equals the predicate
on the initial state, then after routing the whole trace membership equals
the predicate on the final state. -/
theorem processTrace_sync (fuel : Nat) (cfg : QCfg)
    (hpres : ∀ a b : Ent, (∀ k, hasKeyM a k = hasKeyM b k) →
      cfg.pred a = cfg.pred b)
    (e₀ : Ent) (tr : List TrEv) (e' : Ent) (hT : TraceOK e₀ tr e') :
    ∀ q, q.entities.Nodup → queryHasM q e₀.eid = cfg.pred e₀ →
    ∀ q' evs, processTraceM fuel cfg q tr = .ok (q', evs) →
      q'.entities.Nodup ∧ queryHasM q' e₀.eid = cfg.pred e' := by
  induction hT with
  | nil e =>
    intro q hnd hsync q' evs hrun
    simp only [processTraceM, Except.ok.injEq, Prod.mk.injEq] at hrun
    obtain ⟨h1, -⟩ := hrun
    subst h1
    exact ⟨hnd, hsync⟩
  | added e₀ s e'' x tr heid hwfs hok _ ih =>
    intro q hnd hsync q' evs hrun
    have hhelp := updateHelper_of_added fuel q.helper s x hok
    cases hstep : entityComponentAddedM fuel cfg q s x none with
    | error er => simp [processTraceM, hstep] at hrun
    | ok res =>
      obtain ⟨q₁, evs₁⟩ := res
      have hm := eca_membership fuel cfg q s x _ hhelp hnd q₁ evs₁ hstep
      have hpredH :
          cfg.pred (⟨q.helper.eid, s.components, s.linked, s.tags⟩ : Ent) =
            cfg.pred s :=
        hpres _ _ (fun k => by cases k <;> rfl)
      have hsync₁ : queryHasM q₁ s.eid = cfg.pred s := by
        rw [hm.1, hpredH]
      simp only [processTraceM, hstep] at hrun
      cases hrest : processTraceM fuel cfg q₁ tr with
      | error er => simp only [hrest] at hrun; cases hrun
      | ok res₂ =>
        obtain ⟨q₂, evs₂⟩ := res₂
        simp only [hrest, Except.ok.injEq, Prod.mk.injEq] at hrun
        obtain ⟨h1, -⟩ := hrun
        subst h1
        have hrec := ih q₁ hm.2 hsync₁ q₂ evs₂ hrest
        refine ⟨hrec.1, ?_⟩
        rw [← heid]
        exact hrec.2
  | removed e₀ s e'' x tr heid hwfs hok _ ih =>
    intro q hnd hsync q' evs hrun
    have hqs : queryHasM q s.eid = cfg.pred e₀ := by rw [heid]; exact hsync
    rcases hok with ⟨hkf, hkeys⟩ | ⟨c, rfl, hcl, hst, hkeys⟩
    · obtain ⟨H, hhelp, hHkeys⟩ :=
        updateHelper_of_removed_full fuel q.helper s x hwfs hkf
      have hpredH : cfg.pred H = cfg.pred e₀ :=
        hpres _ _ (fun k => by rw [hHkeys k, ← hkeys k])
      cases hstep : entityComponentRemovedM fuel cfg q s x none with
      | error er => simp [processTraceM, hstep] at hrun
      | ok res =>
        obtain ⟨q₁, evs₁⟩ := res
        have hm := ecr_membership fuel cfg q s x H hhelp hnd q₁ evs₁ hstep
        have hsync₁ : queryHasM q₁ s.eid = cfg.pred s := by
          rw [hm.1, hpredH, hqs]
          cases hpe : cfg.pred e₀ <;> cases hps : cfg.pred s <;> simp
        simp only [processTraceM, hstep] at hrun
        cases hrest : processTraceM fuel cfg q₁ tr with
        | error er => simp only [hrest] at hrun; cases hrun
        | ok res₂ =>
          obtain ⟨q₂, evs₂⟩ := res₂
          simp only [hrest, Except.ok.injEq, Prod.mk.injEq] at hrun
          obtain ⟨h1, -⟩ := hrun
          subst h1
          have hrec := ih q₁ hm.2 hsync₁ q₂ evs₂ hrest
          refine ⟨hrec.1, ?_⟩
          rw [← heid]
          exact hrec.2
    · have hhelp := updateHelper_of_added fuel q.helper s (.comp c)
        (Or.inl ⟨hcl, hst⟩)
      have hpredH :
          cfg.pred (⟨q.helper.eid, s.components, s.linked, s.tags⟩ : Ent) =
            cfg.pred s :=
        hpres _ _ (fun k => by cases k <;> rfl)
      have hpe₀ : cfg.pred e₀ = cfg.pred s := hpres _ _ hkeys
      cases hstep : entityComponentRemovedM fuel cfg q s (.comp c) none with
      | error er => simp [processTraceM, hstep] at hrun
      | ok res =>
        obtain ⟨q₁, evs₁⟩ := res
        have hm := ecr_membership fuel cfg q s (.comp c) _ hhelp hnd q₁ evs₁ hstep
        have hsync₁ : queryHasM q₁ s.eid = cfg.pred s := by
          rw [hm.1, hpredH, hqs, hpe₀]
          cases hps : cfg.pred s <;> simp
        simp only [processTraceM, hstep] at hrun
        cases hrest : processTraceM fuel cfg q₁ tr with
        | error er => simp only [hrest] at hrun; cases hrun
        | ok res₂ =>
          obtain ⟨q₂, evs₂⟩ := res₂
          simp only [hrest, Except.ok.injEq, Prod.mk.injEq] at hrun
          obtain ⟨h1, -⟩ := hrun
          subst h1
          have hrec := ih q₁ hm.2 hsync₁ q₂ evs₂ hrest
          refine ⟨hrec.1, ?_⟩
          rw [← heid]
          exact hrec.2

/-- Linkedness is a property of the component class in the source
(`instanceof LinkedComponent`); since ids are keyed by class name, we record
the classification `lk` of each name and require the visible instances to
respect it. -/
def LkOK (lk : CompId → Bool) (e : Ent) : Prop :=
  ∀ id v, alookup e.components id = some v → v.linked = lk id

/-- Deleting a slot and its list preserves well-formedness. -/
theorem wfe_erase_both (e : Ent) (hwf : WFE e) (id : CompId) :
    WFE ⟨e.eid, aerase e.components id, aerase e.linked id, e.tags⟩ := by
  refine ⟨nodup_keys_aerase _ _ hwf.compKeys, nodup_keys_aerase _ _ hwf.linkKeys,
    hwf.tagsNodup, ?_, ?_, ?_, ?_, ?_, ?_, ?_⟩
  · intro id' c h
    exact hwf.compKeyName id' c (alookup_aerase_sub _ _ _ _ hwf.compKeys h)
  · intro id' l h
    exact hwf.linkNonempty id' l (alookup_aerase_sub _ _ _ _ hwf.linkKeys h)
  · intro id' l h
    by_cases hid : id' = id
    · subst hid
      rw [alookup_aerase_self _ _ hwf.linkKeys] at h
      cases h
    · rw [alookup_aerase_ne _ _ _ hid] at h
      show alookup (aerase e.components id) id' = l.head?
      rw [alookup_aerase_ne _ _ _ hid]
      exact hwf.linkHead id' l h
  · intro id' l c h hc
    exact hwf.linkMem id' l c (alookup_aerase_sub _ _ _ _ hwf.linkKeys h) hc
  · intro id' l h
    exact hwf.linkNodup id' l (alookup_aerase_sub _ _ _ _ hwf.linkKeys h)
  · intro id' c h hcl
    by_cases hid : id' = id
    · subst hid
      rw [alookup_aerase_self _ _ hwf.compKeys] at h
      cases h
    · rw [alookup_aerase_ne _ _ _ hid] at h
      show alookup (aerase e.linked id) id' = none
      rw [alookup_aerase_ne _ _ _ hid]
      exact hwf.storedNonLinked id' c h hcl
  · intro id' c h hcl
    by_cases hid : id' = id
    · subst hid
      rw [alookup_aerase_self _ _ hwf.compKeys] at h
      cases h
    · rw [alookup_aerase_ne _ _ _ hid] at h
      show (alookup (aerase e.linked id) id').isSome = true
      rw [alookup_aerase_ne _ _ _ hid]
      exact hwf.linkStored id' c h hcl

theorem lk_erase (lk : CompId → Bool) (e : Ent) (hlk : LkOK lk e) (id : CompId)
    (hnd : (e.components.map Prod.fst).Nodup) (lnk : List (CompId × List CInst)) :
    LkOK lk ⟨e.eid, aerase e.components id, lnk, e.tags⟩ := by
  intro id' v h
  exact hlk id' v (alookup_aerase_sub _ _ _ _ hnd h)

/-- Re-pointing a slot at the new head of a shortened (still non-empty)
list preserves well-formedness. -/
theorem wfe_repoint (e : Ent) (hwf : WFE e) (nm : CompId) (l : List CInst)
    (h2 : CInst) (t2 : List CInst)
    (hl : alookup e.linked nm = some l)
    (hmem : ∀ x ∈ h2 :: t2, x ∈ l) (hnd2 : (h2 :: t2).Nodup) :
    WFE ⟨e.eid, aset e.components nm h2, aset e.linked nm (h2 :: t2), e.tags⟩ := by
  have hh2 := hwf.linkMem nm l h2 hl (hmem h2 (List.mem_cons_self _ _))
  refine ⟨nodup_keys_aset _ _ _ hwf.compKeys, nodup_keys_aset _ _ _ hwf.linkKeys,
    hwf.tagsNodup, ?_, ?_, ?_, ?_, ?_, ?_, ?_⟩
  · intro id' c h
    by_cases hid : id' = nm
    · subst hid
      rw [alookup_aset_self] at h
      obtain rfl : h2 = c := by simpa using h
      exact hh2.2
    · rw [alookup_aset_ne _ _ _ _ hid] at h
      exact hwf.compKeyName id' c h
  · intro id' l' h
    by_cases hid : id' = nm
    · subst hid
      rw [alookup_aset_self] at h
      obtain rfl : h2 :: t2 = l' := by simpa using h
      simp
    · rw [alookup_aset_ne _ _ _ _ hid] at h
      exact hwf.linkNonempty id' l' h
  · intro id' l' h
    by_cases hid : id' = nm
    · subst hid
      rw [alookup_aset_self] at h
      obtain rfl : h2 :: t2 = l' := by simpa using h
      show alookup (aset e.components id' h2) id' = (h2 :: t2).head?
      rw [alookup_aset_self]
      rfl
    · rw [alookup_aset_ne _ _ _ _ hid] at h
      show alookup (aset e.components nm h2) id' = l'.head?
      rw [alookup_aset_ne _ _ _ _ hid]
      exact hwf.linkHead id' l' h
  · intro id' l' c h hc
    by_cases hid : id' = nm
    · subst hid
      rw [alookup_aset_self] at h
      obtain rfl : h2 :: t2 = l' := by simpa using h
      exact hwf.linkMem id' l c hl (hmem c hc)
    · rw [alookup_aset_ne _ _ _ _ hid] at h
      exact hwf.linkMem id' l' c h hc
  · intro id' l' h
    by_cases hid : id' = nm
    · subst hid
      rw [alookup_aset_self] at h
      obtain rfl : h2 :: t2 = l' := by simpa using h
      exact hnd2
    · rw [alookup_aset_ne _ _ _ _ hid] at h
      exact hwf.linkNodup id' l' h
  · intro id' c h hcl
    by_cases hid : id' = nm
    · subst hid
      rw [alookup_aset_self] at h
      obtain rfl : h2 = c := by simpa using h
      rw [hh2.1] at hcl
      cases hcl
    · rw [alookup_aset_ne _ _ _ _ hid] at h
      show alookup (aset e.linked nm (h2 :: t2)) id' = none
      rw [alookup_aset_ne _ _ _ _ hid]
      exact hwf.storedNonLinked id' c h hcl
  · intro id' c h hcl
    by_cases hid : id' = nm
    · subst hid
      show (alookup (aset e.linked id' (h2 :: t2)) id').isSome = true
      rw [alookup_aset_self]
      rfl
    · rw [alookup_aset_ne _ _ _ _ hid] at h
      show (alookup (aset e.linked nm (h2 :: t2)) id').isSome = true
      rw [alookup_aset_ne _ _ _ _ hid]
      exact hwf.linkStored id' c h hcl

theorem lk_repoint (lk : CompId → Bool) (e : Ent) (hlk : LkOK lk e)
    (nm : CompId) (h2 : CInst) (hh2 : h2.linked = true)
    (hprev : ∃ v, alookup e.components nm = some v ∧ v.linked = true)
    (lnk : List (CompId × List CInst)) :
    LkOK lk ⟨e.eid, aset e.components nm h2, lnk, e.tags⟩ := by
  intro id' v h
  by_cases hid : id' = nm
  · subst hid
    rw [alookup_aset_self] at h
    obtain rfl : h2 = v := by simpa using h
    obtain ⟨w, hw, hwl⟩ := hprev
    rw [hh2, ← hlk id' w hw, hwl]
  · rw [alookup_aset_ne _ _ _ _ hid] at h
    exact hlk id' v h

/-- `addTag` preserves well-formedness and produces a coherent trace. -/
theorem addTag_trace (e : Ent) (t : Tag) (hwf : WFE e) :
    WFE (addTagM e t).1 ∧ (addTagM e t).1.eid = e.eid ∧
      (addTagM e t).1.components = e.components ∧
      TraceOK e (addTagM e t).2 (addTagM e t).1 := by
  by_cases ht : t ∈ e.tags
  · rw [addTagM, if_pos ht]
    exact ⟨hwf, rfl, rfl, TraceOK.nil e⟩
  · rw [addTagM, if_neg ht]
    have hwf' : WFE { e with tags := e.tags ++ [t] } := by
      refine ⟨hwf.compKeys, hwf.linkKeys, ?_, hwf.compKeyName, hwf.linkNonempty,
        hwf.linkHead, hwf.linkMem, hwf.linkNodup, hwf.storedNonLinked,
        hwf.linkStored⟩
      simpa using List.Nodup.append hwf.tagsNodup (by simp) (by simpa using ht)
    refine ⟨hwf', rfl, rfl, ?_⟩
    refine TraceOK.added e _ _ (.tag t) [] rfl hwf' ?_ (TraceOK.nil _)
    simp [AddedOK]

/-- `removeTag` preserves well-formedness and produces a coherent trace. -/
theorem removeTag_trace (e : Ent) (t : Tag) (hwf : WFE e) :
    WFE (removeTagM e t).1 ∧ (removeTagM e t).1.eid = e.eid ∧
      (removeTagM e t).1.components = e.components ∧
      TraceOK e (removeTagM e t).2 (removeTagM e t).1 := by
  by_cases ht : t ∈ e.tags
  · rw [removeTagM, if_pos ht]
    have hwf' : WFE { e with tags := e.tags.filter (fun x => decide (x ≠ t)) } := by
      refine ⟨hwf.compKeys, hwf.linkKeys, ?_, hwf.compKeyName, hwf.linkNonempty,
        hwf.linkHead, hwf.linkMem, hwf.linkNodup, hwf.storedNonLinked,
        hwf.linkStored⟩
      exact (List.filter_sublist _).nodup hwf.tagsNodup
    refine ⟨hwf', rfl, rfl, ?_⟩
    refine TraceOK.removed e _ _ (.tag t) [] rfl hwf' ?_ (TraceOK.nil _)
    left
    constructor
    · simp [keyOf, hasKeyM, hasTagM]
    · intro k
      cases k with
      | cls d => rfl
      | tag t2 =>
        simp only [hasKeyM, hasTagM, hasKeyAdded]
        by_cases h2 : t2 = t
        · subst h2
          simp [ht]
        · have hmf : (t2 ∈ e.tags.filter (fun x => decide (x ≠ t))) ↔
              t2 ∈ e.tags := by
            simp [List.mem_filter, h2]
          simp [h2, hmf]
  · rw [removeTagM, if_neg ht]
    exact ⟨hwf, rfl, rfl, TraceOK.nil e⟩

/-- Deleting a slot whose class has no linked list preserves
well-formedness. -/
theorem wfe_erase_slot (e : Ent) (hwf : WFE e) (nm : CompId)
    (hln : alookup e.linked nm = none) :
    WFE ⟨e.eid, aerase e.components nm, e.linked, e.tags⟩ := by
  refine ⟨nodup_keys_aerase _ _ hwf.compKeys, hwf.linkKeys, hwf.tagsNodup,
    ?_, hwf.linkNonempty, ?_, hwf.linkMem, hwf.linkNodup, ?_, ?_⟩
  · intro id' c h
    exact hwf.compKeyName id' c (alookup_aerase_sub _ _ _ _ hwf.compKeys h)
  · intro id' l h
    by_cases hid : id' = nm
    · subst hid
      rw [hln] at h
      cases h
    · show alookup (aerase e.components nm) id' = l.head?
      rw [alookup_aerase_ne _ _ _ hid]
      exact hwf.linkHead id' l h
  · intro id' c h hcl
    exact hwf.storedNonLinked id' c (alookup_aerase_sub _ _ _ _ hwf.compKeys h) hcl
  · intro id' c h hcl
    exact hwf.linkStored id' c (alookup_aerase_sub _ _ _ _ hwf.compKeys h) hcl

/-- The removed-event coherence for a full removal that erased the slot. -/
theorem removedOK_full_erase (e E : Ent) (x : CInst) (nm : CompId)
    (hEc : E.components = aerase e.components nm)
    (hEt : E.tags = e.tags)
    (hnm : x.cls.name = nm)
    (hnd : (e.components.map Prod.fst).Nodup)
    (hslot : (alookup e.components nm).isSome = true) :
    RemovedOK e E (.comp x) := by
  left
  constructor
  · show hasComponentM E x.cls = false
    simp [hasComponentM, getComponentIdM, hEc, hnm, alookup_aerase_self _ _ hnd]
  · intro k
    cases k with
    | tag t => simp [hasKeyM, hasKeyAdded, hasTagM, hEt]
    | cls d =>
      show hasComponentM e d = (decide (d.name = x.cls.name) || hasComponentM E d)
      simp only [hasComponentM, getComponentIdM, hEc, hnm]
      by_cases hd : d.name = nm
      · rw [hd, alookup_aerase_self _ _ hnd]
        simp [hslot]
      · rw [alookup_aerase_ne _ _ _ hd]
        simp [hd]

/-- The removed-event coherence for a partial linked removal that re-pointed
the slot. -/
theorem removedOK_partial_aset (e E : Ent) (c : CInst) (nm : CompId) (h2 : CInst)
    (hEc : E.components = aset e.components nm h2)
    (hEt : E.tags = e.tags)
    (hnm : c.cls.name = nm)
    (hcl : c.linked = true)
    (hslot : (alookup e.components nm).isSome = true) :
    RemovedOK e E (.comp c) := by
  right
  refine ⟨c, rfl, hcl, ?_, ?_⟩
  · show (alookup E.components c.cls.name).isSome = true
    rw [hEc, hnm, alookup_aset_self]
    rfl
  · intro k
    cases k with
    | tag t => simp [hasKeyM, hasTagM, hEt]
    | cls d =>
      show hasComponentM e d = hasComponentM E d
      simp only [hasComponentM, getComponentIdM, hEc]
      by_cases hd : d.name = nm
      · rw [hd, alookup_aset_self]
        simp [hslot]
      · rw [alookup_aset_ne _ _ _ _ hd]

/-- A one-event removal trace. -/
theorem traceOK_single_removed (e E : Ent) (x : COT) (heid : E.eid = e.eid)
    (hwfE : WFE E) (hrok : RemovedOK e E x) :
    TraceOK e [(E, .removed x)] E :=
  TraceOK.removed e E E x [] heid hwfE hrok (TraceOK.nil E)

/-- Every successful removal command preserves well-formedness and
linkedness-classification, keeps the entity id, dispatches a coherent trace,
and satisfies the structural post-conditions. -/
theorem runRem_trace (lk : CompId → Bool) :
    ∀ (fuel : Nat) (e : Ent) (cmd : RemCmd) (e' : Ent) (tr : List TrEv)
      (res : Option CInst),
      WFE e → LkOK lk e →
      runRem fuel e cmd = .ok (e', tr, res) →
      WFE e' ∧ LkOK lk e' ∧ e'.eid = e.eid ∧ TraceOK e tr e' ∧
        RemPost cmd e e' := by
  intro fuel
  induction fuel with
  | zero =>
    intro e cmd e' tr res _ _ h
    simp [runRem] at h
  | succ f ih =>
    intro e cmd e' tr res hwf hlk hrun
    cases cmd with
    | removeComponent cls =>
      cases hslot : alookup e.components (getComponentIdM cls) with
      | none =>
        simp only [runRem, hslot, Except.ok.injEq, Prod.mk.injEq] at hrun
        obtain ⟨he, htr, -⟩ := hrun
        subst he
        subst htr
        refine ⟨hwf, hlk, rfl, TraceOK.nil e, hslot, ?_⟩
        exact wfe_no_slot_no_list e hwf _ hslot
      | some value =>
        by_cases hvl : isLinkedComponentM value = true
        · have hvl' : value.linked = true := by
            simpa [isLinkedComponentM] using hvl
          have hlsome := hwf.linkStored _ _ hslot hvl'
          cases hlist : alookup e.linked (getComponentIdM cls) with
          | none => rw [hlist] at hlsome; cases hlsome
          | some list =>
            have hred : runRem (f + 1) e (.removeComponent cls) =
                match runRem f e (.removeAllLoop cls) with
                | .error er => .error er
                | .ok (e₂, tr₂, _) => .ok (e₂, tr₂, some value) := by
              simp [runRem, hslot, hvl, getLinkedListM, hlist]
            rw [hred] at hrun
            cases hloop : runRem f e (.removeAllLoop cls) with
            | error er =>
              rw [hloop] at hrun
              exact Except.noConfusion hrun
            | ok trip =>
              obtain ⟨e₂, tr₂, r₂⟩ := trip
              rw [hloop] at hrun
              simp only [Except.ok.injEq, Prod.mk.injEq] at hrun
              obtain ⟨he, htr, -⟩ := hrun
              subst he
              subst htr
              obtain ⟨hwf₂, hlk₂, heid₂, htrace₂, hpost₂⟩ :=
                ih e (.removeAllLoop cls) e₂ tr₂ r₂ hwf hlk hloop
              refine ⟨hwf₂, hlk₂, heid₂, htrace₂, ?_, hpost₂.1⟩
              exact hpost₂.2 (by rw [show alookup e.linked cls.name =
                some list from hlist]; rfl)
        · have hvl' : value.linked = false := by
            simpa [isLinkedComponentM] using hvl
          have hln := hwf.storedNonLinked _ _ hslot hvl'
          have hred : runRem (f + 1) e (.removeComponent cls) =
              .ok (⟨e.eid, aerase e.components (getComponentIdM cls), e.linked, e.tags⟩,
                [(⟨e.eid, aerase e.components (getComponentIdM cls), e.linked, e.tags⟩,
                  .removed (.comp value))], some value) := by
            simp [runRem, hslot, hvl]
          rw [hred] at hrun
          simp only [Except.ok.injEq, Prod.mk.injEq] at hrun
          obtain ⟨he, htr, -⟩ := hrun
          subst he
          subst htr
          have hwfE := wfe_erase_slot e hwf (getComponentIdM cls) hln
          have hnm : value.cls.name = getComponentIdM cls :=
            hwf.compKeyName _ _ hslot
          refine ⟨hwfE, ?_, rfl, ?_, ?_, hln⟩
          · intro id' v h
            exact hlk id' v (alookup_aerase_sub _ _ _ _ hwf.compKeys h)
          · refine traceOK_single_removed e _ (.comp value) rfl hwfE ?_
            exact removedOK_full_erase e _ value (getComponentIdM cls) rfl rfl hnm
              hwf.compKeys (by rw [hslot]; rfl)
          · exact alookup_aerase_self _ _ hwf.compKeys
    | removeAllLoop cls =>
      cases hlist : alookup e.linked (getComponentIdM cls) with
      | none =>
        simp only [runRem, hlist, Except.ok.injEq, Prod.mk.injEq] at hrun
        obtain ⟨he, htr, -⟩ := hrun
        subst he
        subst htr
        refine ⟨hwf, hlk, rfl, TraceOK.nil e, hlist, ?_⟩
        intro hp
        rw [show alookup e.linked cls.name = none from hlist] at hp
        cases hp
      | some list =>
        cases list with
        | nil => exact absurd rfl (hwf.linkNonempty _ _ hlist)
        | cons h1 t1 =>
          have hhd := hwf.linkHead _ _ hlist
          have hh1 := hwf.linkMem _ _ h1 hlist (List.mem_cons_self _ _)
          have hslot : alookup e.components (getComponentIdM cls) = some h1 := by
            rw [hhd]
            rfl
          have hred : runRem (f + 1) e (.removeAllLoop cls) =
              match runRem f e (.withdraw cls) with
              | .error er => .error er
              | .ok (e₁, tr₁, r₁) =>
                match runRem f e₁ (.removeAllLoop cls) with
                | .error er => .error er
                | .ok (e₂, tr₂, _) => .ok (e₂, tr₁ ++ tr₂, r₁) := by
            simp [runRem, hlist]
          rw [hred] at hrun
          by_cases hcc : h1.cls = cls
          · cases f with
            | zero => simp [runRem] at hrun
            | succ g =>
            cases g with
            | zero => simp [runRem, getM, hslot] at hrun
            | succ g₂ =>
            cases t1 with
            | nil =>
              have hwd := withdraw_head_last g₂ e cls h1 hlist hslot hh1.1 hcc
              simp only [withdrawM] at hwd
              have hwd' : runRem (g₂ + 1 + 1) e (.withdraw cls) =
                  .ok ({ e with
                      components := aerase e.components (getComponentIdM cls),
                      linked := aerase e.linked (getComponentIdM cls) },
                    [({ e with
                        components := aerase e.components (getComponentIdM cls),
                        linked := aerase e.linked (getComponentIdM cls) },
                      .removed (.comp h1))], some h1) := hwd
              simp only [hwd'] at hrun
              have hloop2 : runRem (g₂ + 1 + 1)
                  { e with
                    components := aerase e.components (getComponentIdM cls),
                    linked := aerase e.linked (getComponentIdM cls) }
                  (.removeAllLoop cls) =
                  .ok ({ e with
                      components := aerase e.components (getComponentIdM cls),
                      linked := aerase e.linked (getComponentIdM cls) },
                    [], none) := by
                simp [runRem, alookup_aerase_self _ _ hwf.linkKeys]
              simp only [hloop2] at hrun
              simp only [List.append_nil, Except.ok.injEq, Prod.mk.injEq] at hrun
              obtain ⟨he, htr, -⟩ := hrun
              subst he
              subst htr
              have hwfE := wfe_erase_both e hwf (getComponentIdM cls)
              refine ⟨hwfE, ?_, rfl, ?_, ?_, ?_⟩
              · intro id' v h
                exact hlk id' v (alookup_aerase_sub _ _ _ _ hwf.compKeys h)
              · refine traceOK_single_removed e _ (.comp h1) rfl hwfE ?_
                exact removedOK_full_erase e _ h1 (getComponentIdM cls) rfl rfl
                  hh1.2 hwf.compKeys (by rw [hslot]; rfl)
              · exact alookup_aerase_self _ _ hwf.linkKeys
              · intro _
                exact alookup_aerase_self _ _ hwf.compKeys
            | cons h2 t2 =>
              have hwd := withdraw_head_cons g₂ e cls h1 h2 t2 hlist hslot hh1.1 hcc
              simp only [withdrawM] at hwd
              have hwd' : runRem (g₂ + 1 + 1) e (.withdraw cls) =
                  .ok ({ e with
                      components := aset e.components (getComponentIdM cls) h2,
                      linked := aset e.linked (getComponentIdM cls) (h2 :: t2) },
                    [({ e with
                        components := aset e.components (getComponentIdM cls) h2,
                        linked := aset e.linked (getComponentIdM cls) (h2 :: t2) },
                      .removed (.comp h1))], some h1) := hwd
              simp only [hwd'] at hrun
              cases hrec : runRem (g₂ + 1 + 1)
                  { e with
                    components := aset e.components (getComponentIdM cls) h2,
                    linked := aset e.linked (getComponentIdM cls) (h2 :: t2) }
                  (.removeAllLoop cls) with
              | error er =>
                simp only [hrec] at hrun
                exact Except.noConfusion hrun
              | ok trip =>
                obtain ⟨e₃, tr₃, r₃⟩ := trip
                simp only [hrec] at hrun
                simp only [List.cons_append, List.nil_append, Except.ok.injEq,
                  Prod.mk.injEq] at hrun
                obtain ⟨he, htr, -⟩ := hrun
                subst he
                subst htr
                have hnd2 : (h2 :: t2).Nodup :=
                  (List.nodup_cons.mp (hwf.linkNodup _ _ hlist)).2
                have hwfE₂ : WFE ⟨e.eid,
                    aset e.components (getComponentIdM cls) h2,
                    aset e.linked (getComponentIdM cls) (h2 :: t2), e.tags⟩ :=
                  wfe_repoint e hwf (getComponentIdM cls) (h1 :: h2 :: t2) h2 t2
                    hlist (fun x hx => List.mem_cons_of_mem _ hx) hnd2
                have hh2 := hwf.linkMem _ _ h2 hlist
                  (List.mem_cons_of_mem _ (List.mem_cons_self _ _))
                have hlkE₂ : LkOK lk ⟨e.eid,
                    aset e.components (getComponentIdM cls) h2,
                    aset e.linked (getComponentIdM cls) (h2 :: t2), e.tags⟩ :=
                  lk_repoint lk e hlk (getComponentIdM cls) h2 hh2.1
                    ⟨h1, hslot, hh1.1⟩ _
                obtain ⟨hwf₃, hlk₃, heid₃, htrace₃, hpost₃⟩ :=
                  ih _ (.removeAllLoop cls) e₃ tr₃ r₃ hwfE₂ hlkE₂ hrec
                refine ⟨hwf₃, hlk₃, by rw [heid₃], ?_, hpost₃.1, ?_⟩
                · refine TraceOK.removed e _ e₃ (.comp h1) tr₃ rfl hwfE₂ ?_ htrace₃
                  exact removedOK_partial_aset e _ h1 (getComponentIdM cls) h2
                    rfl rfl hh1.2 hh1.1 (by rw [hslot]; rfl)
                · intro _
                  refine hpost₃.2 ?_
                  rw [show alookup
                    (⟨e.eid, aset e.components (getComponentIdM cls) h2,
                      aset e.linked (getComponentIdM cls) (h2 :: t2), e.tags⟩ : Ent).linked
                    cls.name = some (h2 :: t2) from alookup_aset_self _ _ _]
                  rfl
          · cases f with
            | zero => simp [runRem] at hrun
            | succ g =>
              cases g with
              | zero => simp [runRem, getM, hslot] at hrun
              | succ g₂ =>
                simp [runRem, getM, hslot, getComponentClassM, hcc] at hrun
    | withdraw cls =>
      cases hg : getM e cls with
      | none =>
        simp only [runRem, hg, Except.ok.injEq, Prod.mk.injEq] at hrun
        obtain ⟨he, htr, -⟩ := hrun
        subst he
        subst htr
        exact ⟨hwf, hlk, rfl, TraceOK.nil e, trivial⟩
      | some comp =>
        have hred : runRem (f + 1) e (.withdraw cls) =
            runRem f e (.withdrawComponent comp (some cls)) := by
          simp [runRem, hg]
        rw [hred] at hrun
        obtain ⟨h1, h2, h3, h4, -⟩ :=
          ih e (.withdrawComponent comp (some cls)) e' tr res hwf hlk hrun
        exact ⟨h1, h2, h3, h4, trivial⟩
    | withdrawComponent c resolve =>
      cases hgc : getComponentClassM c resolve with
      | error er => simp [runRem, hgc] at hrun
      | ok cls₀ =>
        have hcls : cls₀ = c.cls := by
          cases resolve with
          | none =>
            simp only [getComponentClassM, Except.ok.injEq] at hgc
            exact hgc.symm
          | some rc =>
            simp only [getComponentClassM] at hgc
            by_cases h : c.cls = rc
            · rw [if_pos h] at hgc
              simp only [Except.ok.injEq] at hgc
              rw [← hgc, ← h]
            · rw [if_neg h] at hgc
              cases hgc
        subst hcls
        by_cases hcl : isLinkedComponentM c = true
        · have hcl' : c.linked = true := by simpa [isLinkedComponentM] using hcl
          cases hslot : alookup e.components (getComponentIdM c.cls) with
          | none =>
            have hred : runRem (f + 1) e (.withdrawComponent c resolve) =
                .ok (e, [], none) := by
              simp [runRem, hgc, hcl, hslot]
            rw [hred] at hrun
            simp only [Except.ok.injEq, Prod.mk.injEq] at hrun
            obtain ⟨he, htr, -⟩ := hrun
            subst he
            subst htr
            exact ⟨hwf, hlk, rfl, TraceOK.nil e, trivial⟩
          | some sv =>
            cases hlist : alookup e.linked (getComponentIdM c.cls) with
            | none =>
              have hred : runRem (f + 1) e (.withdrawComponent c resolve) =
                  .ok (e, [], none) := by
                simp [runRem, hgc, hcl, hslot, hlist]
              rw [hred] at hrun
              simp only [Except.ok.injEq, Prod.mk.injEq] at hrun
              obtain ⟨he, htr, -⟩ := hrun
              subst he
              subst htr
              exact ⟨hwf, hlk, rfl, TraceOK.nil e, trivial⟩
            | some list =>
              cases list with
              | nil => exact absurd rfl (hwf.linkNonempty _ _ hlist)
              | cons l0 ls =>
                have hhd := hwf.linkHead _ _ hlist
                have hsv : sv = l0 := by
                  rw [hslot] at hhd
                  simpa using hhd
                subst hsv
                have hl0 := hwf.linkMem _ _ sv hlist (List.mem_cons_self _ _)
                by_cases hcm : c ∈ sv :: ls
                · cases hl' : eraseFirst (sv :: ls) c with
                  | nil =>
                    have hred : runRem (f + 1) e (.withdrawComponent c resolve) =
                        .ok (⟨e.eid,
                            aerase e.components (getComponentIdM c.cls),
                            aerase e.linked (getComponentIdM c.cls), e.tags⟩,
                          [(⟨e.eid,
                              aerase e.components (getComponentIdM c.cls),
                              aerase e.linked (getComponentIdM c.cls), e.tags⟩,
                            .removed (.comp c))], some c) := by
                      simp [runRem, hgc, hcl, hslot, hlist, hl', hcm,
                        List.mem_cons, aerase_aset_self]
                    rw [hred] at hrun
                    simp only [Except.ok.injEq, Prod.mk.injEq] at hrun
                    obtain ⟨he, htr, -⟩ := hrun
                    subst he
                    subst htr
                    have hwfE := wfe_erase_both e hwf (getComponentIdM c.cls)
                    refine ⟨hwfE, ?_, rfl, ?_, trivial⟩
                    · intro id' v h
                      exact hlk id' v
                        (alookup_aerase_sub _ _ _ _ hwf.compKeys h)
                    · refine traceOK_single_removed e _ (.comp c) rfl hwfE ?_
                      exact removedOK_full_erase e _ c (getComponentIdM c.cls)
                        rfl rfl rfl hwf.compKeys (by rw [hslot]; rfl)
                  | cons h2 t2 =>
                    have hred : runRem (f + 1) e (.withdrawComponent c resolve) =
                        .ok (⟨e.eid,
                            aset e.components (getComponentIdM c.cls) h2,
                            aset e.linked (getComponentIdM c.cls) (h2 :: t2),
                            e.tags⟩,
                          [(⟨e.eid,
                              aset e.components (getComponentIdM c.cls) h2,
                              aset e.linked (getComponentIdM c.cls) (h2 :: t2),
                              e.tags⟩,
                            .removed (.comp c))], some c) := by
                      simp [runRem, hgc, hcl, hslot, hlist, hl', hcm,
                        List.mem_cons]
                    rw [hred] at hrun
                    simp only [Except.ok.injEq, Prod.mk.injEq] at hrun
                    obtain ⟨he, htr, -⟩ := hrun
                    subst he
                    subst htr
                    have hsub : ∀ x ∈ h2 :: t2, x ∈ sv :: ls := fun x hx =>
                      (eraseFirst_sublist (sv :: ls) c).mem (hl' ▸ hx)
                    have hnd2 : (h2 :: t2).Nodup :=
                      hl' ▸ eraseFirst_nodup _ _ (hwf.linkNodup _ _ hlist)
                    have hwfE := wfe_repoint e hwf (getComponentIdM c.cls)
                      (sv :: ls) h2 t2 hlist hsub hnd2
                    have hh2 := hwf.linkMem _ _ h2 hlist
                      (hsub h2 (List.mem_cons_self _ _))
                    refine ⟨hwfE, ?_, rfl, ?_, trivial⟩
                    · exact lk_repoint lk e hlk (getComponentIdM c.cls) h2 hh2.1
                        ⟨sv, hslot, hl0.1⟩ _
                    · refine traceOK_single_removed e _ (.comp c) rfl hwfE ?_
                      exact removedOK_partial_aset e _ c (getComponentIdM c.cls)
                        h2 rfl rfl rfl hcl' (by rw [hslot]; rfl)
                · have hl' : eraseFirst (sv :: ls) c = sv :: ls :=
                    eraseFirst_of_not_mem _ _ hcm
                  have hset1 : aset e.linked (getComponentIdM c.cls) (sv :: ls) =
                      e.linked := aset_eq_of_lookup _ _ _ hlist
                  have hset2 : aset e.components (getComponentIdM c.cls) sv =
                      e.components := aset_eq_of_lookup _ _ _ hslot
                  have hred : runRem (f + 1) e (.withdrawComponent c resolve) =
                      .ok (e, [], none) := by
                    simp [runRem, hgc, hcl, hslot, hlist, hl', hcm,
                      List.mem_cons, hset1, hset2]
                  rw [hred] at hrun
                  simp only [Except.ok.injEq, Prod.mk.injEq] at hrun
                  obtain ⟨he, htr, -⟩ := hrun
                  subst he
                  subst htr
                  exact ⟨hwf, hlk, rfl, TraceOK.nil e, trivial⟩
        · have hred : runRem (f + 1) e (.withdrawComponent c resolve) =
              runRem f e (.removeComponent c.cls) := by
            simp [runRem, hgc, hcl]
          rw [hred] at hrun
          obtain ⟨h1, h2, h3, h4, -⟩ :=
            ih e (.removeComponent c.cls) e' tr res hwf hlk hrun
          exact ⟨h1, h2, h3, h4, trivial⟩

/-- Creating a fresh linked slot with the one-element list preserves
well-formedness. -/
theorem wfe_add_linked (e : Ent) (hwf : WFE e) (c : CInst)
    (hclk : c.linked = true)
    (hc0 : alookup e.components c.cls.name = none)
    (hl0 : alookup e.linked c.cls.name = none) :
    WFE ⟨e.eid, aset e.components c.cls.name c,
      aset e.linked c.cls.name [c], e.tags⟩ := by
  refine ⟨nodup_keys_aset _ _ _ hwf.compKeys, nodup_keys_aset _ _ _ hwf.linkKeys,
    hwf.tagsNodup, ?_, ?_, ?_, ?_, ?_, ?_, ?_⟩
  · intro id' v h
    by_cases hid : id' = c.cls.name
    · subst hid
      rw [alookup_aset_self] at h
      obtain rfl : c = v := by simpa using h
      rfl
    · rw [alookup_aset_ne _ _ _ _ hid] at h
      exact hwf.compKeyName id' v h
  · intro id' l h
    by_cases hid : id' = c.cls.name
    · subst hid
      rw [alookup_aset_self] at h
      obtain rfl : [c] = l := by simpa using h
      simp
    · rw [alookup_aset_ne _ _ _ _ hid] at h
      exact hwf.linkNonempty id' l h
  · intro id' l h
    by_cases hid : id' = c.cls.name
    · subst hid
      rw [alookup_aset_self] at h
      obtain rfl : [c] = l := by simpa using h
      show alookup (aset e.components c.cls.name c) c.cls.name = [c].head?
      rw [alookup_aset_self]
      rfl
    · rw [alookup_aset_ne _ _ _ _ hid] at h
      show alookup (aset e.components c.cls.name c) id' = l.head?
      rw [alookup_aset_ne _ _ _ _ hid]
      exact hwf.linkHead id' l h
  · intro id' l v h hv
    by_cases hid : id' = c.cls.name
    · subst hid
      rw [alookup_aset_self] at h
      obtain rfl : [c] = l := by simpa using h
      obtain rfl : v = c := by simpa using hv
      exact ⟨hclk, rfl⟩
    · rw [alookup_aset_ne _ _ _ _ hid] at h
      exact hwf.linkMem id' l v h hv
  · intro id' l h
    by_cases hid : id' = c.cls.name
    · subst hid
      rw [alookup_aset_self] at h
      obtain rfl : [c] = l := by simpa using h
      simp
    · rw [alookup_aset_ne _ _ _ _ hid] at h
      exact hwf.linkNodup id' l h
  · intro id' v h hv
    by_cases hid : id' = c.cls.name
    · subst hid
      rw [alookup_aset_self] at h
      obtain rfl : c = v := by simpa using h
      rw [hclk] at hv
      cases hv
    · rw [alookup_aset_ne _ _ _ _ hid] at h
      show alookup (aset e.linked c.cls.name [c]) id' = none
      rw [alookup_aset_ne _ _ _ _ hid]
      exact hwf.storedNonLinked id' v h hv
  · intro id' v h hv
    by_cases hid : id' = c.cls.name
    · subst hid
      show (alookup (aset e.linked c.cls.name [c]) c.cls.name).isSome = true
      rw [alookup_aset_self]
      rfl
    · rw [alookup_aset_ne _ _ _ _ hid] at h
      show (alookup (aset e.linked c.cls.name [c]) id').isSome = true
      rw [alookup_aset_ne _ _ _ _ hid]
      exact hwf.linkStored id' v h hv

/-- Appending at the tail of an existing list preserves well-formedness. -/
theorem wfe_append_tail (e : Ent) (hwf : WFE e) (c : CInst) (l : List CInst)
    (hl : alookup e.linked c.cls.name = some l) (hnotin : c ∉ l)
    (hclk : c.linked = true) :
    WFE ⟨e.eid, e.components, aset e.linked c.cls.name (l ++ [c]), e.tags⟩ := by
  refine ⟨hwf.compKeys, nodup_keys_aset _ _ _ hwf.linkKeys, hwf.tagsNodup,
    hwf.compKeyName, ?_, ?_, ?_, ?_, ?_, ?_⟩
  · intro id' l' h
    by_cases hid : id' = c.cls.name
    · subst hid
      rw [alookup_aset_self] at h
      obtain rfl : l ++ [c] = l' := by simpa using h
      simp
    · rw [alookup_aset_ne _ _ _ _ hid] at h
      exact hwf.linkNonempty id' l' h
  · intro id' l' h
    by_cases hid : id' = c.cls.name
    · subst hid
      rw [alookup_aset_self] at h
      obtain rfl : l ++ [c] = l' := by simpa using h
      have hne := hwf.linkNonempty _ _ hl
      have hh := hwf.linkHead _ _ hl
      cases l with
      | nil => exact absurd rfl hne
      | cons a t =>
        show alookup e.components c.cls.name = ((a :: t) ++ [c]).head?
        rw [hh]
        rfl
    · rw [alookup_aset_ne _ _ _ _ hid] at h
      exact hwf.linkHead id' l' h
  · intro id' l' v h hv
    by_cases hid : id' = c.cls.name
    · subst hid
      rw [alookup_aset_self] at h
      obtain rfl : l ++ [c] = l' := by simpa using h
      rcases List.mem_append.mp hv with hv | hv
      · exact hwf.linkMem c.cls.name l v hl hv
      · obtain rfl : v = c := by simpa using hv
        exact ⟨hclk, rfl⟩
    · rw [alookup_aset_ne _ _ _ _ hid] at h
      exact hwf.linkMem id' l' v h hv
  · intro id' l' h
    by_cases hid : id' = c.cls.name
    · subst hid
      rw [alookup_aset_self] at h
      obtain rfl : l ++ [c] = l' := by simpa using h
      simpa using List.Nodup.append (hwf.linkNodup _ _ hl) (by simp)
        (by simpa using hnotin)
    · rw [alookup_aset_ne _ _ _ _ hid] at h
      exact hwf.linkNodup id' l' h
  · intro id' v h hv
    have hln := hwf.storedNonLinked id' v h hv
    by_cases hid : id' = c.cls.name
    · subst hid
      rw [hln] at hl
      cases hl
    · show alookup (aset e.linked c.cls.name (l ++ [c])) id' = none
      rw [alookup_aset_ne _ _ _ _ hid]
      exact hln
  · intro id' v h hv
    by_cases hid : id' = c.cls.name
    · subst hid
      show (alookup (aset e.linked c.cls.name (l ++ [c])) c.cls.name).isSome = true
      rw [alookup_aset_self]
      rfl
    · show (alookup (aset e.linked c.cls.name (l ++ [c])) id').isSome = true
      rw [alookup_aset_ne _ _ _ _ hid]
      exact hwf.linkStored id' v h hv

/-- Storing a non-linked instance into a slot with no linked list preserves
well-formedness. -/
theorem wfe_add_nonlinked (e : Ent) (hwf : WFE e) (c : CInst)
    (hnl : c.linked = false)
    (hl0 : alookup e.linked c.cls.name = none) :
    WFE ⟨e.eid, aset e.components c.cls.name c, e.linked, e.tags⟩ := by
  refine ⟨nodup_keys_aset _ _ _ hwf.compKeys, hwf.linkKeys, hwf.tagsNodup,
    ?_, hwf.linkNonempty, ?_, hwf.linkMem, hwf.linkNodup, ?_, ?_⟩
  · intro id' v h
    by_cases hid : id' = c.cls.name
    · subst hid
      rw [alookup_aset_self] at h
      obtain rfl : c = v := by simpa using h
      rfl
    · rw [alookup_aset_ne _ _ _ _ hid] at h
      exact hwf.compKeyName id' v h
  · intro id' l h
    by_cases hid : id' = c.cls.name
    · subst hid
      rw [hl0] at h
      cases h
    · show alookup (aset e.components c.cls.name c) id' = l.head?
      rw [alookup_aset_ne _ _ _ _ hid]
      exact hwf.linkHead id' l h
  · intro id' v h hv
    by_cases hid : id' = c.cls.name
    · subst hid
      exact hl0
    · rw [alookup_aset_ne _ _ _ _ hid] at h
      exact hwf.storedNonLinked id' v h hv
  · intro id' v h hv
    by_cases hid : id' = c.cls.name
    · subst hid
      rw [alookup_aset_self] at h
      obtain rfl : c = v := by simpa using h
      rw [hnl] at hv
      cases hv
    · rw [alookup_aset_ne _ _ _ _ hid] at h
      exact hwf.linkStored id' v h hv

theorem lk_aset (lk : CompId → Bool) (e : Ent) (hlk : LkOK lk e)
    (nm : CompId) (v : CInst) (hv : v.linked = lk nm)
    (lnk : List (CompId × List CInst)) :
    LkOK lk ⟨e.eid, aset e.components nm v, lnk, e.tags⟩ := by
  intro id' w h
  by_cases hid : id' = nm
  · subst hid
    rw [alookup_aset_self] at h
    obtain rfl : v = w := by simpa using h
    exact hv
  · rw [alookup_aset_ne _ _ _ _ hid] at h
    exact hlk id' w h

/-- A successful `appendComponent` of a linked instance preserves
well-formedness and produces a coherent one-event trace. -/
theorem append_trace (lk : CompId → Bool) (e : Ent) (c : CInst)
    (hwf : WFE e) (hlk : LkOK lk e)
    (hclk : c.linked = true) (hlkc : c.linked = lk c.cls.name) :
    ∀ e' tr, appendComponentM e c none = .ok (e', tr) →
      WFE e' ∧ LkOK lk e' ∧ e'.eid = e.eid ∧ TraceOK e tr e' := by
  intro e' tr hE
  cases hslot : alookup e.components (getComponentIdM c.cls) with
  | none =>
    have hl0 : alookup e.linked (getComponentIdM c.cls) = none :=
      wfe_no_slot_no_list e hwf _ hslot
    rw [append_to_absent e c hslot hl0] at hE
    simp only [Except.ok.injEq, Prod.mk.injEq] at hE
    obtain ⟨he, htr⟩ := hE
    subst he
    subst htr
    have hwfE := wfe_add_linked e hwf c hclk hslot hl0
    refine ⟨hwfE, lk_aset lk e hlk c.cls.name c hlkc _, rfl, ?_⟩
    refine TraceOK.added e _ _ (.comp c) [] rfl hwfE ?_ (TraceOK.nil _)
    refine Or.inl ⟨hclk, ?_⟩
    rw [show alookup
      (⟨e.eid, aset e.components (getComponentIdM c.cls) c,
        aset e.linked (getComponentIdM c.cls) [c], e.tags⟩ : Ent).components
      c.cls.name = some c from alookup_aset_self _ _ _]
    rfl
  | some sv =>
    have hsvl : sv.linked = true := by
      have h1 := hlk _ _ hslot
      have hlkc' : c.linked = lk (getComponentIdM c.cls) := hlkc
      rw [h1, ← hlkc', hclk]
    have hlsome := hwf.linkStored _ _ hslot hsvl
    cases hlist : alookup e.linked (getComponentIdM c.cls) with
    | none =>
      rw [hlist] at hlsome
      cases hlsome
    | some l =>
      by_cases hcm : c ∈ l
      · have hdup : appendComponentM e c none = .error (.duplicateAppend, e) := by
          have hlist' : alookup e.linked c.cls.name = some l := hlist
          simp [appendComponentM, getComponentClassM, getComponentIdM,
            getLinkedListM, hlist', hcm]
        rw [hdup] at hE
        cases hE
      · rw [append_to_present e c l hlist (by rw [hslot]; rfl) hcm] at hE
        simp only [Except.ok.injEq, Prod.mk.injEq] at hE
        obtain ⟨he, htr⟩ := hE
        subst he
        subst htr
        have hlist' : alookup e.linked c.cls.name = some l := hlist
        have hwfE := wfe_append_tail e hwf c l hlist' hcm hclk
        refine ⟨hwfE, fun id' v h => hlk id' v h, rfl, ?_⟩
        refine TraceOK.added e _ _ (.comp c) [] rfl hwfE ?_ (TraceOK.nil _)
        refine Or.inl ⟨hclk, ?_⟩
        show (alookup e.components c.cls.name).isSome = true
        rw [show alookup e.components c.cls.name = some sv from hslot]
        rfl

/-- A successful `addComponent` preserves well-formedness and produces a
coherent trace (the removal events of a replaced instance, then one added
event). -/
theorem addComp_trace (lk : CompId → Bool) (fuel : Nat) (e : Ent) (c : CInst)
    (hwf : WFE e) (hlk : LkOK lk e) (hc : c.linked = lk c.cls.name) :
    ∀ e' tr, addComponentM fuel e c none = .ok (e', tr) →
      WFE e' ∧ LkOK lk e' ∧ e'.eid = e.eid ∧ TraceOK e tr e' := by
  intro e' tr hE
  cases hslot : alookup e.components (getComponentIdM c.cls) with
  | none =>
    have hl0 := wfe_no_slot_no_list e hwf _ hslot
    by_cases hcl : isLinkedComponentM c = true
    · have hclk : c.linked = true := by simpa [isLinkedComponentM] using hcl
      have hred : addComponentM fuel e c none = appendComponentM e c none := by
        rw [append_to_absent e c hslot hl0]
        simp [addComponentM, getComponentClassM, hslot, hcl,
          append_to_absent e c hslot hl0]
      rw [hred] at hE
      exact append_trace lk e c hwf hlk hclk hc e' tr hE
    · have hnl : c.linked = false := by simpa [isLinkedComponentM] using hcl
      have hred : addComponentM fuel e c none =
          .ok (⟨e.eid, aset e.components (getComponentIdM c.cls) c,
              e.linked, e.tags⟩,
            [(⟨e.eid, aset e.components (getComponentIdM c.cls) c,
                e.linked, e.tags⟩, .added (.comp c))]) := by
        simp [addComponentM, getComponentClassM, hslot, hcl]
      rw [hred] at hE
      simp only [Except.ok.injEq, Prod.mk.injEq] at hE
      obtain ⟨he, htr⟩ := hE
      subst he
      subst htr
      have hwfE := wfe_add_nonlinked e hwf c hnl hl0
      refine ⟨hwfE, lk_aset lk e hlk (getComponentIdM c.cls) c hc _, rfl, ?_⟩
      refine TraceOK.added e _ _ (.comp c) [] rfl hwfE ?_ (TraceOK.nil _)
      refine Or.inr ⟨hnl, ?_⟩
      exact alookup_aset_self _ _ _
  | some existing =>
    by_cases hnoop : (¬ isLinkedComponentM c = true) ∧ existing = c
    · have hred : addComponentM fuel e c none = .ok (e, []) := by
        simp [addComponentM, getComponentClassM, hslot, hnoop.1, hnoop.2]
      rw [hred] at hE
      simp only [Except.ok.injEq, Prod.mk.injEq] at hE
      obtain ⟨he, htr⟩ := hE
      subst he
      subst htr
      exact ⟨hwf, hlk, rfl, TraceOK.nil e⟩
    · cases hrem : runRem fuel e (.removeComponent c.cls) with
      | error er =>
        have hred : addComponentM fuel e c none = .error er := by
          simp [addComponentM, getComponentClassM, hslot, hnoop, hrem]
          intro h1 h2
          exact hnoop ⟨by simp [h1], h2⟩
        rw [hred] at hE
        cases hE
      | ok trip =>
        obtain ⟨e₁, tr₁, r₁⟩ := trip
        obtain ⟨hwf₁, hlk₁, heid₁, htr₁, hpost₁⟩ :=
          runRem_trace lk fuel e (.removeComponent c.cls) e₁ tr₁ r₁ hwf hlk hrem
        have hc0 : alookup e₁.components (getComponentIdM c.cls) = none :=
          hpost₁.1
        have hl0 : alookup e₁.linked (getComponentIdM c.cls) = none :=
          hpost₁.2
        by_cases hcl : isLinkedComponentM c = true
        · have hclk : c.linked = true := by simpa [isLinkedComponentM] using hcl
          have hred : addComponentM fuel e c none =
              .ok (⟨e₁.eid, aset e₁.components (getComponentIdM c.cls) c,
                  aset e₁.linked (getComponentIdM c.cls) [c], e₁.tags⟩,
                tr₁ ++ [(⟨e₁.eid,
                    aset e₁.components (getComponentIdM c.cls) c,
                    aset e₁.linked (getComponentIdM c.cls) [c], e₁.tags⟩,
                  .added (.comp c))]) := by
            simp [addComponentM, getComponentClassM, hslot, hnoop, hrem, hcl,
              append_to_absent e₁ c hc0 hl0]
          rw [hred] at hE
          simp only [Except.ok.injEq, Prod.mk.injEq] at hE
          obtain ⟨he, htr⟩ := hE
          subst he
          subst htr
          have hwfE := wfe_add_linked e₁ hwf₁ c hclk hc0 hl0
          refine ⟨hwfE, lk_aset lk e₁ hlk₁ c.cls.name c hc _, heid₁, ?_⟩
          refine TraceOK_append e tr₁ e₁ htr₁ _ _ ?_
          refine TraceOK.added e₁ _ _ (.comp c) [] rfl hwfE ?_ (TraceOK.nil _)
          refine Or.inl ⟨hclk, ?_⟩
          rw [show alookup
            (⟨e₁.eid, aset e₁.components (getComponentIdM c.cls) c,
              aset e₁.linked (getComponentIdM c.cls) [c], e₁.tags⟩ : Ent).components
            c.cls.name = some c from alookup_aset_self _ _ _]
          rfl
        · have hnl : c.linked = false := by simpa [isLinkedComponentM] using hcl
          have hred : addComponentM fuel e c none =
              .ok (⟨e₁.eid, aset e₁.components (getComponentIdM c.cls) c,
                  e₁.linked, e₁.tags⟩,
                tr₁ ++ [(⟨e₁.eid,
                    aset e₁.components (getComponentIdM c.cls) c,
                    e₁.linked, e₁.tags⟩, .added (.comp c))]) := by
            simp [addComponentM, getComponentClassM, hslot, hnoop, hrem, hcl]
            exact fun h2 => hnoop ⟨hcl, h2⟩
          rw [hred] at hE
          simp only [Except.ok.injEq, Prod.mk.injEq] at hE
          obtain ⟨he, htr⟩ := hE
          subst he
          subst htr
          have hwfE := wfe_add_nonlinked e₁ hwf₁ c hnl hl0
          refine ⟨hwfE, lk_aset lk e₁ hlk₁ (getComponentIdM c.cls) c hc _,
            heid₁, ?_⟩
          refine TraceOK_append e tr₁ e₁ htr₁ _ _ ?_
          refine TraceOK.added e₁ _ _ (.comp c) [] rfl hwfE ?_ (TraceOK.nil _)
          refine Or.inr ⟨hnl, ?_⟩
          exact alookup_aset_self _ _ _

/-- The mild well-typedness of an operation: appended instances are linked
components, and every instance respects the (per class name) linkedness
classification — in the source, linkedness is decided by the class
(`instanceof LinkedComponent`), so one class name is never used both ways. -/
def OpLk (lk : CompId → Bool) : Op → Prop
  | .add (.comp c) => c.linked = lk c.cls.name
  | .append c => c.linked = true ∧ c.linked = lk c.cls.name
  | _ => True

theorem stepM_tail (fuel : Nat) (cfg : QCfg) (lk : CompId → Bool)
    (hpres : ∀ a b : Ent, (∀ k, hasKeyM a k = hasKeyM b k) →
      cfg.pred a = cfg.pred b)
    (e : Ent) (q : QState) (e₁ : Ent) (tr : List TrEv)
    (hwf₁ : WFE e₁) (hlk₁ : LkOK lk e₁) (heid₁ : e₁.eid = e.eid)
    (htr₁ : TraceOK e tr e₁)
    (hnd : q.entities.Nodup) (hsync : queryHasM q e.eid = cfg.pred e) :
    ∀ q₁ evs₁, processTraceM fuel cfg q tr = .ok (q₁, evs₁) →
      WFE e₁ ∧ LkOK lk e₁ ∧ e₁.eid = e.eid ∧ q₁.entities.Nodup ∧
        queryHasM q₁ e₁.eid = cfg.pred e₁ := by
  intro q₁ evs₁ hpt
  have h := processTrace_sync fuel cfg hpres e tr e₁ htr₁ q hnd hsync q₁ evs₁ hpt
  refine ⟨hwf₁, hlk₁, heid₁, h.1, ?_⟩
  rw [heid₁]
  exact h.2

/-- One engine step: a successful operation plus synchronous event
processing keeps the entity well formed and the query in sync. -/
theorem stepM_sync (fuel : Nat) (cfg : QCfg) (lk : CompId → Bool)
    (hpres : ∀ a b : Ent, (∀ k, hasKeyM a k = hasKeyM b k) →
      cfg.pred a = cfg.pred b)
    (e : Ent) (q : QState) (op : Op)
    (hwf : WFE e) (hlk : LkOK lk e) (hop : OpLk lk op)
    (hnd : q.entities.Nodup) (hsync : queryHasM q e.eid = cfg.pred e) :
    ∀ e' q' evs, stepM fuel cfg e q op = .ok (e', q', evs) →
      WFE e' ∧ LkOK lk e' ∧ e'.eid = e.eid ∧ q'.entities.Nodup ∧
        queryHasM q' e'.eid = cfg.pred e' := by
  intro e' q' evs hstep
  cases op with
  | add x =>
    cases x with
    | tag t =>
      cases hpair : addTagM e t with
      | mk e₁ tr =>
        have hfacts := addTag_trace e t hwf
        rw [hpair] at hfacts
        cases hpt : processTraceM fuel cfg q tr with
        | error er => simp [stepM, addM, hpair, hpt] at hstep
        | ok pr =>
          obtain ⟨q₁, evs₁⟩ := pr
          have hred : stepM fuel cfg e q (.add (.tag t)) = .ok (e₁, q₁, evs₁) := by
            simp [stepM, addM, hpair, hpt]
          rw [hred] at hstep
          simp only [Except.ok.injEq, Prod.mk.injEq] at hstep
          obtain ⟨he, hq, -⟩ := hstep
          subst he
          subst hq
          have hlk₁ : LkOK lk e₁ := by
            intro id' v h
            apply hlk id' v
            rw [← hfacts.2.2.1]
            exact h
          exact stepM_tail fuel cfg lk hpres e q e₁ tr hfacts.1 hlk₁
            hfacts.2.1 hfacts.2.2.2 hnd hsync q₁ evs₁ hpt
    | comp c =>
      cases hE : addComponentM fuel e c none with
      | error er => simp [stepM, addM, hE] at hstep
      | ok pair =>
        obtain ⟨e₁, tr⟩ := pair
        obtain ⟨hwf₁, hlk₁, heid₁, htr₁⟩ :=
          addComp_trace lk fuel e c hwf hlk hop e₁ tr hE
        cases hpt : processTraceM fuel cfg q tr with
        | error er => simp [stepM, addM, hE, hpt] at hstep
        | ok pr =>
          obtain ⟨q₁, evs₁⟩ := pr
          have hred : stepM fuel cfg e q (.add (.comp c)) = .ok (e₁, q₁, evs₁) := by
            simp [stepM, addM, hE, hpt]
          rw [hred] at hstep
          simp only [Except.ok.injEq, Prod.mk.injEq] at hstep
          obtain ⟨he, hq, -⟩ := hstep
          subst he
          subst hq
          exact stepM_tail fuel cfg lk hpres e q e₁ tr hwf₁ hlk₁ heid₁ htr₁
            hnd hsync q₁ evs₁ hpt
  | remove k =>
    cases k with
    | tag t =>
      cases hpair : removeTagM e t with
      | mk e₁ tr =>
        have hfacts := removeTag_trace e t hwf
        rw [hpair] at hfacts
        cases hpt : processTraceM fuel cfg q tr with
        | error er => simp [stepM, removeM, hpair, hpt] at hstep
        | ok pr =>
          obtain ⟨q₁, evs₁⟩ := pr
          have hred : stepM fuel cfg e q (.remove (.tag t)) =
              .ok (e₁, q₁, evs₁) := by
            simp [stepM, removeM, hpair, hpt]
          rw [hred] at hstep
          simp only [Except.ok.injEq, Prod.mk.injEq] at hstep
          obtain ⟨he, hq, -⟩ := hstep
          subst he
          subst hq
          have hlk₁ : LkOK lk e₁ := by
            intro id' v h
            apply hlk id' v
            rw [← hfacts.2.2.1]
            exact h
          exact stepM_tail fuel cfg lk hpres e q e₁ tr hfacts.1 hlk₁
            hfacts.2.1 hfacts.2.2.2 hnd hsync q₁ evs₁ hpt
    | cls cls0 =>
      cases hE : runRem fuel e (.removeComponent cls0) with
      | error er => simp [stepM, removeM, removeComponentM, hE] at hstep
      | ok trip =>
        obtain ⟨e₁, tr, r₁⟩ := trip
        obtain ⟨hwf₁, hlk₁, heid₁, htr₁, -⟩ :=
          runRem_trace lk fuel e (.removeComponent cls0) e₁ tr r₁ hwf hlk hE
        cases hpt : processTraceM fuel cfg q tr with
        | error er => simp [stepM, removeM, removeComponentM, hE, hpt] at hstep
        | ok pr =>
          obtain ⟨q₁, evs₁⟩ := pr
          have hred : stepM fuel cfg e q (.remove (.cls cls0)) =
              .ok (e₁, q₁, evs₁) := by
            simp [stepM, removeM, removeComponentM, hE, hpt]
          rw [hred] at hstep
          simp only [Except.ok.injEq, Prod.mk.injEq] at hstep
          obtain ⟨he, hq, -⟩ := hstep
          subst he
          subst hq
          exact stepM_tail fuel cfg lk hpres e q e₁ tr hwf₁ hlk₁ heid₁ htr₁
            hnd hsync q₁ evs₁ hpt
  | append c =>
    cases hE : appendComponentM e c none with
    | error er => simp [stepM, hE] at hstep
    | ok pair =>
      obtain ⟨e₁, tr⟩ := pair
      obtain ⟨hwf₁, hlk₁, heid₁, htr₁⟩ :=
        append_trace lk e c hwf hlk hop.1 hop.2 e₁ tr hE
      cases hpt : processTraceM fuel cfg q tr with
      | error er => simp [stepM, hE, hpt] at hstep
      | ok pr =>
        obtain ⟨q₁, evs₁⟩ := pr
        have hred : stepM fuel cfg e q (.append c) = .ok (e₁, q₁, evs₁) := by
          simp [stepM, hE, hpt]
        rw [hred] at hstep
        simp only [Except.ok.injEq, Prod.mk.injEq] at hstep
        obtain ⟨he, hq, -⟩ := hstep
        subst he
        subst hq
        exact stepM_tail fuel cfg lk hpres e q e₁ tr hwf₁ hlk₁ heid₁ htr₁
          hnd hsync q₁ evs₁ hpt
  | withdraw cls0 =>
    cases hE : runRem fuel e (.withdraw cls0) with
    | error er => simp [stepM, withdrawM, hE] at hstep
    | ok trip =>
      obtain ⟨e₁, tr, r₁⟩ := trip
      obtain ⟨hwf₁, hlk₁, heid₁, htr₁, -⟩ :=
        runRem_trace lk fuel e (.withdraw cls0) e₁ tr r₁ hwf hlk hE
      cases hpt : processTraceM fuel cfg q tr with
      | error er => simp [stepM, withdrawM, hE, hpt] at hstep
      | ok pr =>
        obtain ⟨q₁, evs₁⟩ := pr
        have hred : stepM fuel cfg e q (.withdraw cls0) = .ok (e₁, q₁, evs₁) := by
          simp [stepM, withdrawM, hE, hpt]
        rw [hred] at hstep
        simp only [Except.ok.injEq, Prod.mk.injEq] at hstep
        obtain ⟨he, hq, -⟩ := hstep
        subst he
        subst hq
        exact stepM_tail fuel cfg lk hpres e q e₁ tr hwf₁ hlk₁ heid₁ htr₁
          hnd hsync q₁ evs₁ hpt

/-- C1 (amended): for every query whose predicate depends only on key
presence (which tags and component types the entity has — not on linked
multiplicities), and every finite sequence of well-typed add / remove /
append / withdraw operations each followed by the engine's synchronous
event processing, a successful run leaves `q.has(e)` equal to the predicate
evaluated on the entity's final state.  (For multiplicity predicates such
as `lengthOf` the invariant fails; see the counterexample.) -/
theorem c1_amended_membership_invariant (fuel : Nat) (cfg : QCfg)
    (lk : CompId → Bool)
    (hpres : ∀ a b : Ent, (∀ k, hasKeyM a k = hasKeyM b k) →
      cfg.pred a = cfg.pred b) :
    ∀ (ops : List Op) (e : Ent) (q : QState),
      WFE e → LkOK lk e → (∀ op ∈ ops, OpLk lk op) →
      q.entities.Nodup → queryHasM q e.eid = cfg.pred e →
      ∀ e' q', runOpsM fuel cfg e q ops = .ok (e', q') →
        queryHasM q' e'.eid = cfg.pred e' := by
  intro ops
  induction ops with
  | nil =>
    intro e q hwf hlk hops hnd hsync e' q' hrun
    simp only [runOpsM, Except.ok.injEq, Prod.mk.injEq] at hrun
    obtain ⟨he, hq⟩ := hrun
    subst he
    subst hq
    exact hsync
  | cons op rest ih =>
    intro e q hwf hlk hops hnd hsync e' q' hrun
    cases hstep : stepM fuel cfg e q op with
    | error er => simp [runOpsM, hstep] at hrun
    | ok trip =>
      obtain ⟨e₁, q₁, evs₁⟩ := trip
      obtain ⟨hwf₁, hlk₁, heid₁, hnd₁, hsync₁⟩ :=
        stepM_sync fuel cfg lk hpres e q op hwf hlk
          (hops op (List.mem_cons_self _ _)) hnd hsync e₁ q₁ evs₁ hstep
      have hrun' : runOpsM fuel cfg e₁ q₁ rest = .ok (e', q') := by
        simpa [runOpsM, hstep] using hrun
      exact ih e₁ q₁ hwf₁ hlk₁ (fun o ho => hops o (List.mem_cons_of_mem _ ho))
        hnd₁ hsync₁ e' q' hrun'

/-- C1 (counterexample): with the multiplicity predicate "exactly two Damage
instances", the sequence append, append, withdraw (each followed by engine
processing) leaves the entity a member although the predicate on its final
state is false: the final withdrawal is a partial linked removal, whose
query shadow equals the post-removal state, so no eviction fires. -/
theorem c1_counterexample_lengthof :
    runOpsM 10 ⟨fun e => decide (lengthOfM e damageCls = 2), true, true⟩
      ⟨1, [], [], []⟩ ⟨[], ⟨0, [], [], []⟩, ⟨none, ⟨2, [], [], []⟩⟩⟩
      [.append dmgA, .append dmgB, .withdraw damageCls] =
      .ok (⟨1, [("Damage", dmgB)], [("Damage", [dmgB])], []⟩,
        ⟨[1], ⟨0, [("Damage", dmgB)], [("Damage", [dmgB])], []⟩,
         ⟨some 1, ⟨2, [], [("Damage", [dmgA, dmgB])], []⟩⟩⟩) ∧
    queryHasM ⟨[1], ⟨0, [("Damage", dmgB)], [("Damage", [dmgB])], []⟩,
        ⟨some 1, ⟨2, [], [("Damage", [dmgA, dmgB])], []⟩⟩⟩ 1 = true ∧
    decide (lengthOfM ⟨1, [("Damage", dmgB)], [("Damage", [dmgB])], []⟩
        damageCls = 2) = false :=
  ⟨rfl, by decide, by decide⟩

/-- Witness for the amended C1: the presence predicate "has a Damage
component" stays in sync through append, append, withdraw. -/
theorem c1_amended_membership_invariant_witness :
    queryHasM (⟨[1], ⟨0, [("Damage", dmgB)], [("Damage", [dmgB])], []⟩,
        ⟨some 1, ⟨2, [], [("Damage", [dmgA])], []⟩⟩⟩ : QState) 1 =
      hasComponentM ⟨1, [("Damage", dmgB)], [("Damage", [dmgB])], []⟩
        damageCls :=
  c1_amended_membership_invariant 10
    ⟨fun e => hasComponentM e damageCls, true, true⟩ (fun _ => true)
    (fun a b h => h (.cls damageCls))
    [.append dmgA, .append dmgB, .withdraw damageCls]
    ⟨1, [], [], []⟩ ⟨[], ⟨0, [], [], []⟩, ⟨none, ⟨2, [], [], []⟩⟩⟩
    ⟨by decide, by decide, by decide,
      fun id c h => by simp [alookup] at h,
      fun id l h => by simp [alookup] at h,
      fun id l h => by simp [alookup] at h,
      fun id l c h hm => by simp [alookup] at h,
      fun id l h => by simp [alookup] at h,
      fun id c h hl => by simp [alookup] at h,
      fun id c h hl => by simp [alookup] at h⟩
    (fun id v h => by simp [alookup] at h)
    (by
      intro op hop
      simp only [List.mem_cons, List.not_mem_nil, or_false] at hop
      rcases hop with rfl | rfl | rfl
      · exact ⟨rfl, rfl⟩
      · exact ⟨rfl, rfl⟩
      · trivial)
    (by decide) (by decide)
    ⟨1, [("Damage", dmgB)], [("Damage", [dmgB])], []⟩
    ⟨[1], ⟨0, [("Damage", dmgB)], [("Damage", [dmgB])], []⟩,
      ⟨some 1, ⟨2, [], [("Damage", [dmgA])], []⟩⟩⟩
    rfl

end TickKnock
